import Mathlib

/-!
# Fixed-shape matrices of `utils/Matrix.h` and helpers of `utils/utils.cpp`

A shallow embedding of the `Matrix<M, N, T>` class template and its operations, and of
the string, vector and integer helpers of `utils/utils.cpp` and `utils/utils.h`.

* The storage `T data[M * N]` is a list of exactly `M * N` elements (row-major).
* `get` / `set` are the unchecked accessors of the source.  An index outside the
  storage is undefined behaviour in C++; here such an access yields `none`, and
  so does every operation that performs one.
* Every `for` loop of the source is a `forLoop` with the same bounds and body.
* The element type `T` is a parameter, as in the template.  `CInt` is the 32-bit
  `int` with two's complement wrap-around.
* `norm()` and `dot()` accumulate in a `float`.  What they use of `float` is the
  parameter `FloatOps`: `f32CInt` and `f32Int` are the binary32 arithmetic on the
  integer values met with integer elements (`roundF32`, `sqrtF32Trunc`), and
  `exactOps` is exact rational arithmetic.
* A `std::string` is the list of its characters and a `std::vector` a list; `npos` is
  `none`, and so is a call that throws or exits.  A `while` loop runs on a fuel that is
  shown to suffice where a result is claimed.
-/

/-- Mathematical matrices (Mathlib) with rows and columns indexed by `Fin`. -/
abbrev MathMatrix (m n : Nat) (T : Type) := Matrix (Fin m) (Fin n) T

/-- The mathematical determinant (Leibniz formula of Mathlib). -/
abbrev mathDet {n : Nat} {T : Type} [CommRing T] (A : MathMatrix n n T) : T := Matrix.det A

/-- The mathematical matrix product. -/
abbrev mathMul {m n l : Nat} {T : Type} [CommRing T]
    (A : MathMatrix m n T) (B : MathMatrix n l T) : MathMatrix m l T := A * B

namespace Aoc

/-- The loop `for (int i = lo; i < lo + n; i++) s = body(i, s)`: `n` iterations
starting at `lo`, threading the loop state `s`; an iteration that fails
(`none`) makes the whole loop fail. -/
def forLoop {σ : Type} (body : Nat → σ → Option σ) : Nat → Nat → σ → Option σ
  | _, 0, s => some s
  | i, n + 1, s => (body i s).bind (forLoop body (i + 1) n)

/-- The C++ `/` of an element type.  `none` where the C++ operation is undefined
(integer division by zero, or a quotient that is not representable). -/
class CppDiv (T : Type) where
  cdiv : T → T → Option T

/-- Division of mathematical integers with the rounding of C++ (towards zero);
undefined for a zero divisor. -/
instance : CppDiv Int := ⟨fun a b => if b = 0 then none else some (Int.tdiv a b)⟩

/-- Reduction of an integer to the 32-bit two's complement range. -/
def wrap32 (x : Int) : Int := (x + 2147483648) % 4294967296 - 2147483648

/-- The C++ type `int` (32 bits): the integers from `-2^31` to `2^31 - 1`.
C++ leaves signed overflow undefined; the arithmetic below wraps around, which
is what two's complement hardware computes. -/
structure CInt where
  val : Int
  lo : -2147483648 ≤ val
  hi : val ≤ 2147483647
deriving DecidableEq

/-- The `int` that an integer wraps to. -/
def CInt.wrap (x : Int) : CInt :=
  ⟨wrap32 x, by unfold wrap32; omega, by unfold wrap32; omega⟩

instance : Zero CInt := ⟨CInt.wrap 0⟩

/-- The literals of type `int`. -/
instance (n : Nat) : OfNat CInt n := ⟨CInt.wrap n⟩

/-- Conversion of an integer value to `int`. -/
instance : IntCast CInt := ⟨CInt.wrap⟩

/-- The unary `-int`, wrapping on overflow. -/
instance : Neg CInt := ⟨fun a => CInt.wrap (-a.val)⟩

/-- `int + int`, wrapping on overflow. -/
instance : Add CInt := ⟨fun a b => CInt.wrap (a.val + b.val)⟩

/-- `int - int`, wrapping on overflow. -/
instance : Sub CInt := ⟨fun a b => CInt.wrap (a.val - b.val)⟩

/-- `int * int`, wrapping on overflow. -/
instance : Mul CInt := ⟨fun a b => CInt.wrap (a.val * b.val)⟩

/-- `int / int`: truncating division; undefined for a zero divisor and for
`INT_MIN / -1`, whose quotient is not representable. -/
instance : CppDiv CInt :=
  ⟨fun a b =>
    if b.val = 0 ∨ (a.val = -2147483648 ∧ b.val = -1) then none
    else some (CInt.wrap (Int.tdiv a.val b.val))⟩

/-- The 32-bit `int` with its wrap-around `+`, `-`, `*` and unary `-` is a commutative
ring: the integers modulo `2^32`. -/
@[reducible] def CInt.commRing : CommRing CInt where
  add := Add.add
  zero := Zero.zero
  neg := Neg.neg
  sub := Sub.sub
  mul := Mul.mul
  one := CInt.wrap 1
  natCast := fun n => CInt.wrap n
  intCast := IntCast.intCast
  nsmul := fun n a => CInt.wrap (n * a.val)
  zsmul := fun z a => CInt.wrap (z * a.val)
  add_assoc := fun a b c => by
    show CInt.wrap (wrap32 (a.val + b.val) + c.val) = CInt.wrap (a.val + wrap32 (b.val + c.val))
    simp only [CInt.wrap, CInt.mk.injEq, wrap32]
    omega
  zero_add := fun a => by
    obtain ⟨v, lo, hi⟩ := a
    show CInt.wrap (wrap32 0 + v) = ⟨v, lo, hi⟩
    simp only [CInt.wrap, CInt.mk.injEq, wrap32]
    omega
  add_zero := fun a => by
    obtain ⟨v, lo, hi⟩ := a
    show CInt.wrap (v + wrap32 0) = ⟨v, lo, hi⟩
    simp only [CInt.wrap, CInt.mk.injEq, wrap32]
    omega
  add_comm := fun a b => by
    show CInt.wrap (a.val + b.val) = CInt.wrap (b.val + a.val)
    rw [Int.add_comm]
  neg_add_cancel := fun a => by
    show CInt.wrap (wrap32 (-a.val) + a.val) = CInt.wrap 0
    simp only [CInt.wrap, CInt.mk.injEq, wrap32]
    omega
  sub_eq_add_neg := fun a b => by
    show CInt.wrap (a.val - b.val) = CInt.wrap (a.val + wrap32 (-b.val))
    simp only [CInt.wrap, CInt.mk.injEq, wrap32]
    omega
  nsmul_zero := fun a => by
    show CInt.wrap (((0 : Nat) : Int) * a.val) = CInt.wrap 0
    simp
  nsmul_succ := fun n a => by
    show CInt.wrap (((n + 1 : Nat) : Int) * a.val) = CInt.wrap (wrap32 ((n : Int) * a.val) + a.val)
    have e : ((n + 1 : Nat) : Int) * a.val = (n : Int) * a.val + a.val := by push_cast; ring
    rw [e]
    simp only [CInt.wrap, CInt.mk.injEq, wrap32]
    omega
  zsmul_zero' := fun a => by
    show CInt.wrap ((0 : Int) * a.val) = CInt.wrap 0
    simp
  zsmul_succ' := fun n a => by
    show CInt.wrap (((n.succ : Nat) : Int) * a.val)
      = CInt.wrap (wrap32 (((n : Nat) : Int) * a.val) + a.val)
    have e : ((n.succ : Nat) : Int) * a.val = (n : Int) * a.val + a.val := by push_cast; ring
    rw [e]
    simp only [CInt.wrap, CInt.mk.injEq, wrap32]
    omega
  zsmul_neg' := fun n a => by
    show CInt.wrap (Int.negSucc n * a.val) = CInt.wrap (-wrap32 (((n.succ : Nat) : Int) * a.val))
    have e : Int.negSucc n * a.val = -(((n.succ : Nat) : Int) * a.val) := by
      rw [Int.negSucc_eq]; push_cast; ring
    rw [e]
    simp only [CInt.wrap, CInt.mk.injEq, wrap32]
    omega
  mul_assoc := fun a b c => by
    show CInt.wrap (wrap32 (a.val * b.val) * c.val) = CInt.wrap (a.val * wrap32 (b.val * c.val))
    have h1 : wrap32 (a.val * b.val) = a.val * b.val
        + 4294967296 * -((a.val * b.val + 2147483648) / 4294967296) := by
      simp only [wrap32]; omega
    have h2 : wrap32 (b.val * c.val) = b.val * c.val
        + 4294967296 * -((b.val * c.val + 2147483648) / 4294967296) := by
      simp only [wrap32]; omega
    have e1 : (a.val * b.val + 4294967296 * -((a.val * b.val + 2147483648) / 4294967296)) * c.val
        = a.val * b.val * c.val
          + 4294967296 * (-((a.val * b.val + 2147483648) / 4294967296) * c.val) := by ring
    have e2 : a.val * (b.val * c.val + 4294967296 * -((b.val * c.val + 2147483648) / 4294967296))
        = a.val * b.val * c.val
          + 4294967296 * (a.val * -((b.val * c.val + 2147483648) / 4294967296)) := by ring
    rw [h1, h2, e1, e2]
    simp only [CInt.wrap, CInt.mk.injEq, wrap32]
    omega
  mul_comm := fun a b => by
    show CInt.wrap (a.val * b.val) = CInt.wrap (b.val * a.val)
    rw [Int.mul_comm]
  one_mul := fun a => by
    obtain ⟨v, lo, hi⟩ := a
    show CInt.wrap (wrap32 1 * v) = ⟨v, lo, hi⟩
    have : wrap32 1 = 1 := by decide
    rw [this, Int.one_mul]
    simp only [CInt.wrap, CInt.mk.injEq, wrap32]
    omega
  mul_one := fun a => by
    obtain ⟨v, lo, hi⟩ := a
    show CInt.wrap (v * wrap32 1) = ⟨v, lo, hi⟩
    have : wrap32 1 = 1 := by decide
    rw [this, Int.mul_one]
    simp only [CInt.wrap, CInt.mk.injEq, wrap32]
    omega
  zero_mul := fun a => by
    show CInt.wrap (wrap32 0 * a.val) = CInt.wrap 0
    have : wrap32 0 = 0 := by decide
    rw [this, Int.zero_mul]
  mul_zero := fun a => by
    show CInt.wrap (a.val * wrap32 0) = CInt.wrap 0
    have : wrap32 0 = 0 := by decide
    rw [this, Int.mul_zero]
  left_distrib := fun a b c => by
    show CInt.wrap (a.val * wrap32 (b.val + c.val))
      = CInt.wrap (wrap32 (a.val * b.val) + wrap32 (a.val * c.val))
    have h1 : wrap32 (b.val + c.val) = b.val + c.val
        + 4294967296 * -((b.val + c.val + 2147483648) / 4294967296) := by
      simp only [wrap32]; omega
    have e1 : a.val * (b.val + c.val
          + 4294967296 * -((b.val + c.val + 2147483648) / 4294967296))
        = a.val * b.val + a.val * c.val
          + 4294967296 * (a.val * -((b.val + c.val + 2147483648) / 4294967296)) := by ring
    rw [h1, e1]
    simp only [CInt.wrap, CInt.mk.injEq, wrap32]
    omega
  right_distrib := fun a b c => by
    show CInt.wrap (wrap32 (a.val + b.val) * c.val)
      = CInt.wrap (wrap32 (a.val * c.val) + wrap32 (b.val * c.val))
    have h1 : wrap32 (a.val + b.val) = a.val + b.val
        + 4294967296 * -((a.val + b.val + 2147483648) / 4294967296) := by
      simp only [wrap32]; omega
    have e1 : (a.val + b.val
          + 4294967296 * -((a.val + b.val + 2147483648) / 4294967296)) * c.val
        = a.val * c.val + b.val * c.val
          + 4294967296 * (-((a.val + b.val + 2147483648) / 4294967296) * c.val) := by ring
    rw [h1, e1]
    simp only [CInt.wrap, CInt.mk.injEq, wrap32]
    omega
  natCast_zero := rfl
  natCast_succ := fun n => by
    show CInt.wrap ((n + 1 : Nat) : Int) = CInt.wrap (wrap32 (n : Int) + wrap32 1)
    have : wrap32 1 = 1 := by decide
    rw [this]
    simp only [CInt.wrap, CInt.mk.injEq, wrap32]
    omega
  intCast_ofNat := fun n => rfl
  intCast_negSucc := fun n => by
    show CInt.wrap (Int.negSucc n) = CInt.wrap (-wrap32 ((n + 1 : Nat) : Int))
    rw [Int.negSucc_coe]
    simp only [CInt.wrap, CInt.mk.injEq, wrap32]
    omega

/-- Division of rationals (exact arithmetic); undefined for a zero divisor. -/
instance : CppDiv ℚ := ⟨fun a b => if b = 0 then none else some (a / b)⟩

/-- What `norm()` and `dot()` use of the C++ type `float`, for the element type
`T`; `F` is the type of the `float` values. -/
structure FloatOps (T F : Type) where
  /-- The literal `0.f`. -/
  zero : F
  /-- The conversion of an element to `float`, as in `sum += e`. -/
  ofElem : T → F
  /-- The sum `float + float`. -/
  add : F → F → F
  /-- The value of `std::sqrt(x)` converted to `T`, as in `return std::sqrt(sum);`
  of a function that returns `T`; `none` where the conversion is undefined. -/
  sqrtToElem : F → Option T

/-- The nearest value of the IEEE 754 binary32 format (`float`: 24 significant
bits, ties to the even significand) to the integer `x`.  The exponent range is
not limited; every `float` met here is far below the largest one. -/
def roundF32 (x : Int) : Int :=
  let a := x.natAbs
  if a < 16777216 then x
  else
    let e := Nat.log2 a - 23
    let q := a / 2 ^ e
    let r := a % 2 ^ e
    let up := decide (2 ^ (e - 1) < r) || (decide (r = 2 ^ (e - 1)) && decide (q % 2 = 1))
    let m : Int := (((if up then q + 1 else q) * 2 ^ e : Nat) : Int)
    if x < 0 then -m else m

/-- The integer part of the `float` nearest to the square root of the `float`
whose value is the natural number `s`: `std::sqrt` is correctly rounded, and the
conversion of a `float` to an integer type discards the fraction. -/
def sqrtF32Trunc (s : Nat) : Nat :=
  if s = 0 then 0
  else
    let k := Nat.sqrt s
    let l := Nat.log2 k
    if l < 23 then
      let sc := 2 ^ (2 * (23 - l))
      let q := Nat.sqrt (s * sc)
      (if (2 * q + 1) ^ 2 < 4 * s * sc then q + 1 else q) / 2 ^ (23 - l)
    else
      let u := 2 ^ (l - 23)
      let q := k / u
      let up := decide ((2 * q * u + u) ^ 2 < 4 * s) ||
        (decide (4 * s = (2 * q * u + u) ^ 2) && decide (q % 2 = 1))
      (if up then q + 1 else q) * u

/-- The `float` values that occur when the elements are integers: they are
integers themselves, and each is given by its value. -/
abbrev IntFloat := Int

/-- The `float` arithmetic that `norm()` and `dot()` perform on elements of the
32-bit type `int`.  The square root of a negative sum is a NaN, and the conversion
of a NaN or of a value outside the range of `int` is undefined. -/
def f32CInt : FloatOps CInt IntFloat where
  zero := 0
  ofElem := fun t => roundF32 t.val
  add := fun a b => roundF32 (a + b)
  sqrtToElem := fun s =>
    if h : 0 ≤ s ∧ (sqrtF32Trunc s.toNat : Int) ≤ 2147483647 then
      some ⟨sqrtF32Trunc s.toNat, by omega, h.2⟩
    else none

/-- The `float` arithmetic that `norm()` and `dot()` perform on elements that
are mathematical integers. -/
def f32Int : FloatOps Int IntFloat where
  zero := 0
  ofElem := roundF32
  add := fun a b => roundF32 (a + b)
  sqrtToElem := fun s => if 0 ≤ s then some (sqrtF32Trunc s.toNat) else none

/-- A `std::string`. -/
abbrev Str := List Char

/-- `std::isspace` in the default "C" locale: the space and `\t \n \v \f \r`
(codes 9 to 13). -/
def isspace (c : Char) : Bool := c.toNat = 32 || (9 ≤ c.toNat && c.toNat ≤ 13)

/-- `trim` (utils.cpp:44-54): erase up to the first non-space character, then erase
after the last non-space character. -/
def trim (s : Str) : Str :=
  let s := s.dropWhile isspace
  (s.reverse.dropWhile isspace).reverse

/-- The search of `std::string::find` through the rest `t` of the string, `i` being the
position of the head of `t`: the first position where `pat` starts. -/
def findFrom (pat : Str) : Str → Nat → Option Nat
  | [], i => if pat = [] then some i else none
  | c :: cs, i => if pat.isPrefixOf (c :: cs) then some i else findFrom pat cs (i + 1)

/-- `s.find(pat, pos)`: the first position `>= pos` where `pat` starts in `s`, `none`
(npos) when there is none or `pos > s.size()`. -/
def find (s pat : Str) (pos : Nat) : Option Nat :=
  if pos ≤ s.length then findFrom pat (s.drop pos) pos else none

/-- `s.substr(pos, count)`: throws `std::out_of_range` when `pos > s.size()`. -/
def substr (s : Str) (pos count : Nat) : Option Str :=
  if pos ≤ s.length then some ((s.drop pos).take count) else none

/-- `s.substr(pos)`: throws `std::out_of_range` when `pos > s.size()`. -/
def substrFrom (s : Str) (pos : Nat) : Option Str :=
  if pos ≤ s.length then some (s.drop pos) else none

/-- The largest length of a `std::string` (`max_size()`), for a 64-bit `size_t`. -/
def stringMaxSize : Nat := 9223372036854775807

/-- The constructor `std::string(count, c)`: throws `std::length_error` when
`count > max_size()`. -/
def stringFill (count : Nat) (c : Char) : Option Str :=
  if count ≤ stringMaxSize then some (List.replicate count c) else none

/-- The `operator+` of two strings: throws `std::length_error` when the result would be
longer than `max_size()`. -/
def stringAppend (a b : Str) : Option Str :=
  if a.length + b.length ≤ stringMaxSize then some (a ++ b) else none

/-- `pad_left` (utils.cpp:14-16):
`return std::string(std::max(len - s.length(), 0ull), filler) + s;`
The `int len` is converted to the unsigned 64-bit type of `s.length()` and the
difference is taken modulo `2^64` (the call `std::max(.., 0ull)` only compiles where
`size_t` is `unsigned long long`). -/
def pad_left (s : Str) (len : Int) (filler : Char) : Option Str := do
  let diff := ((len % 18446744073709551616 - (s.length : Int) % 18446744073709551616)
    % 18446744073709551616).toNat
  let fill ← stringFill (max diff 0) filler
  stringAppend fill s

/-- The `while` loop of `find_nth` (utils.cpp:79-85), with the early `return` of its
body.  `fuel` bounds the number of iterations; the result is `none` when it runs out. -/
def find_nthLoop (str pattern : Str) (n : Nat) : Nat → Option Nat → Nat → Option (Option Nat)
  | _, none, _ => some none
  | 0, some _, _ => none
  | fuel + 1, some last_idx, count =>
    if count = n then some (some last_idx)
    else find_nthLoop str pattern n fuel (find str pattern (last_idx + 1)) (count + 1)

/-- `find_nth` with a string pattern (utils.cpp:76-87).  The result `some none` is
`npos`.  Every iteration moves `last_idx` to a larger position of `str`, so
`str.size() + 2` iterations are enough. -/
def find_nth (str pattern : Str) (n : Nat) : Option (Option Nat) :=
  let count := 0
  let last_idx := find str pattern n
  find_nthLoop str pattern n (str.length + 2) last_idx count

/-- The `while` loop of `split` (utils.cpp:168-173); the state is `lastDelim`,
`curDelim` and `parts`.  `fuel` bounds the number of iterations; the result is `none`
when it runs out. -/
def splitLoop (s delim : Str) : Nat → Nat → Option Nat → List Str → Option (Nat × List Str)
  | _, lastDelim, none, parts => some (lastDelim, parts)
  | 0, _, some _, _ => none
  | fuel + 1, lastDelim, some curDelim, parts => do
    let part ← substr s lastDelim (curDelim - lastDelim)
    let parts := parts ++ [trim part]
    let lastDelim := curDelim + delim.length
    splitLoop s delim fuel lastDelim (find s delim lastDelim) parts

/-- `split` (utils.cpp:154-178).  An empty delimiter ends in `Logger::critical`.  Every
iteration of the loop moves `lastDelim` forward by `delim.size() >= 1`, so
`s.size() + 1` iterations are enough. -/
def split (s delim : Str) : Option (List Str) :=
  if delim = [] then none
  else if trim s = [] then some []
  else do
    let lastDelim := 0
    let curDelim := find s delim lastDelim
    let (lastDelim, parts) ← splitLoop s delim (s.length + 1) lastDelim curDelim []
    let lastPart ← substrFrom s lastDelim
    some (parts ++ [trim lastPart])

/-- `split_once` (utils.cpp:190-197): `Logger::critical` when `delim` is not found. -/
def split_once (s delim : Str) : Option (Str × Str) :=
  match find s delim 0 with
  | none => none
  | some idx => do
    let a ← substr s 0 idx
    let b ← substrFrom s (idx + delim.length)
    some (a, b)

/-- `pad_right` (utils.cpp:25-27):
`return s + std::string(std::max(len - s.length(), 0ull), filler);` with the same
unsigned 64-bit difference as `pad_left`. -/
def pad_right (s : Str) (len : Int) (filler : Char) : Option Str := do
  let diff := ((len % 18446744073709551616 - (s.length : Int) % 18446744073709551616)
    % 18446744073709551616).toNat
  let fill ← stringFill (max diff 0) filler
  stringAppend s fill

/-- `pad_center` (utils.cpp:29-32).  `len_half` is a `size_t`; it is converted to the
`int` parameter of `pad_left`, and `len - len_half` is computed in the unsigned 64-bit
type and converted to the `int` parameter of `pad_right`. -/
def pad_center (s : Str) (len : Int) (filler : Char) : Option Str := do
  let len_half := s.length / 2
  let left ← pad_left s (wrap32 len_half) filler
  pad_right left (wrap32 ((len % 18446744073709551616
    - (len_half : Int) % 18446744073709551616) % 18446744073709551616)) filler

/-- `s.replace(pos, count, r)`: throws `std::out_of_range` when `pos > s.size()` and
`std::length_error` when the result would be longer than `max_size()`. -/
def stringReplace (s : Str) (pos count : Nat) (r : Str) : Option Str :=
  if pos ≤ s.length then
    if (s.take pos ++ r ++ s.drop (pos + count)).length ≤ stringMaxSize then
      some (s.take pos ++ r ++ s.drop (pos + count))
    else none
  else none

/-- The `while` loop of `replace_all` (utils.cpp:60-63); the state is the position found
by the condition `(n = str_cpy.find(pattern, n)) != npos` and `str_cpy`.  `fuel` bounds the
number of iterations; the result is `none` when it runs out. -/
def replace_allLoop (pattern replace : Str) : Nat → Option Nat → Str → Option Str
  | _, none, str_cpy => some str_cpy
  | 0, some _, _ => none
  | fuel + 1, some n, str_cpy => do
    let str_cpy ← stringReplace str_cpy n pattern.length replace
    let n := n + replace.length
    replace_allLoop pattern replace fuel (find str_cpy pattern n) str_cpy

/-- `replace_all` with string arguments (utils.cpp:56-66).  With a non-empty pattern
every iteration moves `n` past one more occurrence of the original string, so
`str.size() + 1` iterations are enough. -/
def replace_all (str pattern replace : Str) : Option Str :=
  let n := 0
  let str_cpy := str
  replace_allLoop pattern replace (str.length + 1) (find str_cpy pattern n) str_cpy

/-- `diffs` of one vector (utils.cpp:350-356).  The bound `vec.size() - 1` is computed in
the unsigned 64-bit `size_t` and the `int i` is compared with it as a `size_t`;
`vec[k]` outside the vector is undefined, and so is `++i` past `INT_MAX`. -/
def diffs (vec : List CInt) : Option (List CInt) :=
  forLoop (fun i res => do
    let a ← vec[i + 1]?
    let b ← vec[i]?
    let res := res ++ [a - b]
    if i + 1 ≤ 2147483647 then some res else none) 0
    (((vec.length : Int) - 1) % 18446744073709551616).toNat []

/-- `rotate90c` on a vector of vectors (utils.h:762-777): `n` empty rows, then
`res[i].emplace_back(matrix[n-j-1][i])` for `i, j < n`. -/
def rotate90c {T : Type} (matrix : List (List T)) : Option (List (List T)) := do
  let n := matrix.length
  let res ← forLoop (fun _ res => some (res ++ [[]])) 0 n []
  forLoop (fun i res =>
    forLoop (fun j res => do
      let row ← matrix[n - j - 1]?
      let x ← row[i]?
      let ri ← res[i]?
      some (res.set i (ri ++ [x]))) 0 n res) 0 n res

/-- `rotate90cc` on a vector of vectors (utils.h:779-794): `n` empty rows, then
`res[i].emplace_back(matrix[j][n-i-1])` for `i, j < n`. -/
def rotate90cc {T : Type} (matrix : List (List T)) : Option (List (List T)) := do
  let n := matrix.length
  let res ← forLoop (fun _ res => some (res ++ [[]])) 0 n []
  forLoop (fun i res =>
    forLoop (fun j res => do
      let row ← matrix[j]?
      let x ← row[n - i - 1]?
      let ri ← res[i]?
      some (res.set i (ri ++ [x]))) 0 n res) 0 n res

/-- The C++ `%` on integers: the remainder of the truncating division, undefined for
the divisor 0. -/
def cppMod (a b : Int) : Option Int := if b = 0 then none else some (Int.tmod a b)

/-- `mod_math` (utils.h:818-821): `return (a % b + b) % b;` on integers without
overflow. -/
def mod_math (a b : Int) : Option Int := do
  let r ← cppMod a b
  cppMod (r + b) b

/-- The carriage return `\r`. -/
def CR : Char := Char.ofNat 13

/-- The line feed `\n`. -/
def LF : Char := Char.ofNat 10

/-- The string without every `\r` that is immediately followed by `\n`. -/
def dropCR : Str → Str
  | [] => []
  | c :: t => if c = CR ∧ t.head? = some LF then dropCR t else c :: dropCR t

/-- The `n x n` table with the element `f i j` at row `i`, column `j`. -/
def table {T : Type} (n : Nat) (f : Nat → Nat → T) : List (List T) :=
  (List.range n).map (fun i => (List.range n).map (f i))

/-- A string without leading or trailing whitespace. -/
def Trimmed (p : Str) : Prop :=
  (∀ c, p.head? = some c → isspace c = false) ∧ (∀ c, p.getLast? = some c → isspace c = false)

/-- A string that is empty or whitespace-only. -/
def Blank (s : Str) : Prop := ∀ c ∈ s, isspace c = true

/-- The string `pat` occurs in `s` at position `k`. -/
def OccursAt (pat s : Str) (k : Nat) : Prop := ∃ a b : Str, s = a ++ pat ++ b ∧ a.length = k

/-- The class `Matrix<M, N, T>` (Matrix.h:24-33): `T data[M * N]`. -/
structure Matrix (M N : Nat) (T : Type) where
  data : List T
  size_eq : data.length = M * N
deriving DecidableEq

namespace Matrix

variable {M N L K : Nat} {T : Type}

/-- The default constructor (Matrix.h:36): every element is `(T)0`. -/
def zero [Zero T] : Matrix M N T := ⟨List.replicate (M * N) 0, by simp⟩

/-- The element-list constructor `Matrix(Ts... elements)` (Matrix.h:38-40):
exactly `M * N` elements, stored in the order given. -/
def ofList (elements : List T) (h : elements.length = M * N) : Matrix M N T :=
  ⟨elements, h⟩

/-- The accessor `get(int i)` (Matrix.h:64-66): `data[i]`, unchecked. -/
def get (m : Matrix M N T) (i : Nat) : Option T := m.data[i]?

/-- The accessor `get(int i, int j)` (Matrix.h:68-70): `data[i * N + j]`, unchecked. -/
def get2 (m : Matrix M N T) (i j : Nat) : Option T := m.data[i * N + j]?

/-- The mutator `set(int i, U value)` (Matrix.h:55-57): `data[i] = value`, unchecked. -/
def set (m : Matrix M N T) (i : Nat) (value : T) : Option (Matrix M N T) :=
  if i < M * N then some ⟨m.data.set i value, by simp [m.size_eq]⟩ else none

/-- The mutator `set(int i, int j, U value)` (Matrix.h:60-62): `data[i * N + j] = value`. -/
def set2 (m : Matrix M N T) (i j : Nat) (value : T) : Option (Matrix M N T) :=
  m.set (i * N + j) value

/-- The (total) element at linear index `i` of the storage. -/
def elem (m : Matrix M N T) (i : Fin (M * N)) : T :=
  m.data.get (i.cast m.size_eq.symm)

/-- The (total) element in row `r` and column `c`: linear index `r * N + c`. -/
def entry (m : Matrix M N T) (r : Fin M) (c : Fin N) : T :=
  m.elem ⟨r * N + c, by
    have h1 : (r : Nat) * N + N ≤ M * N := by
      have := Nat.mul_le_mul_right N (Nat.succ_le_of_lt r.isLt)
      simpa [Nat.succ_mul] using this
    have := c.isLt
    omega⟩

/-- The mathematical matrix that a stored matrix denotes. -/
def toMath (m : Matrix M N T) : MathMatrix M N T := fun r c => m.entry r c

/-- `operator+(Matrix const&)` (Matrix.h:170-177). -/
def add [Zero T] [Add T] (a m : Matrix M N T) : Option (Matrix M N T) :=
  forLoop (fun i result => do
    let x ← a.get i
    let y ← m.get i
    result.set i (x + y)) 0 (M * N) zero

/-- `operator-(Matrix const&)` (Matrix.h:193-200). -/
def sub [Zero T] [Sub T] (a m : Matrix M N T) : Option (Matrix M N T) :=
  forLoop (fun i result => do
    let x ← a.get i
    let y ← m.get i
    result.set i (x - y)) 0 (M * N) zero

/-- `operator*(Type const& m, U const& s)` (Matrix.h:220-227). -/
def mulScalar [Zero T] [Mul T] (m : Matrix M N T) (s : T) : Option (Matrix M N T) :=
  forLoop (fun i result => do
    let x ← m.get i
    result.set i (x * s)) 0 (M * N) zero

/-- `operator*(Matrix<N, L, U> const& m)` (Matrix.h:238-251): the triple loop. -/
def mul [Zero T] [Add T] [Mul T] (a : Matrix M N T) (m : Matrix N L T) :
    Option (Matrix M L T) :=
  forLoop (fun i result =>
    forLoop (fun j result => do
      let sum ← forLoop (fun k sum => do
        let x ← a.get2 i k
        let y ← m.get2 k j
        some (sum + x * y)) 0 N (0 : T)
      result.set2 i j sum) 0 L result) 0 M zero

/-- `operator/(Type const& m, U const& s)` (Matrix.h:253-260). -/
def divScalar [Zero T] [CppDiv T] (m : Matrix M N T) (s : T) : Option (Matrix M N T) :=
  forLoop (fun i result => do
    let x ← m.get i
    let q ← CppDiv.cdiv x s
    result.set i q) 0 (M * N) zero

/-- The loops of `transposed()` (Matrix.h:272-277): the value of the local
`result`, which is declared with the type `Type` (that is `Matrix<M, N, T>`, not
`TransposeType`), when the closing brace of the function is reached. -/
def transposedLoops [Zero T] (a : Matrix M N T) : Option (Matrix M N T) :=
  forLoop (fun i result =>
    forLoop (fun j result => do
      let x ← a.get2 j i
      result.set2 i j x) 0 N result) 0 M zero

/-- `transposed()` (Matrix.h:271-278).  The body runs its loops and then reaches
the closing brace: there is no `return` statement, so the function yields no
value (flowing off the end of a value-returning function is undefined). -/
def transposed [Zero T] (a : Matrix M N T) : Option (Matrix M N T) :=
  (transposedLoops a).bind (fun _ => none)

/-- `identity()` (Matrix.h:340-346), available for `M == N`. -/
def identity [Zero T] [One T] : Option (Matrix M M T) :=
  forLoop (fun i result => result.set2 i i 1) 0 M zero

/-- `translate(Matrix<M-1, 1, T> const& vec)` (Matrix.h:426-432).  It calls
`identity()`, so it exists for `M == N` only; `N - 1` is then `M - 1`. -/
def translate [Zero T] [One T] (vec : Matrix (M - 1) 1 T) : Option (Matrix M M T) := do
  let result ← identity
  forLoop (fun i result => do
    let v ← vec.get i
    result.set2 (M - 1) i v) 0 M result

/-- `cutRow(int i)` (Matrix.h:434-443): two copy loops over linear indices, the
first for `j < N * i`, the second for `N * i <= j < (M - 1) * N`. -/
def cutRow [Zero T] (a : Matrix M N T) (i : Nat) : Option (Matrix (M - 1) N T) := do
  let m ← forLoop (fun j m => do
    let x ← a.get j
    m.set j x) 0 (N * i) zero
  forLoop (fun j m => do
    let x ← a.get (j + N)
    m.set j x) (N * i) ((M - 1) * N - N * i) m

/-- `cutCol(int i)` (Matrix.h:445-456): for every row `k`, copy the columns
`j < i` and then the columns `i <= j < N - 1` shifted by one. -/
def cutCol [Zero T] (a : Matrix M N T) (i : Nat) : Option (Matrix M (N - 1) T) :=
  forLoop (fun k m => do
    let m ← forLoop (fun j m => do
      let x ← a.get2 k j
      m.set2 k j x) 0 i m
    forLoop (fun j m => do
      let x ← a.get2 k (j + 1)
      m.set2 k j x) i (N - 1 - i) m) 0 M zero

/-- The value of the C++ expression `(1 - 2 * negative)`: the `bool` is promoted
to `int`, and the `int` is converted to `T` by the multiplication that follows. -/
def cofactorSign [IntCast T] (negative : Bool) : T :=
  ((1 - 2 * (if negative then 1 else 0) : Int) : T)

/-- The four overloads of `det()` (Matrix.h:305-327), selected by the shape:
`M == 1`, `M == 2`, `M == 3` (closed forms) and `M == N && M > 3` (expansion
along row 0 with state `negative`, `sum`).  No overload exists for `M == 0`. -/
def det [Zero T] [Add T] [Sub T] [Mul T] [IntCast T] :
    (n : Nat) → Matrix n n T → Option T
  | 0, _ => none
  | 1, a => a.get 0
  | 2, a => do
    let g0 ← a.get 0
    let g1 ← a.get 1
    let g2 ← a.get 2
    let g3 ← a.get 3
    some (g0 * g3 - g1 * g2)
  | 3, a => do
    let g0 ← a.get 0
    let g1 ← a.get 1
    let g2 ← a.get 2
    let g3 ← a.get 3
    let g4 ← a.get 4
    let g5 ← a.get 5
    let g6 ← a.get 6
    let g7 ← a.get 7
    let g8 ← a.get 8
    some (g0 * g4 * g8 + g1 * g5 * g6 + g2 * g3 * g7
      - (g2 * g4 * g6 + g1 * g3 * g8 + g0 * g5 * g7))
  | n + 4, a => do
    let cut ← a.cutRow 0
    let r ← forLoop (fun i (st : Bool × T) => do
      let c ← cut.cutCol i
      let d ← det (n + 3) c
      let g ← a.get i
      some (!st.1, st.2 + cofactorSign st.1 * d * g)) 0 (n + 4) (false, (0 : T))
    some r.2

/-- `operator+=(Matrix<M, N, U> const& m)` (Matrix.h:106-112): `data[i] += m.get(i)`,
in place on the storage of `*this`; `m` is a separate, read-only operand. -/
def addAssign [Add T] (self m : Matrix M N T) : Option (Matrix M N T) :=
  forLoop (fun i self => do
    let x ← self.get i
    let y ← m.get i
    self.set i (x + y)) 0 (M * N) self

/-- `operator-=(Matrix<M, N, U> const& m)` (Matrix.h:122-128): `data[i] -= m.get(i)`. -/
def subAssign [Sub T] (self m : Matrix M N T) : Option (Matrix M N T) :=
  forLoop (fun i self => do
    let x ← self.get i
    let y ← m.get i
    self.set i (x - y)) 0 (M * N) self

/-- `operator*=(Matrix<M, N, U> const& m)` (Matrix.h:138-144): `data[i] *= m.get(i)`. -/
def mulAssign [Mul T] (self m : Matrix M N T) : Option (Matrix M N T) :=
  forLoop (fun i self => do
    let x ← self.get i
    let y ← m.get i
    self.set i (x * y)) 0 (M * N) self

/-- `operator/=(Matrix<M, N, U> const& m)` (Matrix.h:154-160): `data[i] /= m.get(i)`. -/
def divAssign [CppDiv T] (self m : Matrix M N T) : Option (Matrix M N T) :=
  forLoop (fun i self => do
    let x ← self.get i
    let y ← m.get i
    let q ← CppDiv.cdiv x y
    self.set i q) 0 (M * N) self

/-- The unary `operator-()` (Matrix.h:162-168). -/
def neg [Zero T] [Neg T] (m : Matrix M N T) : Option (Matrix M N T) :=
  forLoop (fun i result => do
    let x ← m.get i
    result.set i (-x)) 0 (M * N) zero

/-- `operator+(Type const& m, U const& s)` (Matrix.h:179-186). -/
def addScalar [Zero T] [Add T] (m : Matrix M N T) (s : T) : Option (Matrix M N T) :=
  forLoop (fun i result => do
    let x ← m.get i
    result.set i (x + s)) 0 (M * N) zero

/-- `operator+(U const& s, Type const& m)` (Matrix.h:188-191): `return m + s;`. -/
def scalarAdd [Zero T] [Add T] (s : T) (m : Matrix M N T) : Option (Matrix M N T) :=
  m.addScalar s

/-- `operator-(Type const& m, U const& s)` (Matrix.h:202-209). -/
def subScalar [Zero T] [Sub T] (m : Matrix M N T) (s : T) : Option (Matrix M N T) :=
  forLoop (fun i result => do
    let x ← m.get i
    result.set i (x - s)) 0 (M * N) zero

/-- `operator-(U const& s, Type const& m)` (Matrix.h:211-218). -/
def scalarSub [Zero T] [Sub T] (s : T) (m : Matrix M N T) : Option (Matrix M N T) :=
  forLoop (fun i result => do
    let x ← m.get i
    result.set i (s - x)) 0 (M * N) zero

/-- `operator*(U const& s, Type const& m)` (Matrix.h:229-236). -/
def scalarMul [Zero T] [Mul T] (s : T) (m : Matrix M N T) : Option (Matrix M N T) :=
  forLoop (fun i result => do
    let x ← m.get i
    result.set i (s * x)) 0 (M * N) zero

/-- `operator/(U const& s, Type const& m)` (Matrix.h:262-269). -/
def scalarDiv [Zero T] [CppDiv T] (s : T) (m : Matrix M N T) : Option (Matrix M N T) :=
  forLoop (fun i result => do
    let x ← m.get i
    let q ← CppDiv.cdiv s x
    result.set i q) 0 (M * N) zero

/-- `dot(const Matrix<M, 1, T>& m)` (Matrix.h:288-294), for `N == 1`: the
products are computed in `T` and accumulated in a `float`, which is returned. -/
def dot {F : Type} [Mul T] (fl : FloatOps T F) (v m : Matrix M 1 T) : Option F :=
  forLoop (fun i sum => do
    let x ← v.get i
    let y ← m.get i
    some (fl.add sum (fl.ofElem (x * y)))) 0 M fl.zero

/-- `cross(Matrix<3, 1, U> const& m)` (Matrix.h:296-303), for `M == 3 && N == 1`. -/
def cross [Sub T] [Mul T] (v m : Matrix 3 1 T) : Option (Matrix 3 1 T) := do
  let a0 ← v.get 0
  let a1 ← v.get 1
  let a2 ← v.get 2
  let b0 ← m.get 0
  let b1 ← m.get 1
  let b2 ← m.get 2
  some (ofList [a1 * b2 - a2 * b1, a2 * b0 - a0 * b2, a0 * b1 - a1 * b0] rfl)

/-- `operator==(const Type& m)` (Matrix.h:84-91), as the iterations `i`, ..., `i + n - 1`
of its loop: `false` at the first index where the elements differ, `true` after the
last iteration. -/
def eqLoop [DecidableEq T] (self m : Matrix M N T) : Nat → Nat → Option Bool
  | _, 0 => some true
  | i, n + 1 => do
    let x ← self.get i
    let y ← m.get i
    if x ≠ y then some false else eqLoop self m (i + 1) n

/-- `operator==(const Type& m)` (Matrix.h:84-91). -/
def eq [DecidableEq T] (self m : Matrix M N T) : Option Bool :=
  eqLoop self m 0 (M * N)

/-- `std::byteswap` of a 64-bit value: the eight bytes in the reverse order. -/
def byteswap64 (h : Nat) : Nat :=
  h % 256 * 72057594037927936 + h / 256 % 256 * 281474976710656
    + h / 65536 % 256 * 1099511627776 + h / 16777216 % 256 * 4294967296
    + h / 4294967296 % 256 * 16777216 + h / 1099511627776 % 256 * 65536
    + h / 281474976710656 % 256 * 256 + h / 72057594037927936 % 256

/-- `std::hash<Matrix<M, N, int>>::operator()` (Matrix.h:487-500), with the 64-bit
`size_t` and the 32-bit `unsigned`: the element is converted to `size_t` (sign
extension), shifted in 64 bits and stored in the `unsigned part_hash`; the running
`hash` is a `size_t`. -/
def hash (m : Matrix M N CInt) : Option Nat :=
  forLoop (fun i hash => do
    let x ← m.get i
    let part_hash :=
      ((x.val % 18446744073709551616).toNat <<< (8 * (i % 4))) % 18446744073709551616
        % 4294967296
    if i % 8 < 4 then some (hash ^^^ part_hash)
    else some (hash ^^^ byteswap64 hash)) 0 (M * N) 0

/-- `ortho(T left, T right, T bottom, T top)` (Matrix.h:370-378), with rational
elements (exact arithmetic). -/
def ortho (left right bottom top : ℚ) : Option (Matrix 4 4 ℚ) := do
  let result ← (identity : Option (Matrix 4 4 ℚ))
  let q ← CppDiv.cdiv 2 (right - left)
  let result ← result.set2 0 0 q
  let q ← CppDiv.cdiv 2 (top - bottom)
  let result ← result.set2 1 1 q
  let result ← result.set2 2 2 (-1)
  let q ← CppDiv.cdiv (-(right + left)) (right - left)
  let result ← result.set2 0 3 q
  let q ← CppDiv.cdiv (-(top + bottom)) (top - bottom)
  result.set2 1 3 q

/-- `ortho(T left, T right, T bottom, T top, T zNear, T zFar)` (Matrix.h:380-390),
with rational elements. -/
def ortho6 (left right bottom top zNear zFar : ℚ) : Option (Matrix 4 4 ℚ) := do
  let result ← (identity : Option (Matrix 4 4 ℚ))
  let q ← CppDiv.cdiv (2 * zNear) (right - left)
  let result ← result.set2 0 0 q
  let q ← CppDiv.cdiv (2 * zNear) (top - bottom)
  let result ← result.set2 1 1 q
  let q ← CppDiv.cdiv (right + left) (right - left)
  let result ← result.set2 2 0 q
  let q ← CppDiv.cdiv (top + bottom) (top - bottom)
  let result ← result.set2 2 1 q
  let q ← CppDiv.cdiv (-(zFar + zNear)) (zFar - zNear)
  let result ← result.set2 2 2 q
  let result ← result.set2 2 3 (-1)
  let q ← CppDiv.cdiv (-(2 * zFar * zNear)) (zFar - zNear)
  result.set2 3 2 q

/-- `perspective(T fovy, T aspect, T zNear, T zFar)` (Matrix.h:392-405), with rational
elements.  `epsilon` is `std::numeric_limits<T>::epsilon()` and `tan` the tangent
function, both given; a failed `assert` ends the call without a result. -/
def perspective (epsilon : ℚ) (tan : ℚ → ℚ) (fovy aspect zNear zFar : ℚ) :
    Option (Matrix 4 4 ℚ) :=
  if |aspect - epsilon| > 0 then do
    let half ← CppDiv.cdiv fovy 2
    let tanHalfFovy := tan half
    let result : Matrix 4 4 ℚ := zero
    let q ← CppDiv.cdiv 1 (aspect * tanHalfFovy)
    let result ← result.set2 0 0 q
    let q ← CppDiv.cdiv 1 tanHalfFovy
    let result ← result.set2 1 1 q
    let q ← CppDiv.cdiv (-(zFar + zNear)) (zFar - zNear)
    let result ← result.set2 2 2 q
    let result ← result.set2 2 3 (-1)
    let q ← CppDiv.cdiv (-(2 * zNear * zFar)) (zFar - zNear)
    result.set2 3 2 q
  else none

/-- The integer values of the elements of an `int` matrix, as a mathematical matrix. -/
def intValues (a : Matrix M N CInt) : MathMatrix M N Int := fun r c => (a.entry r c).val

/-- The element at linear index `k`, or `0` outside the storage. -/
def nth [Zero T] (m : Matrix M N T) (k : Nat) : T := (m.get k).getD 0

/-- `Filled r0 r f a b`: the storage of `r` holds `f k` at every linear index
`a ≤ k < b` and is the storage of `r0` everywhere else. -/
def Filled (r0 r : Matrix M N T) (f : Nat → T) (a b : Nat) : Prop :=
  ∀ k, k < M * N → r.get k = if a ≤ k ∧ k < b then some (f k) else r0.get k

/-- The minors' determinants, as a function of the column index. -/
def minorDet [CommRing T] {n : Nat} (a : Matrix (n + 1) (n + 1) T) (j : Nat) : T :=
  if h : j < n + 1 then mathDet (a.toMath.submatrix Fin.succ (Fin.succAbove ⟨j, h⟩)) else 0

/-! ## Loops and storage: basic facts -/

theorem forLoop_inv {σ : Type} (body : Nat → σ → Option σ) (P : Nat → σ → Prop) :
    ∀ (n lo : Nat) (s : σ), P lo s →
      (∀ i s, lo ≤ i → i < lo + n → P i s → ∃ s', body i s = some s' ∧ P (i + 1) s') →
      ∃ s', forLoop body lo n s = some s' ∧ P (lo + n) s' := by
  intro n
  induction n with
  | zero => intro lo s h _; exact ⟨s, rfl, by simpa using h⟩
  | succ n ih =>
    intro lo s h hstep
    obtain ⟨s1, hs1, hP1⟩ := hstep lo s (Nat.le_refl _) (by omega) h
    obtain ⟨s2, hs2, hP2⟩ := ih (lo + 1) s1 hP1 (fun i t hi1 hi2 hP =>
      hstep i t (by omega) (by omega) hP)
    refine ⟨s2, ?_, ?_⟩
    · simp [forLoop, hs1, hs2]
    · have : lo + (n + 1) = lo + 1 + n := by omega
      rw [this]; exact hP2

theorem get_lt [Zero T] (m : Matrix M N T) {k : Nat} (h : k < M * N) :
    m.get k = some (m.nth k) := by
  have hk : k < m.data.length := by rw [m.size_eq]; exact h
  simp [nth, get, List.getElem?_eq_getElem hk]

theorem get_ge (m : Matrix M N T) {k : Nat} (h : M * N ≤ k) : m.get k = none := by
  have hk : m.data.length ≤ k := by rw [m.size_eq]; exact h
  simp [get, List.getElem?_eq_none hk]

theorem ext_get {a b : Matrix M N T} (h : ∀ k, k < M * N → a.get k = b.get k) : a = b := by
  cases a with
  | mk da ha =>
  cases b with
  | mk db hb =>
  have : da = db := by
    apply List.ext_getElem?
    intro k
    by_cases hk : k < M * N
    · exact h k hk
    · have h1 : da.length ≤ k := by omega
      have h2 : db.length ≤ k := by omega
      simp [List.getElem?_eq_none h1, List.getElem?_eq_none h2]
  subst this
  rfl

theorem set_lt (m : Matrix M N T) {i : Nat} (h : i < M * N) (v : T) :
    ∃ r, m.set i v = some r ∧ ∀ k, r.get k = if k = i then some v else m.get k := by
  refine ⟨⟨m.data.set i v, by simp [m.size_eq]⟩, by simp [set, h], ?_⟩
  intro k
  have hi : i < m.data.length := by rw [m.size_eq]; exact h
  simp only [get, List.getElem?_set]
  by_cases hk : k = i
  · subst hk; simp [hi]
  · have : ¬ i = k := fun e => hk e.symm
    simp [hk, this]

theorem zero_get [Zero T] {k : Nat} (h : k < M * N) : (zero : Matrix M N T).get k = some 0 := by
  simp [zero, get, List.getElem?_replicate, h]

theorem Filled.refl (r : Matrix M N T) (f : Nat → T) (a : Nat) : Filled r r f a a := by
  intro k _
  have : ¬ (a ≤ k ∧ k < a) := by omega
  simp [this]

theorem Filled.trans {r0 r1 r2 : Matrix M N T} {f : Nat → T} {a b c : Nat}
    (h1 : Filled r0 r1 f a b) (h2 : Filled r1 r2 f b c) (hab : a ≤ b) (hbc : b ≤ c) :
    Filled r0 r2 f a c := by
  intro k hk
  rw [h2 k hk]
  by_cases hb : b ≤ k ∧ k < c
  · have : a ≤ k ∧ k < c := ⟨by omega, hb.2⟩
    simp [hb, this]
  · rw [if_neg hb, h1 k hk]
    by_cases ha : a ≤ k ∧ k < b
    · have : a ≤ k ∧ k < c := ⟨ha.1, by omega⟩
      simp [ha, this]
    · have : ¬ (a ≤ k ∧ k < c) := by omega
      simp [ha, this]

theorem Filled.set (r : Matrix M N T) (f : Nat → T) {i : Nat} (h : i < M * N) :
    ∃ r', r.set i (f i) = some r' ∧ Filled r r' f i (i + 1) := by
  obtain ⟨r', h1, h2⟩ := set_lt r h (f i)
  refine ⟨r', h1, ?_⟩
  intro k _
  rw [h2 k]
  by_cases hk : k = i
  · subst hk; simp
  · have : ¬ (i ≤ k ∧ k < i + 1) := by omega
    simp [hk, this]

/-- A loop whose iteration `i` fills the segment `[g i, g (i + 1))` fills `[g lo, g (lo + n))`. -/
theorem Filled.loop (body : Nat → Matrix M N T → Option (Matrix M N T)) (f : Nat → T)
    (g : Nat → Nat) (lo n : Nat) (hg : ∀ i, lo ≤ i → i < lo + n → g i ≤ g (i + 1))
    (hbody : ∀ i r, lo ≤ i → i < lo + n →
      ∃ r', body i r = some r' ∧ Filled r r' f (g i) (g (i + 1)))
    (r0 : Matrix M N T) :
    ∃ r, forLoop body lo n r0 = some r ∧ Filled r0 r f (g lo) (g (lo + n)) := by
  have := forLoop_inv body (fun i r => lo ≤ i ∧ i ≤ lo + n ∧ g lo ≤ g i ∧ Filled r0 r f (g lo) (g i))
    n lo r0 ⟨Nat.le_refl _, by omega, Nat.le_refl _, Filled.refl _ _ _⟩
    (by
      intro i s h1 h2 ⟨_, _, h3, h4⟩
      obtain ⟨s', hs', hF⟩ := hbody i s h1 h2
      have hgi := hg i h1 h2
      exact ⟨s', hs', by omega, by omega, by omega, Filled.trans h4 hF h3 hgi⟩)
  obtain ⟨r, hr, _, _, _, hF⟩ := this
  exact ⟨r, hr, hF⟩

theorem nth_of_get [Zero T] {m : Matrix M N T} {k : Nat} {v : T} (h : m.get k = some v) :
    m.nth k = v := by
  simp [nth, h]

theorem index_lt {i j : Nat} (hi : i < M) (hj : j < N) : i * N + j < M * N := by
  have h1 : i * N + N ≤ M * N := by
    have := Nat.mul_le_mul_right N (Nat.succ_le_of_lt hi)
    simpa [Nat.succ_mul] using this
  omega

theorem get2_lt [Zero T] (m : Matrix M N T) {i j : Nat} (hi : i < M) (hj : j < N) :
    m.get2 i j = some (m.nth (i * N + j)) :=
  get_lt m (index_lt hi hj)

theorem get_elem (m : Matrix M N T) (k : Fin (M * N)) : m.get k = some (m.elem k) := by
  have hk : (k : Nat) < m.data.length := by rw [m.size_eq]; exact k.isLt
  simp [get, elem, List.getElem?_eq_getElem hk, List.get_eq_getElem]

theorem get2_entry (m : Matrix M N T) (r : Fin M) (c : Fin N) :
    m.get2 r c = some (m.entry r c) := by
  exact get_elem m ⟨r * N + c, index_lt r.isLt c.isLt⟩

theorem entry_eq_nth [Zero T] (m : Matrix M N T) (r : Fin M) (c : Fin N) :
    m.entry r c = m.nth (r * N + c) := by
  have h1 := get2_entry m r c
  have h2 := get2_lt m r.isLt c.isLt
  rw [h1] at h2
  exact Option.some.inj h2

/-- The linear index `k` seen as the pair `(k / N, k % N)`. -/
theorem div_mod_index {i j : Nat} (hj : j < N) : (i * N + j) / N = i ∧ (i * N + j) % N = j := by
  have hN : 0 < N := by omega
  constructor
  · rw [Nat.mul_comm, Nat.mul_add_div hN, Nat.div_eq_of_lt hj]; simp
  · rw [Nat.mul_comm, Nat.mul_add_mod, Nat.mod_eq_of_lt hj]

/-- A loop that stores `f i` at every linear index fills the whole storage. -/
theorem fill_linear [Zero T] (body : Nat → Matrix M N T → Option (Matrix M N T)) (f : Nat → T)
    (hbody : ∀ i r, i < M * N → body i r = r.set i (f i)) :
    ∃ r, forLoop body 0 (M * N) zero = some r ∧ ∀ k, k < M * N → r.get k = some (f k) := by
  obtain ⟨r, hr, hF⟩ := Filled.loop body f (fun i => i) 0 (M * N) (fun i _ _ => Nat.le_succ i)
    (fun i r _ hi => by
      rw [hbody i r (by omega)]
      exact Filled.set r f (by omega)) zero
  refine ⟨r, hr, fun k hk => ?_⟩
  have := hF k hk
  simpa [hk] using this

/-- A loop over the columns `lo ≤ j < lo + n` of row `i` that stores `S i j`. -/
theorem Filled.row (body : Nat → Matrix M N T → Option (Matrix M N T)) (S : Nat → Nat → T)
    {i : Nat} (hi : i < M) (lo n : Nat) (hn : lo + n ≤ N)
    (hbody : ∀ j r, lo ≤ j → j < lo + n → body j r = r.set2 i j (S i j)) (r0 : Matrix M N T) :
    ∃ r, forLoop body lo n r0 = some r ∧
      Filled r0 r (fun k => S (k / N) (k % N)) (i * N + lo) (i * N + (lo + n)) := by
  exact Filled.loop body (fun k => S (k / N) (k % N)) (fun j => i * N + j) lo n
    (fun j _ _ => by show i * N + j ≤ i * N + (j + 1); omega)
    (fun j r h1 h2 => by
      show ∃ r', body j r = some r' ∧ Filled r r' _ (i * N + j) (i * N + (j + 1))
      rw [hbody j r h1 h2]
      have hj : j < N := by omega
      have := Filled.set r (fun k => S (k / N) (k % N)) (index_lt hi hj)
      simp only [(div_mod_index hj).1, (div_mod_index hj).2] at this
      exact this) r0

/-- A loop over the rows that fills each row fills the whole storage. -/
theorem Filled.rows (body : Nat → Matrix M N T → Option (Matrix M N T)) (f : Nat → T)
    (hbody : ∀ i r, i < M → ∃ r', body i r = some r' ∧ Filled r r' f (i * N) (i * N + N))
    (r0 : Matrix M N T) :
    ∃ r, forLoop body 0 M r0 = some r ∧ ∀ k, k < M * N → r.get k = some (f k) := by
  obtain ⟨r, hr, hF⟩ := Filled.loop body f (fun i => i * N) 0 M
    (fun i _ _ => by simp [Nat.succ_mul])
    (fun i r _ hi => by
      have : (i + 1) * N = i * N + N := by simp [Nat.succ_mul]
      simp only [this]
      exact hbody i r (by omega)) r0
  refine ⟨r, hr, fun k hk => ?_⟩
  have := hF k hk
  simp only [Nat.zero_add] at this
  simpa [hk] using this

theorem add_spec [Zero T] [Add T] (a m : Matrix M N T) :
    ∃ r, a.add m = some r ∧ ∀ k, k < M * N → r.get k = some (a.nth k + m.nth k) :=
  fill_linear _ (fun k => a.nth k + m.nth k) (fun i r hi => by
    simp [get_lt a hi, get_lt m hi])

theorem sub_spec [Zero T] [Sub T] (a m : Matrix M N T) :
    ∃ r, a.sub m = some r ∧ ∀ k, k < M * N → r.get k = some (a.nth k - m.nth k) :=
  fill_linear _ (fun k => a.nth k - m.nth k) (fun i r hi => by
    simp [get_lt a hi, get_lt m hi])

theorem mulScalar_spec [Zero T] [Mul T] (m : Matrix M N T) (s : T) :
    ∃ r, m.mulScalar s = some r ∧ ∀ k, k < M * N → r.get k = some (m.nth k * s) :=
  fill_linear _ (fun k => m.nth k * s) (fun i r hi => by
    simp [get_lt m hi])

/-- The inner loop of the matrix product accumulates the dot product of row `i` and column `j`. -/
theorem dot_loop [CommRing T] (a : Matrix M N T) (m : Matrix N L T) {i j : Nat}
    (hi : i < M) (hj : j < L) :
    forLoop (fun k sum => do
        let x ← a.get2 i k
        let y ← m.get2 k j
        some (sum + x * y)) 0 N (0 : T)
      = some (∑ k in Finset.range N, a.nth (i * N + k) * m.nth (k * L + j)) := by
  obtain ⟨s, hs, hP⟩ := forLoop_inv (fun k sum => do
        let x ← a.get2 i k
        let y ← m.get2 k j
        some (sum + x * y))
    (fun k s => s = ∑ t in Finset.range k, a.nth (i * N + t) * m.nth (t * L + j)) N 0 (0 : T)
    (by simp)
    (fun k s _ hk hs => by
      have hk' : k < N := by omega
      refine ⟨s + a.nth (i * N + k) * m.nth (k * L + j), ?_, ?_⟩
      · simp [get2_lt a hi hk', get2_lt m hk' hj]
      · show s + a.nth (i * N + k) * m.nth (k * L + j) = ∑ t in Finset.range (k + 1), _
        rw [Finset.sum_range_succ]
        exact congrArg (· + _) hs)
  rw [hs, hP]
  simp

theorem mul_spec [CommRing T] (a : Matrix M N T) (m : Matrix N L T) :
    ∃ r, a.mul m = some r ∧ ∀ i j, i < M → j < L →
      r.get2 i j = some (∑ k in Finset.range N, a.nth (i * N + k) * m.nth (k * L + j)) := by
  obtain ⟨r, hr, hget⟩ := Filled.rows (M := M) (N := L)
    (fun i result =>
      forLoop (fun j result => do
        let sum ← forLoop (fun k sum => do
          let x ← a.get2 i k
          let y ← m.get2 k j
          some (sum + x * y)) 0 N (0 : T)
        result.set2 i j sum) 0 L result)
    (fun k => (fun i j => ∑ t in Finset.range N, a.nth (i * N + t) * m.nth (t * L + j))
      (k / L) (k % L))
    (fun i r hi => by
      have := Filled.row (M := M) (N := L) (fun j result => do
          let sum ← forLoop (fun k sum => do
            let x ← a.get2 i k
            let y ← m.get2 k j
            some (sum + x * y)) 0 N (0 : T)
          result.set2 i j sum)
        (fun i j => ∑ t in Finset.range N, a.nth (i * N + t) * m.nth (t * L + j))
        hi 0 L (by omega)
        (fun j r _ hj => by
          show (forLoop _ 0 N (0 : T)).bind (fun sum => r.set2 i j sum) = _
          rw [dot_loop a m hi (by omega)]
          rfl) r
      simpa using this) zero
  refine ⟨r, hr, fun i j hi hj => ?_⟩
  have := hget (i * L + j) (index_lt hi hj)
  simp only [(div_mod_index hj).1, (div_mod_index hj).2] at this
  exact this

theorem toMath_apply [Zero T] (m : Matrix M N T) (r : Fin M) (c : Fin N) :
    m.toMath r c = m.nth (r * N + c) :=
  entry_eq_nth m r c

theorem toMath_inj [Zero T] {a b : Matrix M N T} (h : a.toMath = b.toMath) : a = b := by
  apply ext_get
  intro k hk
  have hN : 0 < N := by
    rcases Nat.eq_zero_or_pos N with h0 | h0
    · subst h0; simp at hk
    · exact h0
  have hr : k / N < M := by
    apply Nat.div_lt_of_lt_mul
    rw [Nat.mul_comm]; exact hk
  have hc : k % N < N := Nat.mod_lt _ hN
  have := congrFun (congrFun h ⟨k / N, hr⟩) ⟨k % N, hc⟩
  rw [toMath_apply, toMath_apply] at this
  have hk2 : k / N * N + k % N = k := by
    rw [Nat.mul_comm]; exact Nat.div_add_mod k N
  simp only [hk2] at this
  rw [get_lt a hk, get_lt b hk, this]

theorem toMath_of_get2 [Zero T] {r : Matrix M N T} {S : Nat → Nat → T}
    (h : ∀ i j, i < M → j < N → r.get2 i j = some (S i j)) (i : Fin M) (j : Fin N) :
    r.toMath i j = S i j := by
  have h1 := get2_entry r i j
  rw [h i j i.isLt j.isLt] at h1
  exact (Option.some.inj h1).symm

theorem mul_toMath [CommRing T] {a : Matrix M N T} {m : Matrix N L T} {r : Matrix M L T}
    (h : a.mul m = some r) : r.toMath = mathMul a.toMath m.toMath := by
  obtain ⟨r', hr', hget⟩ := mul_spec a m
  rw [h] at hr'
  cases Option.some.inj hr'
  funext i j
  rw [toMath_of_get2 hget i j, mathMul, Matrix.mul_apply, Finset.sum_range]
  simp [toMath_apply]

theorem identity_spec [Zero T] [One T] :
    ∃ r : Matrix M M T, identity = some r ∧ ∀ i j, i < M → j < M →
      r.get2 i j = some (if i = j then 1 else 0) := by
  obtain ⟨r, hr, hP⟩ := forLoop_inv (fun i (result : Matrix M M T) => result.set2 i i 1)
    (fun i r => ∀ a b, a < M → b < M →
      r.get2 a b = some (if a = b ∧ a < i then 1 else 0)) M 0 zero
    (fun a b ha hb => by
      simp [get2, ← get.eq_1, zero_get (index_lt ha hb)])
    (fun i s _ hi hs => by
      have hi' : i < M := by omega
      obtain ⟨s', h1, h2⟩ := set_lt s (index_lt hi' hi') (1 : T)
      refine ⟨s', h1, fun a b ha hb => ?_⟩
      show s'.get (a * M + b) = _
      rw [h2]
      by_cases hab : a * M + b = i * M + i
      · have e1 := (div_mod_index (i := a) hb)
        have e2 := (div_mod_index (i := i) hi')
        rw [hab] at e1
        have ha' : a = i := by omega
        have hb' : b = i := by omega
        subst ha'; subst hb'
        simp
      · rw [if_neg hab]
        have := hs a b ha hb
        rw [show s.get (a * M + b) = s.get2 a b from rfl, this]
        by_cases e : a = b
        · subst e
          have hne : a ≠ i := fun e => hab (by rw [e])
          have h3 : (a < i + 1) ↔ a < i := by omega
          simp [h3]
        · simp [e])
  refine ⟨r, hr, fun i j hi hj => ?_⟩
  rw [hP i j hi hj]
  simp [hi]

theorem identity_toMath [CommRing T] {r : Matrix M M T} (h : identity = some r) :
    r.toMath = 1 := by
  obtain ⟨r', hr', hget⟩ := identity_spec (M := M) (T := T)
  rw [h] at hr'
  cases Option.some.inj hr'
  funext i j
  rw [toMath_of_get2 (S := fun i j => if i = j then 1 else 0) hget i j, Matrix.one_apply]
  simp [Fin.ext_iff]

theorem get_of_filled [Zero T] {r0 r : Matrix M N T} {f : Nat → T} {b : Nat}
    (h : Filled r0 r f 0 b) {k : Nat} (hk : k < M * N) (hb : k < b) : r.get k = some (f k) := by
  have := h k hk
  simpa [hb] using this

theorem cutRow_spec [Zero T] (a : Matrix M N T) {i : Nat} (hi : i < M) :
    ∃ r, a.cutRow i = some r ∧ ∀ k, k < (M - 1) * N →
      r.get k = some (if k < N * i then a.nth k else a.nth (k + N)) := by
  have hle : N * i ≤ (M - 1) * N := by
    rw [Nat.mul_comm N i]
    exact Nat.mul_le_mul_right N (by omega)
  have hMN : (M - 1) * N + N = M * N := by
    have : M = (M - 1) + 1 := by omega
    conv_rhs => rw [this, Nat.succ_mul]
  obtain ⟨r1, hr1, hF1⟩ := Filled.loop (M := M - 1) (N := N)
    (fun j m => do
      let x ← a.get j
      m.set j x)
    (fun k => if k < N * i then a.nth k else a.nth (k + N)) (fun j => j) 0 (N * i)
    (fun j _ _ => Nat.le_succ j)
    (fun j r _ hj => by
      have hj' : j < N * i := by omega
      have h1 : a.get j = some (a.nth j) := get_lt a (by omega)
      have := Filled.set r (fun k => if k < N * i then a.nth k else a.nth (k + N))
        (i := j) (by omega)
      simpa [h1, hj'] using this) zero
  obtain ⟨r2, hr2, hF2⟩ := Filled.loop (M := M - 1) (N := N)
    (fun j m => do
      let x ← a.get (j + N)
      m.set j x)
    (fun k => if k < N * i then a.nth k else a.nth (k + N)) (fun j => j) (N * i)
    ((M - 1) * N - N * i)
    (fun j _ _ => Nat.le_succ j)
    (fun j r hj1 hj2 => by
      have hj' : ¬ j < N * i := by omega
      have h1 : a.get (j + N) = some (a.nth (j + N)) := get_lt a (by omega)
      have := Filled.set r (fun k => if k < N * i then a.nth k else a.nth (k + N))
        (i := j) (by omega)
      simpa [h1, hj'] using this) r1
  refine ⟨r2, ?_, fun k hk => ?_⟩
  · show (forLoop _ 0 (N * i) zero).bind _ = some r2
    rw [hr1]; exact hr2
  · have e : N * i + ((M - 1) * N - N * i) = (M - 1) * N := by omega
    simp only [Nat.zero_add, e] at hF1 hF2
    have hF := Filled.trans hF1 hF2 (Nat.zero_le _) hle
    exact get_of_filled hF hk hk

theorem cutCol_spec [Zero T] (a : Matrix M N T) {i : Nat} (hi : i < N) :
    ∃ r, a.cutCol i = some r ∧ ∀ k c, k < M → c < N - 1 →
      r.get2 k c = some (if c < i then a.nth (k * N + c) else a.nth (k * N + (c + 1))) := by
  obtain ⟨r, hr, hget⟩ := Filled.rows (M := M) (N := N - 1)
    (fun k m => do
      let m ← forLoop (fun j m => do
        let x ← a.get2 k j
        m.set2 k j x) 0 i m
      forLoop (fun j m => do
        let x ← a.get2 k (j + 1)
        m.set2 k j x) i (N - 1 - i) m)
    (fun t => (fun k c => if c < i then a.nth (k * N + c) else a.nth (k * N + (c + 1)))
      (t / (N - 1)) (t % (N - 1)))
    (fun k r hk => by
      obtain ⟨r1, hr1, hF1⟩ := Filled.row (M := M) (N := N - 1)
        (fun j m => do
          let x ← a.get2 k j
          m.set2 k j x)
        (fun k c => if c < i then a.nth (k * N + c) else a.nth (k * N + (c + 1)))
        hk 0 i (by omega)
        (fun j r _ hj => by
          have hj' : j < i := by omega
          simp [get2_lt a hk (show j < N by omega), hj']) r
      obtain ⟨r2, hr2, hF2⟩ := Filled.row (M := M) (N := N - 1)
        (fun j m => do
          let x ← a.get2 k (j + 1)
          m.set2 k j x)
        (fun k c => if c < i then a.nth (k * N + c) else a.nth (k * N + (c + 1)))
        hk i (N - 1 - i) (by omega)
        (fun j r hj1 hj2 => by
          have hj' : ¬ j < i := by omega
          simp [get2_lt a hk (show j + 1 < N by omega), hj']) r1
      refine ⟨r2, ?_, ?_⟩
      · show (forLoop _ 0 i r).bind _ = some r2
        rw [hr1]; exact hr2
      · have e : i + (N - 1 - i) = N - 1 := by omega
        simp only [Nat.add_zero, Nat.zero_add, e] at hF1 hF2
        exact Filled.trans hF1 hF2 (by omega) (by omega)) zero
  refine ⟨r, hr, fun k c hk hc => ?_⟩
  have := hget (k * (N - 1) + c) (index_lt hk hc)
  simp only [(div_mod_index hc).1, (div_mod_index hc).2] at this
  exact this

/-- Deleting row 0 and then column `i` yields the minor used by the Laplace expansion. -/
theorem minor_toMath [Zero T] {n : Nat} (a : Matrix (n + 1) (n + 1) T) {i : Nat}
    (hi : i < n + 1) {cut : Matrix n (n + 1) T} (hcut : a.cutRow 0 = some cut)
    {c : Matrix n n T} (hc : cut.cutCol i = some c) :
    c.toMath = a.toMath.submatrix Fin.succ (Fin.succAbove ⟨i, hi⟩) := by
  obtain ⟨cut', hcut', hrow⟩ := cutRow_spec a (i := 0) (Nat.succ_pos n)
  rw [hcut] at hcut'
  cases Option.some.inj hcut'
  obtain ⟨c', hc', hcol⟩ := cutCol_spec cut hi
  rw [hc] at hc'
  cases Option.some.inj hc'
  funext r q
  have h1 := toMath_of_get2
    (S := fun k c => if c < i then cut.nth (k * (n + 1) + c) else cut.nth (k * (n + 1) + (c + 1)))
    hcol r q
  rw [h1, Matrix.submatrix_apply, toMath_apply]
  have hnth : ∀ t, t < n + 1 → cut.nth (r * (n + 1) + t) = a.nth ((r + 1) * (n + 1) + t) := by
    intro t ht
    have hk : (r : Nat) * (n + 1) + t < (n + 1 - 1) * (n + 1) := index_lt r.isLt ht
    have := hrow _ hk
    rw [nth_of_get this]
    simp [Nat.succ_mul]
    congr 1
    omega
  by_cases hq : (q : Nat) < i
  · have hs : (Fin.succAbove ⟨i, hi⟩ q : Nat) = q := by
      rw [Fin.succAbove_of_castSucc_lt]
      · rfl
      · exact Fin.lt_def.mpr hq
    simp only [hq, if_true, hs, Fin.val_succ]
    exact hnth q (by omega)
  · have hs : (Fin.succAbove ⟨i, hi⟩ q : Nat) = q + 1 := by
      rw [Fin.succAbove_of_le_castSucc]
      · rfl
      · exact Fin.le_def.mpr (by simpa using hq)
    simp only [hq, if_false, hs, Fin.val_succ]
    exact hnth (q + 1) (by omega)

theorem cofactorSign_eq [CommRing T] (i : Nat) :
    (cofactorSign (decide (i % 2 = 1)) : T) = (-1) ^ i := by
  rcases Nat.mod_two_eq_zero_or_one i with h | h
  · have he : Even i := Nat.even_iff.mpr h
    simp [cofactorSign, h, he.neg_one_pow]
  · have ho : Odd i := Nat.odd_iff.mpr h
    simp [cofactorSign, h, ho.neg_one_pow]

/-- The expansion loop of `det()` for `M > 3`, given that the recursive calls are correct. -/
theorem det_expand [CommRing T] (n : Nat) (a : Matrix (n + 4) (n + 4) T)
    (ih : ∀ c : Matrix (n + 3) (n + 3) T, det (n + 3) c = some (mathDet c.toMath)) :
    det (n + 4) a
      = some (∑ j in Finset.range (n + 4), (-1) ^ j * minorDet a j * a.nth j) := by
  obtain ⟨cut, hcut, _⟩ := cutRow_spec a (i := 0) (Nat.succ_pos _)
  obtain ⟨st, hst, hP⟩ := forLoop_inv (fun i (st : Bool × T) => do
      let c ← cut.cutCol i
      let d ← det (n + 3) c
      let g ← a.get i
      some (!st.1, st.2 + cofactorSign st.1 * d * g))
    (fun i st => st = (decide (i % 2 = 1),
      ∑ j in Finset.range i, (-1) ^ j * minorDet a j * a.nth j)) (n + 4) 0 (false, (0 : T))
    (by simp)
    (fun i st _ hi hst => by
      have hi' : i < n + 4 := by omega
      obtain ⟨c, hc, _⟩ := cutCol_spec cut hi'
      have hg : a.get i = some (a.nth i) := get_lt a (by nlinarith)
      have hd : mathDet (toMath (M := n + 3) (N := n + 3) c) = minorDet a i := by
        rw [minor_toMath a hi' hcut hc]
        simp [minorDet, hi']
      refine ⟨_, by simp [hc, ih c, hg]; rfl, ?_⟩
      subst hst
      rw [Finset.sum_range_succ, cofactorSign_eq, hd]
      congr 1
      rcases Nat.mod_two_eq_zero_or_one i with h | h <;> simp [h, Nat.add_mod])
  rw [det]
  show (a.cutRow 0).bind _ = _
  rw [hcut]
  show (forLoop _ 0 (n + 4) (false, (0 : T))).bind _ = _
  rw [hst, hP]
  simp

theorem det_eq_mathDet [CommRing T] :
    ∀ (n : Nat) (a : Matrix (n + 1) (n + 1) T), det (n + 1) a = some (mathDet a.toMath) := by
  intro n
  induction n with
  | zero =>
    intro a
    have h0 := get_lt a (k := 0) (by decide)
    simp [det, h0, mathDet, Matrix.det_fin_one, toMath_apply]
  | succ n ih =>
    intro a
    match n, ih, a with
    | 0, _, a =>
      have h0 := get_lt a (k := 0) (by decide)
      have h1 := get_lt a (k := 1) (by decide)
      have h2 := get_lt a (k := 2) (by decide)
      have h3 := get_lt a (k := 3) (by decide)
      simp [det, h0, h1, h2, h3, mathDet, Matrix.det_fin_two, toMath_apply]
    | 1, _, a =>
      have h0 := get_lt a (k := 0) (by decide)
      have h1 := get_lt a (k := 1) (by decide)
      have h2 := get_lt a (k := 2) (by decide)
      have h3 := get_lt a (k := 3) (by decide)
      have h4 := get_lt a (k := 4) (by decide)
      have h5 := get_lt a (k := 5) (by decide)
      have h6 := get_lt a (k := 6) (by decide)
      have h7 := get_lt a (k := 7) (by decide)
      have h8 := get_lt a (k := 8) (by decide)
      simp [det, h0, h1, h2, h3, h4, h5, h6, h7, h8, mathDet, Matrix.det_fin_three,
        toMath_apply]
      ring
    | m + 2, ih, a =>
      rw [det_expand m a ih, mathDet, Matrix.det_succ_row_zero, Finset.sum_range]
      congr 1
      apply Finset.sum_congr rfl
      intro j _
      simp [minorDet, toMath_apply, mathDet]
      ring

theorem forLoop_succ_last {σ : Type} (body : Nat → σ → Option σ) :
    ∀ (n lo : Nat) (s : σ),
      forLoop body lo (n + 1) s = (forLoop body lo n s).bind (body (lo + n)) := by
  intro n
  induction n with
  | zero => intro lo s; simp [forLoop]
  | succ n ih =>
    intro lo s
    rw [forLoop]
    cases h : body lo s with
    | none => simp [forLoop, h]
    | some s1 =>
      have e : lo + (n + 1) = lo + 1 + n := by omega
      rw [Option.some_bind, ih (lo + 1) s1, e]
      conv_rhs => rw [forLoop, h, Option.some_bind]

theorem wrap32_of_fits {x : Int} (h1 : -2147483648 ≤ x) (h2 : x ≤ 2147483647) : wrap32 x = x := by
  unfold wrap32
  omega

theorem CInt.ext_val {a b : CInt} (h : a.val = b.val) : a = b := by
  cases a; cases b; cases h; rfl

/-- Dividing a product that fits in an `int` by the non-zero factor gives the other factor back. -/
theorem cdiv_mul_cancel (x s : CInt) (hs : s.val ≠ 0)
    (h1 : -2147483648 ≤ x.val * s.val) (h2 : x.val * s.val ≤ 2147483647) :
    CppDiv.cdiv (x * s) s = some x := by
  have hv : (x * s).val = x.val * s.val := wrap32_of_fits h1 h2
  have hx1 := x.lo
  have hx2 := x.hi
  have hno : ¬ (s.val = 0 ∨ ((x * s).val = -2147483648 ∧ s.val = -1)) := by
    rintro (h | ⟨h3, h4⟩)
    · exact hs h
    · rw [hv, h4] at h3
      omega
  show (if s.val = 0 ∨ ((x * s).val = -2147483648 ∧ s.val = -1) then none
    else some (CInt.wrap (Int.tdiv (x * s).val s.val))) = some x
  rw [if_neg hno, hv, Int.mul_tdiv_cancel _ hs]
  congr 1
  exact CInt.ext_val (wrap32_of_fits hx1 hx2)

theorem divScalar_spec [Zero T] [CppDiv T] (m : Matrix M N T) (s : T) (q : Nat → T)
    (hq : ∀ k, k < M * N → CppDiv.cdiv (m.nth k) s = some (q k)) :
    ∃ r, m.divScalar s = some r ∧ ∀ k, k < M * N → r.get k = some (q k) :=
  fill_linear _ q (fun i r hi => by
    simp [get_lt m hi, hq i hi])

theorem nth_mem [Zero T] (m : Matrix M N T) {k : Nat} (hk : k < M * N) : m.nth k ∈ m.data := by
  have h := get_lt m hk
  exact List.getElem?_mem h

/-! ## The determinant -/

/-- With elements of a commutative ring (the unbounded integers, or the wrap-around
`int` with `CInt.commRing`), `det()` of a square matrix `a` of size `n + 1` returns the
determinant of `a` in that ring; for size 4 the value is the expansion along
row 0, the sum over the columns `i` of `(-1)^i * a(0,i) * det(cutRow(0).cutCol(i))`,
and for size 3 it is the six-term closed form. -/
theorem det_commRing [CommRing T] :
    (∀ (n : Nat) (a : Matrix (n + 1) (n + 1) T), det (n + 1) a = some (mathDet a.toMath)) ∧
    (∀ a : Matrix 4 4 T, ∃ (cut : Matrix 3 4 T) (c : Fin 4 → Matrix 3 3 T) (d : Fin 4 → T),
      a.cutRow 0 = some cut ∧
      (∀ i : Fin 4, cut.cutCol i = some (c i) ∧ det 3 (c i) = some (d i)) ∧
      det 4 a = some (∑ i : Fin 4, (-1) ^ (i : Nat) * a.entry 0 i * d i)) ∧
    (∀ a : Matrix 3 3 T, det 3 a = some
      (a.entry 0 0 * a.entry 1 1 * a.entry 2 2 + a.entry 0 1 * a.entry 1 2 * a.entry 2 0
        + a.entry 0 2 * a.entry 1 0 * a.entry 2 1
        - (a.entry 0 2 * a.entry 1 1 * a.entry 2 0 + a.entry 0 1 * a.entry 1 0 * a.entry 2 2
          + a.entry 0 0 * a.entry 1 2 * a.entry 2 1))) := by
  refine ⟨det_eq_mathDet, fun a => ?_, fun a => ?_⟩
  · obtain ⟨cut, hcut, _⟩ := cutRow_spec a (i := 0) (by decide)
    have hc : ∀ i : Fin 4, ∃ c : Matrix 3 3 T, cut.cutCol i = some c := fun i => by
      obtain ⟨c, hc, _⟩ := cutCol_spec cut i.isLt
      exact ⟨c, hc⟩
    choose c hc using hc
    refine ⟨cut, c, fun i => mathDet (c i).toMath, hcut,
      fun i => ⟨hc i, det_eq_mathDet 2 _⟩, ?_⟩
    rw [det_expand 0 a (det_eq_mathDet 2), Finset.sum_range]
    congr 1
    apply Finset.sum_congr rfl
    intro j _
    have hm := minor_toMath a j.isLt hcut (hc j)
    have he : a.entry 0 j = a.nth j := by
      rw [entry_eq_nth]; simp
    show _ = (-1) ^ (j : Nat) * a.entry 0 j * mathDet (c j).toMath
    rw [hm, he]
    simp [minorDet, mathDet]
    ring
  · have h0 := get_lt a (k := 0) (by decide)
    have h1 := get_lt a (k := 1) (by decide)
    have h2 := get_lt a (k := 2) (by decide)
    have h3 := get_lt a (k := 3) (by decide)
    have h4 := get_lt a (k := 4) (by decide)
    have h5 := get_lt a (k := 5) (by decide)
    have h6 := get_lt a (k := 6) (by decide)
    have h7 := get_lt a (k := 7) (by decide)
    have h8 := get_lt a (k := 8) (by decide)
    simp [det, h0, h1, h2, h3, h4, h5, h6, h7, h8, entry_eq_nth]

/-- C2: for the 2x2 matrix built as `Matrix<2,2,int>(a, b, c, d)`, `det()`
returns `a*d - b*c`, and for `(1, 2, 3, 4)` it returns `-2`; this holds with
mathematical integers and with the 32-bit `int` (where `*` and `-` are those of
`int`) alike. -/
theorem det_two_by_two :
    (∀ a b c d : Int, det 2 (ofList [a, b, c, d] rfl) = some (a * d - b * c)) ∧
    det 2 (ofList [1, 2, 3, 4] rfl : Matrix 2 2 Int) = some (-2) ∧
    (∀ a b c d : CInt, det 2 (ofList [a, b, c, d] rfl) = some (a * d - b * c)) ∧
    det 2 (ofList [⟨1, by decide, by decide⟩, ⟨2, by decide, by decide⟩,
        ⟨3, by decide, by decide⟩, ⟨4, by decide, by decide⟩] rfl : Matrix 2 2 CInt)
      = some ⟨-2, by decide, by decide⟩ :=
  ⟨fun _ _ _ _ => rfl, by decide, fun _ _ _ _ => rfl, by decide⟩

/-! ## The matrix product -/

/-- With elements of a commutative ring, the product of an `M x N` matrix `a` and an
`N x L` matrix `b` is returned, it is an `M x L` matrix, and its element `(i, j)` is the
sum over `k < N` of `a(i,k) * b(k,j)` in that ring. -/
theorem mul_commRing [CommRing T] (a : Matrix M N T) (b : Matrix N L T) :
    ∃ r : Matrix M L T, a.mul b = some r ∧
      ∀ (i : Fin M) (j : Fin L), r.get2 i j = some (∑ k : Fin N, a.entry i k * b.entry k j) := by
  obtain ⟨r, hr, hget⟩ := mul_spec a b
  refine ⟨r, hr, fun i j => ?_⟩
  rw [hget i j i.isLt j.isLt, Finset.sum_range]
  simp [entry_eq_nth]

/-! ## Transposition and translation -/

/-- C4: `transposed()` on the 2x3 matrix `(1,2,3,4,5,6)` yields no value, and so
it does on every matrix: its loops fill a local of the shape of the source
(not of the transposed shape), reading `get(2, 0)`, that is `data[6]`, outside
the storage of 6 elements, and no `return` follows.  On the 3x2 matrix
`(1,2,3,4,5,6)`, where every access is in range, the loops leave
`(1,3,2,4,3,5)` in a 3x2 local, which is not the transpose `(1,3,5,2,4,6)`. -/
theorem transposed_yields_no_value :
    transposed (ofList [1, 2, 3, 4, 5, 6] rfl : Matrix 2 3 Int) = none ∧
    transposedLoops (ofList [1, 2, 3, 4, 5, 6] rfl : Matrix 2 3 Int) = none ∧
    (ofList [1, 2, 3, 4, 5, 6] rfl : Matrix 2 3 Int).get2 2 0 = none ∧
    transposedLoops (ofList [1, 2, 3, 4, 5, 6] rfl : Matrix 3 2 Int)
      = some (ofList [1, 3, 2, 4, 3, 5] rfl) ∧
    (∀ (M N : Nat) (a : Matrix M N Int), transposed a = none) := by
  refine ⟨by decide, by decide, by decide, by decide, fun M N a => ?_⟩
  unfold transposed
  cases transposedLoops a <;> rfl

/-- C5: on the 3x2 matrix `(1,2,3,4,5,6)` the first call of `transposed()`
already yields no value, so transposing twice yields none; and the local that
the loops build, were it returned, would after two rounds be `(1,2,3,4,2,3)`,
which differs from the source. -/
theorem transposed_twice_yields_no_value :
    (transposed (ofList [1, 2, 3, 4, 5, 6] rfl : Matrix 3 2 Int)).bind transposed = none ∧
    (transposedLoops (ofList [1, 2, 3, 4, 5, 6] rfl : Matrix 3 2 Int)).bind transposedLoops
      = some (ofList [1, 2, 3, 4, 2, 3] rfl) := by
  constructor <;> decide

/-- C6: `translate` on the 2-element vector `(7, 8)`, for the 3x3 shape, fails:
its loop runs for `i < M` and so reads `vec.get(2)`, one past the last element
of the vector, in the iteration that writes the corner `(2, 2)`.  The same
happens for every shape `M x M` with `M >= 1` and every vector. -/
theorem translate_reads_past_vector :
    (translate (ofList [7, 8] rfl : Matrix 2 1 Int) : Option (Matrix 3 3 Int)) = none ∧
    (ofList [7, 8] rfl : Matrix 2 1 Int).get 2 = none ∧
    (∀ (M : Nat) (vec : Matrix (M + 1 - 1) 1 Int),
      (translate vec : Option (Matrix (M + 1) (M + 1) Int)) = none) := by
  refine ⟨by decide, by decide, fun M vec => ?_⟩
  have hv : vec.get M = none := get_ge vec (by simp)
  have key : ∀ e : Matrix (M + 1) (M + 1) Int,
      forLoop (fun i result => do
        let v ← vec.get i
        result.set2 (M + 1 - 1) i v) 0 (M + 1) e = none := by
    intro e
    rw [forLoop_succ_last]
    cases forLoop _ 0 M e with
    | none => rfl
    | some r =>
      show (vec.get (0 + M)).bind _ = none
      rw [Nat.zero_add, hv]
      rfl
  unfold translate
  cases (identity : Option (Matrix (M + 1) (M + 1) Int)) with
  | none => rfl
  | some e => exact key e

/-! ## Neutral element and associativity of the product -/

/-- C7: for every square matrix `a`, `identity()` returns the matrix with 1 on
the diagonal and 0 elsewhere, and `identity() * a` and `a * identity()` both
return `a`. -/
theorem identity_is_neutral [CommRing T] (a : Matrix M M T) :
    ∃ e : Matrix M M T, identity = some e ∧
      (∀ i j : Fin M, e.get2 i j = some (if i = j then 1 else 0)) ∧
      e.mul a = some a ∧ a.mul e = some a := by
  obtain ⟨e, he, hget⟩ := identity_spec (M := M) (T := T)
  have h1 := identity_toMath he
  obtain ⟨r1, hr1, _⟩ := mul_spec e a
  obtain ⟨r2, hr2, _⟩ := mul_spec a e
  refine ⟨e, he, fun i j => ?_, ?_, ?_⟩
  · rw [hget i j i.isLt j.isLt]
    simp [Fin.ext_iff]
  · have := mul_toMath hr1
    rw [h1, mathMul, Matrix.one_mul] at this
    rw [hr1, toMath_inj this]
  · have := mul_toMath hr2
    rw [h1, mathMul, Matrix.mul_one] at this
    rw [hr2, toMath_inj this]

/-- C8: for `a` of shape `M x N`, `b` of shape `N x L` and `c` of shape `L x K`,
all four products are returned and `(a * b) * c` equals `a * (b * c)`. -/
theorem mul_associative [CommRing T] (a : Matrix M N T) (b : Matrix N L T) (c : Matrix L K T) :
    ∃ (ab : Matrix M L T) (bc : Matrix N K T) (r : Matrix M K T),
      a.mul b = some ab ∧ b.mul c = some bc ∧ ab.mul c = some r ∧ a.mul bc = some r := by
  obtain ⟨ab, hab, _⟩ := mul_spec a b
  obtain ⟨bc, hbc, _⟩ := mul_spec b c
  obtain ⟨r1, hr1, _⟩ := mul_spec ab c
  obtain ⟨r2, hr2, _⟩ := mul_spec a bc
  refine ⟨ab, bc, r1, hab, hbc, hr1, ?_⟩
  have e1 := mul_toMath hr1
  have e2 := mul_toMath hr2
  rw [mul_toMath hab] at e1
  rw [mul_toMath hbc] at e2
  have : r2.toMath = r1.toMath := by
    rw [e1, e2]
    simp only [mathMul, Matrix.mul_assoc]
  rw [hr2, toMath_inj this]

/-! ## Elementwise operators -/

theorem CInt.add_sub_cancel (x y : CInt) : x + y - y = x := by
  apply CInt.ext_val
  have h1 := x.lo
  have h2 := x.hi
  show wrap32 (wrap32 (x.val + y.val) - y.val) = x.val
  unfold wrap32
  omega

/-- Adding and then subtracting `b`, for an element type where `x + y - y = x`. -/
theorem add_sub_of_cancel [Zero T] [Add T] [Sub T] (hc : ∀ x y : T, x + y - y = x)
    (a b : Matrix M N T) : ∃ s : Matrix M N T, a.add b = some s ∧ s.sub b = some a := by
  obtain ⟨s, hs, hget⟩ := add_spec a b
  obtain ⟨d, hd, hget2⟩ := sub_spec s b
  refine ⟨s, hs, ?_⟩
  rw [hd]
  congr 1
  apply ext_get
  intro k hk
  rw [hget2 k hk, nth_of_get (hget k hk), get_lt a hk, hc]

/-- C9: for same-shape matrices `a` and `b` with integer elements, `a + b` is
returned and `(a + b) - b` returns exactly `a`; this holds for mathematical
integers and for the 32-bit `int` with wrap-around alike. -/
theorem add_then_sub_restores :
    (∀ (M N : Nat) (a b : Matrix M N Int),
      ∃ s : Matrix M N Int, a.add b = some s ∧ s.sub b = some a) ∧
    (∀ (M N : Nat) (a b : Matrix M N CInt),
      ∃ s : Matrix M N CInt, a.add b = some s ∧ s.sub b = some a) :=
  ⟨fun _ _ a b => add_sub_of_cancel (fun x y => by omega) a b,
   fun _ _ a b => add_sub_of_cancel CInt.add_sub_cancel a b⟩

/-! ## Scalar multiplication and division of `int` matrices -/

/-- C10 (as stated) fails: for the 1x1 `int` matrix `(1073741824)` and the
scalar `4`, the product `2^32` does not fit in 32 bits, `a * 4` holds `0`, and
`(a * 4) / 4` is `(0)`, not `a`. -/
theorem mulScalar_divScalar_overflow :
    (⟨4, by decide, by decide⟩ : CInt).val ≠ 0 ∧
    ((ofList [⟨1073741824, by decide, by decide⟩] rfl : Matrix 1 1 CInt).mulScalar
        ⟨4, by decide, by decide⟩).bind (fun p => p.divScalar ⟨4, by decide, by decide⟩)
      = some (ofList [⟨0, by decide, by decide⟩] rfl) ∧
    ((ofList [⟨1073741824, by decide, by decide⟩] rfl : Matrix 1 1 CInt).mulScalar
        ⟨4, by decide, by decide⟩).bind (fun p => p.divScalar ⟨4, by decide, by decide⟩)
      ≠ some (ofList [⟨1073741824, by decide, by decide⟩] rfl) := by
  refine ⟨by decide, by decide, by decide⟩

/-- C10 (amended): for every `int` matrix `a` and non-zero `int` scalar `s` such
that each product `a(i) * s` fits in 32 bits, `a * s` is returned and
`(a * s) / s` returns exactly `a`. -/
theorem mulScalar_divScalar_restores (a : Matrix M N CInt) (s : CInt) (hs : s.val ≠ 0)
    (hfit : ∀ x ∈ a.data, -2147483648 ≤ x.val * s.val ∧ x.val * s.val ≤ 2147483647) :
    ∃ p : Matrix M N CInt, a.mulScalar s = some p ∧ p.divScalar s = some a := by
  obtain ⟨p, hp, hget⟩ := mulScalar_spec a s
  obtain ⟨r, hr, hget2⟩ := divScalar_spec p s (fun k => a.nth k) (fun k hk => by
    rw [nth_of_get (hget k hk)]
    have := hfit _ (nth_mem a hk)
    exact cdiv_mul_cancel _ s hs this.1 this.2)
  refine ⟨p, hp, ?_⟩
  rw [hr]
  congr 1
  apply ext_get
  intro k hk
  rw [hget2 k hk, get_lt a hk]

/-- The amended C10 at the 2x1 matrix `(3, -5)` and the scalar `-7`. -/
theorem mulScalar_divScalar_restores_witness :
    ∃ p : Matrix 2 1 CInt,
      (ofList [⟨3, by decide, by decide⟩, ⟨-5, by decide, by decide⟩] rfl :
        Matrix 2 1 CInt).mulScalar ⟨-7, by decide, by decide⟩ = some p ∧
      p.divScalar ⟨-7, by decide, by decide⟩
        = some (ofList [⟨3, by decide, by decide⟩, ⟨-5, by decide, by decide⟩] rfl) :=
  mulScalar_divScalar_restores _ _ (by decide) (by decide)

/-- A loop that replaces, at every linear index in turn, the element of `a` by `f i`, where
the body may read the element it is about to replace. -/
theorem update_linear [Zero T] (a : Matrix M N T)
    (body : Nat → Matrix M N T → Option (Matrix M N T)) (f : Nat → T)
    (hbody : ∀ i r, i < M * N → r.get i = a.get i → body i r = r.set i (f i)) :
    ∃ r, forLoop body 0 (M * N) a = some r ∧ ∀ k, k < M * N → r.get k = some (f k) := by
  obtain ⟨r, hr, hP⟩ := forLoop_inv body (fun i r => Filled a r f 0 i) (M * N) 0 a
    (Filled.refl a f 0)
    (fun i r _ hi hF => by
      have hi' : i < M * N := by omega
      have hri : r.get i = a.get i := by
        rw [hF i hi']
        have : ¬ (0 ≤ i ∧ i < i) := by omega
        simp
      rw [hbody i r hi' hri]
      obtain ⟨r', h1, h2⟩ := Filled.set r f hi'
      exact ⟨r', h1, Filled.trans hF h2 (Nat.zero_le _) (Nat.le_succ _)⟩)
  refine ⟨r, hr, fun k hk => ?_⟩
  have := hP k hk
  simpa [hk] using this

theorem addAssign_spec [Zero T] [Add T] (a m : Matrix M N T) :
    ∃ r, a.addAssign m = some r ∧ ∀ k, k < M * N → r.get k = some (a.nth k + m.nth k) :=
  update_linear a _ (fun k => a.nth k + m.nth k) (fun i r hi hr => by
    simp [hr, get_lt a hi, get_lt m hi])

theorem subAssign_spec [Zero T] [Sub T] (a m : Matrix M N T) :
    ∃ r, a.subAssign m = some r ∧ ∀ k, k < M * N → r.get k = some (a.nth k - m.nth k) :=
  update_linear a _ (fun k => a.nth k - m.nth k) (fun i r hi hr => by
    simp [hr, get_lt a hi, get_lt m hi])

theorem mulAssign_spec [Zero T] [Mul T] (a m : Matrix M N T) :
    ∃ r, a.mulAssign m = some r ∧ ∀ k, k < M * N → r.get k = some (a.nth k * m.nth k) :=
  update_linear a _ (fun k => a.nth k * m.nth k) (fun i r hi hr => by
    simp [hr, get_lt a hi, get_lt m hi])

theorem divAssign_spec [Zero T] [CppDiv T] (a m : Matrix M N T) (q : Nat → T)
    (hq : ∀ k, k < M * N → CppDiv.cdiv (a.nth k) (m.nth k) = some (q k)) :
    ∃ r, a.divAssign m = some r ∧ ∀ k, k < M * N → r.get k = some (q k) :=
  update_linear a _ q (fun i r hi hr => by
    simp [hr, get_lt a hi, get_lt m hi, hq i hi])

theorem addScalar_spec [Zero T] [Add T] (m : Matrix M N T) (s : T) :
    ∃ r, m.addScalar s = some r ∧ ∀ k, k < M * N → r.get k = some (m.nth k + s) :=
  fill_linear _ (fun k => m.nth k + s) (fun i r hi => by simp [get_lt m hi])

theorem subScalar_spec [Zero T] [Sub T] (m : Matrix M N T) (s : T) :
    ∃ r, m.subScalar s = some r ∧ ∀ k, k < M * N → r.get k = some (m.nth k - s) :=
  fill_linear _ (fun k => m.nth k - s) (fun i r hi => by simp [get_lt m hi])

theorem scalarSub_spec [Zero T] [Sub T] (s : T) (m : Matrix M N T) :
    ∃ r, scalarSub s m = some r ∧ ∀ k, k < M * N → r.get k = some (s - m.nth k) :=
  fill_linear _ (fun k => s - m.nth k) (fun i r hi => by simp [get_lt m hi])

theorem scalarMul_spec [Zero T] [Mul T] (s : T) (m : Matrix M N T) :
    ∃ r, scalarMul s m = some r ∧ ∀ k, k < M * N → r.get k = some (s * m.nth k) :=
  fill_linear _ (fun k => s * m.nth k) (fun i r hi => by simp [get_lt m hi])

theorem scalarDiv_spec [Zero T] [CppDiv T] (s : T) (m : Matrix M N T) (q : Nat → T)
    (hq : ∀ k, k < M * N → CppDiv.cdiv s (m.nth k) = some (q k)) :
    ∃ r, scalarDiv s m = some r ∧ ∀ k, k < M * N → r.get k = some (q k) :=
  fill_linear _ q (fun i r hi => by simp [get_lt m hi, hq i hi])


theorem elem_eq_nth [Zero T] (m : Matrix M N T) (i : Fin (M * N)) : m.elem i = m.nth i := by
  have h1 := get_elem m i
  rw [get_lt m i.isLt] at h1
  exact (Option.some.inj h1).symm

/-! ## Elementwise and broadcast operators -/

/-- C11: for same-shape matrices `a` and `b` and every linear index `i`, `a + b`
and `a - b` are returned and hold `a(i) + b(i)`, `a(i) - b(i)`; the compound
forms `a += b`, `a -= b`, `a *= b` leave `a(i) + b(i)`, `a(i) - b(i)`,
`a(i) * b(i)` (old `a`) in `a`, and so does `a /= b` with `a(i) / b(i)` where
these quotients are defined in the element type.  The operand `b` is only read. -/
theorem matrix_ops_elementwise [Zero T] [Add T] [Sub T] [Mul T] [CppDiv T]
    (a b : Matrix M N T) :
    (∃ r, a.add b = some r ∧ ∀ i : Fin (M * N), r.get i = some (a.elem i + b.elem i)) ∧
    (∃ r, a.sub b = some r ∧ ∀ i : Fin (M * N), r.get i = some (a.elem i - b.elem i)) ∧
    (∃ r, a.addAssign b = some r ∧
      ∀ i : Fin (M * N), r.get i = some (a.elem i + b.elem i)) ∧
    (∃ r, a.subAssign b = some r ∧
      ∀ i : Fin (M * N), r.get i = some (a.elem i - b.elem i)) ∧
    (∃ r, a.mulAssign b = some r ∧
      ∀ i : Fin (M * N), r.get i = some (a.elem i * b.elem i)) ∧
    (∀ q : Fin (M * N) → T, (∀ i, CppDiv.cdiv (a.elem i) (b.elem i) = some (q i)) →
      ∃ r, a.divAssign b = some r ∧ ∀ i : Fin (M * N), r.get i = some (q i)) := by
  refine ⟨?_, ?_, ?_, ?_, ?_, ?_⟩
  · obtain ⟨r, hr, h⟩ := add_spec a b
    exact ⟨r, hr, fun i => by rw [h i i.isLt, elem_eq_nth, elem_eq_nth]⟩
  · obtain ⟨r, hr, h⟩ := sub_spec a b
    exact ⟨r, hr, fun i => by rw [h i i.isLt, elem_eq_nth, elem_eq_nth]⟩
  · obtain ⟨r, hr, h⟩ := addAssign_spec a b
    exact ⟨r, hr, fun i => by rw [h i i.isLt, elem_eq_nth, elem_eq_nth]⟩
  · obtain ⟨r, hr, h⟩ := subAssign_spec a b
    exact ⟨r, hr, fun i => by rw [h i i.isLt, elem_eq_nth, elem_eq_nth]⟩
  · obtain ⟨r, hr, h⟩ := mulAssign_spec a b
    exact ⟨r, hr, fun i => by rw [h i i.isLt, elem_eq_nth, elem_eq_nth]⟩
  · intro q hq
    obtain ⟨r, hr, h⟩ := divAssign_spec a b
      (fun k => if hk : k < M * N then q ⟨k, hk⟩ else 0)
      (fun k hk => by
        have := hq ⟨k, hk⟩
        rw [elem_eq_nth, elem_eq_nth] at this
        simpa [hk] using this)
    refine ⟨r, hr, fun i => ?_⟩
    rw [h i i.isLt]
    simp

/-- The six operators of C11 on the 2x1 integer matrices `(7, -9)` and `(2, 4)`;
the quotients `7 / 2` and `-9 / 4` round towards zero. -/
theorem matrix_ops_elementwise_witness :
    (ofList [7, -9] rfl : Matrix 2 1 Int).add (ofList [2, 4] rfl) = some (ofList [9, -5] rfl) ∧
    (ofList [7, -9] rfl : Matrix 2 1 Int).sub (ofList [2, 4] rfl) = some (ofList [5, -13] rfl) ∧
    (ofList [7, -9] rfl : Matrix 2 1 Int).mulAssign (ofList [2, 4] rfl)
      = some (ofList [14, -36] rfl) ∧
    ∃ r, (ofList [7, -9] rfl : Matrix 2 1 Int).divAssign (ofList [2, 4] rfl) = some r ∧
      ∀ i : Fin (2 * 1), r.get i = some (![3, -2] i) :=
  ⟨by decide, by decide, by decide,
    (matrix_ops_elementwise (ofList [7, -9] rfl : Matrix 2 1 Int) (ofList [2, 4] rfl)).2.2.2.2.2
      ![3, -2] (by decide)⟩

/-- C12: the 2x2 integer matrices `a = (1,2,3,4)` and `b = (5,6,7,8)` are such
that `a *= b` leaves the elementwise product `(5,12,21,32)` in `a` while `a * b`
is the matrix product `(19,22,43,50)`. -/
theorem mulAssign_differs_from_mul :
    ∃ (a b h p : Matrix 2 2 Int), a.mulAssign b = some h ∧ a.mul b = some p ∧ h ≠ p ∧
      h = ofList [5, 12, 21, 32] rfl ∧ p = ofList [19, 22, 43, 50] rfl :=
  ⟨ofList [1, 2, 3, 4] rfl, ofList [5, 6, 7, 8] rfl, ofList [5, 12, 21, 32] rfl,
    ofList [19, 22, 43, 50] rfl, by decide, by decide, by decide, rfl, rfl⟩

/-- C13: for every matrix `a`, scalar `s` and linear index `i`, over an element
type with a commutative multiplication: `a + s` and `s + a` hold `a(i) + s`,
`a - s` holds `a(i) - s`, `s - a` holds `s - a(i)`, `a * s` and `s * a` hold
`a(i) * s`, and `a / s`, `s / a` hold `a(i) / s`, `s / a(i)` where these
quotients are defined in the element type. -/
theorem scalar_ops_broadcast [Zero T] [Add T] [Sub T] [CommMagma T] [CppDiv T]
    (a : Matrix M N T) (s : T) :
    (∃ r, a.addScalar s = some r ∧ ∀ i : Fin (M * N), r.get i = some (a.elem i + s)) ∧
    (∃ r, scalarAdd s a = some r ∧ ∀ i : Fin (M * N), r.get i = some (a.elem i + s)) ∧
    (∃ r, a.subScalar s = some r ∧ ∀ i : Fin (M * N), r.get i = some (a.elem i - s)) ∧
    (∃ r, scalarSub s a = some r ∧ ∀ i : Fin (M * N), r.get i = some (s - a.elem i)) ∧
    (∃ r, a.mulScalar s = some r ∧ ∀ i : Fin (M * N), r.get i = some (a.elem i * s)) ∧
    (∃ r, scalarMul s a = some r ∧ ∀ i : Fin (M * N), r.get i = some (a.elem i * s)) ∧
    (∀ q : Fin (M * N) → T, (∀ i, CppDiv.cdiv (a.elem i) s = some (q i)) →
      ∃ r, a.divScalar s = some r ∧ ∀ i : Fin (M * N), r.get i = some (q i)) ∧
    (∀ q : Fin (M * N) → T, (∀ i, CppDiv.cdiv s (a.elem i) = some (q i)) →
      ∃ r, scalarDiv s a = some r ∧ ∀ i : Fin (M * N), r.get i = some (q i)) := by
  refine ⟨?_, ?_, ?_, ?_, ?_, ?_, ?_, ?_⟩
  · obtain ⟨r, hr, h⟩ := addScalar_spec a s
    exact ⟨r, hr, fun i => by rw [h i i.isLt, elem_eq_nth]⟩
  · obtain ⟨r, hr, h⟩ := addScalar_spec a s
    exact ⟨r, hr, fun i => by rw [h i i.isLt, elem_eq_nth]⟩
  · obtain ⟨r, hr, h⟩ := subScalar_spec a s
    exact ⟨r, hr, fun i => by rw [h i i.isLt, elem_eq_nth]⟩
  · obtain ⟨r, hr, h⟩ := scalarSub_spec s a
    exact ⟨r, hr, fun i => by rw [h i i.isLt, elem_eq_nth]⟩
  · obtain ⟨r, hr, h⟩ := mulScalar_spec a s
    exact ⟨r, hr, fun i => by rw [h i i.isLt, elem_eq_nth]⟩
  · obtain ⟨r, hr, h⟩ := scalarMul_spec s a
    exact ⟨r, hr, fun i => by rw [h i i.isLt, elem_eq_nth, mul_comm]⟩
  · intro q hq
    obtain ⟨r, hr, h⟩ := divScalar_spec a s
      (fun k => if hk : k < M * N then q ⟨k, hk⟩ else 0)
      (fun k hk => by
        have := hq ⟨k, hk⟩
        rw [elem_eq_nth] at this
        simpa [hk] using this)
    refine ⟨r, hr, fun i => ?_⟩
    rw [h i i.isLt]
    simp
  · intro q hq
    obtain ⟨r, hr, h⟩ := scalarDiv_spec s a
      (fun k => if hk : k < M * N then q ⟨k, hk⟩ else 0)
      (fun k hk => by
        have := hq ⟨k, hk⟩
        rw [elem_eq_nth] at this
        simpa [hk] using this)
    refine ⟨r, hr, fun i => ?_⟩
    rw [h i i.isLt]
    simp

/-- The operators of C13 on the 2x1 integer matrix `(7, -9)` and the scalar `2`. -/
theorem scalar_ops_broadcast_witness :
    scalarSub 2 (ofList [7, -9] rfl : Matrix 2 1 Int) = some (ofList [-5, 11] rfl) ∧
    scalarMul 2 (ofList [7, -9] rfl : Matrix 2 1 Int) = some (ofList [14, -18] rfl) ∧
    (∃ r, (ofList [7, -9] rfl : Matrix 2 1 Int).divScalar 2 = some r ∧
      ∀ i : Fin (2 * 1), r.get i = some (![3, -4] i)) ∧
    ∃ r, scalarDiv 20 (ofList [7, -9] rfl : Matrix 2 1 Int) = some r ∧
      ∀ i : Fin (2 * 1), r.get i = some (![2, -2] i) :=
  ⟨by decide, by decide,
    (scalar_ops_broadcast (ofList [7, -9] rfl : Matrix 2 1 Int) 2).2.2.2.2.2.2.1
      ![3, -4] (by decide),
    (scalar_ops_broadcast (ofList [7, -9] rfl : Matrix 2 1 Int) 20).2.2.2.2.2.2.2
      ![2, -2] (by decide)⟩

/-! ## Determinant of the identity and of row swaps -/

/-- C14: for every size `n + 1 >= 1`, `identity()` returns a matrix whose
`det()` returns 1 (closed forms up to size 3, the expansion above). -/
theorem det_identity [CommRing T] (n : Nat) :
    ∃ e : Matrix (n + 1) (n + 1) T, identity = some e ∧ det (n + 1) e = some 1 := by
  obtain ⟨e, he, _⟩ := identity_spec (M := n + 1) (T := T)
  refine ⟨e, he, ?_⟩
  rw [det_eq_mathDet, identity_toMath he, mathDet, Matrix.det_one]

/-- C15: if `b` is `a` with the rows `p` and `q` swapped (`p` and `q` distinct),
then `det()` returns opposite values on `a` and `b`; and `det()` returns 0 on a
matrix with two equal rows.  Stated for every size `n + 1`, so for 2, 3 and 4. -/
theorem det_row_swap [CommRing T] (n : Nat) :
    (∀ (a b : Matrix (n + 1) (n + 1) T) (p q : Fin (n + 1)), p ≠ q →
      (∀ r c, b.entry r c = a.entry (if r = p then q else if r = q then p else r) c) →
      ∃ d, det (n + 1) a = some d ∧ det (n + 1) b = some (-d)) ∧
    (∀ (a : Matrix (n + 1) (n + 1) T) (p q : Fin (n + 1)), p ≠ q →
      (∀ c, a.entry p c = a.entry q c) → det (n + 1) a = some 0) := by
  constructor
  · intro a b p q hpq hswap
    refine ⟨mathDet a.toMath, det_eq_mathDet n a, ?_⟩
    rw [det_eq_mathDet]
    have hb : b.toMath = a.toMath.submatrix (Equiv.swap p q) id := by
      funext r c
      show b.entry r c = a.entry (Equiv.swap p q r) c
      rw [hswap r c, Equiv.swap_apply_def]
    rw [hb, mathDet, Matrix.det_permute, Equiv.Perm.sign_swap hpq]
    simp
  · intro a p q hpq hrow
    rw [det_eq_mathDet]
    have : mathDet a.toMath = 0 :=
      Matrix.det_zero_of_row_eq hpq (funext fun c => hrow c)
    rw [this]

/-- C15 at the integer matrices `(1,2,3,4)` and `(3,4,1,2)`, and at the 4x4
matrix whose rows 1 and 3 both are `(5,6,7,8)`. -/
theorem det_row_swap_witness :
    (∃ d, det 2 (ofList [1, 2, 3, 4] rfl : Matrix 2 2 Int) = some d ∧
      det 2 (ofList [3, 4, 1, 2] rfl : Matrix 2 2 Int) = some (-d)) ∧
    det 4 (ofList [1, 2, 3, 4, 5, 6, 7, 8, 9, 1, 2, 3, 5, 6, 7, 8] rfl : Matrix 4 4 Int)
      = some 0 :=
  ⟨(det_row_swap 1).1 (ofList [1, 2, 3, 4] rfl) (ofList [3, 4, 1, 2] rfl) 0 1
      (by decide) (by decide),
    (det_row_swap 3).2 (ofList [1, 2, 3, 4, 5, 6, 7, 8, 9, 1, 2, 3, 5, 6, 7, 8] rfl) 1 3
      (by decide) (by decide)⟩

/-! ## Deleting a row or a column -/

theorem index_lt_mul_iff {r c i : Nat} (hc : c < N) : r * N + c < N * i ↔ r < i := by
  constructor
  · intro h
    by_contra hri
    have : i * N ≤ r * N := Nat.mul_le_mul_right N (by omega)
    rw [Nat.mul_comm N i] at h
    omega
  · intro h
    have : (r + 1) * N ≤ i * N := Nat.mul_le_mul_right N h
    rw [Nat.succ_mul] at this
    rw [Nat.mul_comm N i]
    omega

/-- C16: for a matrix `a` with more than one row and a row index `i < M`,
`cutRow(i)` returns the `(M - 1) x N` matrix that holds `a(r, c)` in the rows
`r < i` and `a(r + 1, c)` in the rows `r >= i`. -/
theorem cutRow_removes_row [Zero T] (a : Matrix M N T) (i : Nat) (hM : 1 < M) (hi : i < M) :
    ∃ R : Matrix (M - 1) N T, a.cutRow i = some R ∧
      ∀ r c, r < M - 1 → c < N →
        (R.get2 r c).isSome ∧
        R.get2 r c = if r < i then a.get2 r c else a.get2 (r + 1) c := by
  obtain ⟨R, hR, hget⟩ := cutRow_spec a hi
  refine ⟨R, hR, fun r c hr hc => ?_⟩
  have hk := hget (r * N + c) (index_lt hr hc)
  have e : R.get2 r c = R.get (r * N + c) := rfl
  rw [e, hk]
  refine ⟨rfl, ?_⟩
  by_cases hri : r < i
  · rw [if_pos ((index_lt_mul_iff hc).mpr hri), if_pos hri]
    exact (get2_lt a (by omega) hc).symm
  · rw [if_neg (fun h => hri ((index_lt_mul_iff hc).mp h)), if_neg hri]
    rw [get2_lt a (show r + 1 < M by omega) hc]
    congr 2
    rw [Nat.succ_mul]
    omega

/-- C16 at the 3x2 integer matrix `(1,2,3,4,5,6)` and the row 1. -/
theorem cutRow_removes_row_witness :
    ∃ R : Matrix (3 - 1) 2 Int, (ofList [1, 2, 3, 4, 5, 6] rfl : Matrix 3 2 Int).cutRow 1 = some R ∧
      ∀ r c, r < 3 - 1 → c < 2 →
        (R.get2 r c).isSome ∧
        R.get2 r c = if r < 1 then (ofList [1, 2, 3, 4, 5, 6] rfl : Matrix 3 2 Int).get2 r c
          else (ofList [1, 2, 3, 4, 5, 6] rfl : Matrix 3 2 Int).get2 (r + 1) c :=
  cutRow_removes_row _ 1 (by decide) (by decide)

/-- C17: for a matrix `a` with more than one column and a column index `i < N`,
`cutCol(i)` returns the `M x (N - 1)` matrix that holds `a(r, c)` in the columns
`c < i` and `a(r, c + 1)` in the columns `c >= i`. -/
theorem cutCol_removes_col [Zero T] (a : Matrix M N T) (i : Nat) (hN : 1 < N) (hi : i < N) :
    ∃ R : Matrix M (N - 1) T, a.cutCol i = some R ∧
      ∀ r c, r < M → c < N - 1 →
        (R.get2 r c).isSome ∧
        R.get2 r c = if c < i then a.get2 r c else a.get2 r (c + 1) := by
  obtain ⟨R, hR, hget⟩ := cutCol_spec a hi
  refine ⟨R, hR, fun r c hr hc => ?_⟩
  rw [hget r c hr hc]
  refine ⟨rfl, ?_⟩
  by_cases hci : c < i
  · rw [if_pos hci, if_pos hci]
    exact (get2_lt a hr (by omega)).symm
  · rw [if_neg hci, if_neg hci]
    exact (get2_lt a hr (by omega)).symm

/-- C17 at the 2x3 integer matrix `(1,2,3,4,5,6)` and the column 1. -/
theorem cutCol_removes_col_witness :
    ∃ R : Matrix 2 (3 - 1) Int, (ofList [1, 2, 3, 4, 5, 6] rfl : Matrix 2 3 Int).cutCol 1 = some R ∧
      ∀ r c, r < 2 → c < 3 - 1 →
        (R.get2 r c).isSome ∧
        R.get2 r c = if c < 1 then (ofList [1, 2, 3, 4, 5, 6] rfl : Matrix 2 3 Int).get2 r c
          else (ofList [1, 2, 3, 4, 5, 6] rfl : Matrix 2 3 Int).get2 r (c + 1) :=
  cutCol_removes_col _ 1 (by decide) (by decide)

theorem roundF32_small {x : Int} (h : x.natAbs < 16777216) : roundF32 x = x := by
  simp [roundF32, h]

example : roundF32 16777217 = 16777216 := by norm_num [roundF32, Nat.log2]
example : roundF32 (-16777218) = -16777218 := by norm_num [roundF32, Nat.log2]


theorem bounds_mul {a b A B : Int} (ha : -A ≤ a ∧ a ≤ A) (hb : -B ≤ b ∧ b ≤ B) :
    -(A * B) ≤ a * b ∧ a * b ≤ A * B := by
  have h1 : |a| ≤ A := abs_le.mpr ha
  have h2 : |b| ≤ B := abs_le.mpr hb
  have h3 : |a * b| ≤ A * B := by
    rw [abs_mul]
    exact mul_le_mul h1 h2 (abs_nonneg _) (le_trans (abs_nonneg _) h1)
  exact abs_le.mp h3

theorem CInt.mul_val_of_fits (a b : CInt) (h1 : -2147483648 ≤ a.val * b.val)
    (h2 : a.val * b.val ≤ 2147483647) : (a * b).val = a.val * b.val :=
  wrap32_of_fits h1 h2

theorem CInt.sub_val_of_fits (a b : CInt) (h1 : -2147483648 ≤ a.val - b.val)
    (h2 : a.val - b.val ≤ 2147483647) : (a - b).val = a.val - b.val :=
  wrap32_of_fits h1 h2

/-- The value of `x * y - z * w` in `int`, for factors of magnitude at most 203. -/
theorem CInt.cross_term_val (x y z w : CInt)
    (hx : -203 ≤ x.val ∧ x.val ≤ 203) (hy : -203 ≤ y.val ∧ y.val ≤ 203)
    (hz : -203 ≤ z.val ∧ z.val ≤ 203) (hw : -203 ≤ w.val ∧ w.val ≤ 203) :
    (x * y - z * w).val = x.val * y.val - z.val * w.val ∧
    -82418 ≤ (x * y - z * w).val ∧ (x * y - z * w).val ≤ 82418 := by
  have h1 := bounds_mul hx hy
  have h2 := bounds_mul hz hw
  have e1 : (x * y).val = x.val * y.val := CInt.mul_val_of_fits x y (by omega) (by omega)
  have e2 : (z * w).val = z.val * w.val := CInt.mul_val_of_fits z w (by omega) (by omega)
  have e3 : (x * y - z * w).val = x.val * y.val - z.val * w.val := by
    rw [CInt.sub_val_of_fits _ _ (by rw [e1, e2]; omega) (by rw [e1, e2]; omega), e1, e2]
  rw [e3]
  exact ⟨rfl, by omega, by omega⟩

/-- The `float` sum of three integers below `2^24` in magnitude that add up to zero. -/
theorem float_sum3_zero (p0 p1 p2 : Int) (h0 : p0.natAbs < 16777216)
    (h1 : p1.natAbs < 16777216) (h2 : p2.natAbs < 16777216) (hs : p0 + p1 + p2 = 0) :
    roundF32 (roundF32 (roundF32 (0 + roundF32 p0) + roundF32 p1) + roundF32 p2) = 0 := by
  have h01 : (p0 + p1).natAbs < 16777216 := by omega
  rw [roundF32_small h0, roundF32_small h1, roundF32_small h2, Int.zero_add,
    roundF32_small h0, roundF32_small h01, hs]
  rfl

/-- The `float` dot product of `c` and `w`, when the three products fit and add up to zero. -/
theorem dot3_zero (c w : Matrix 3 1 CInt)
    (hc : ∀ k, k < 3 → -82418 ≤ (c.nth k).val ∧ (c.nth k).val ≤ 82418)
    (hw : ∀ k, k < 3 → -203 ≤ (w.nth k).val ∧ (w.nth k).val ≤ 203)
    (hs : (c.nth 0).val * (w.nth 0).val + (c.nth 1).val * (w.nth 1).val
      + (c.nth 2).val * (w.nth 2).val = 0) :
    c.dot f32CInt w = some 0 := by
  have b0 := bounds_mul (hc 0 (by decide)) (hw 0 (by decide))
  have b1 := bounds_mul (hc 1 (by decide)) (hw 1 (by decide))
  have b2 := bounds_mul (hc 2 (by decide)) (hw 2 (by decide))
  have e0 := CInt.mul_val_of_fits (c.nth 0) (w.nth 0) (by omega) (by omega)
  have e1 := CInt.mul_val_of_fits (c.nth 1) (w.nth 1) (by omega) (by omega)
  have e2 := CInt.mul_val_of_fits (c.nth 2) (w.nth 2) (by omega) (by omega)
  have g0 := get_lt c (k := 0) (by decide)
  have g1 := get_lt c (k := 1) (by decide)
  have g2 := get_lt c (k := 2) (by decide)
  have k0 := get_lt w (k := 0) (by decide)
  have k1 := get_lt w (k := 1) (by decide)
  have k2 := get_lt w (k := 2) (by decide)
  simp only [dot, forLoop, g0, g1, g2, k0, k1, k2, Option.bind_eq_bind, Option.some_bind,
    f32CInt, e0, e1, e2]
  congr 1
  exact float_sum3_zero _ _ _ (by omega) (by omega) (by omega) hs


/-! ## Vector operations -/

/-- C18 (as stated) fails: for the `int` vectors `u = (1, 1, 1)` and
`v = (16777218, 0, 16777217)`, `u.cross(v)` is `(16777217, 1, -16777218)` and no
`int` operation overflows, but `dot` accumulates in a `float`: `16777217` becomes
`16777216.0f`, adding `1` leaves `16777216.0f`, and adding `-16777218` gives
`-2.0f`, so `u.cross(v).dot(u)` is `-2`, not `0`.  The same holds with
mathematical integers as elements. -/
theorem cross_dot_rounds :
    (ofList [1, 1, 1] rfl : Matrix 3 1 CInt).cross (ofList [16777218, 0, 16777217] rfl)
      = some (ofList [16777217, 1, -16777218] rfl) ∧
    (ofList [16777217, 1, -16777218] rfl : Matrix 3 1 CInt).dot f32CInt (ofList [1, 1, 1] rfl)
      = some (-2) ∧
    ((ofList [1, 1, 1] rfl : Matrix 3 1 CInt).cross (ofList [16777218, 0, 16777217] rfl)).bind
      (fun c => c.dot f32CInt (ofList [1, 1, 1] rfl)) ≠ some 0 ∧
    ((ofList [1, 1, 1] rfl : Matrix 3 1 Int).cross (ofList [16777218, 0, 16777217] rfl)).bind
      (fun c => c.dot f32Int (ofList [1, 1, 1] rfl)) = some (-2) := by
  have r1 : roundF32 16777217 = 16777216 := by norm_num [roundF32, Nat.log2]
  have r2 : roundF32 (-16777218) = -16777218 := by norm_num [roundF32, Nat.log2]
  have r3 : roundF32 1 = 1 := by norm_num [roundF32]
  have r4 : roundF32 16777216 = 16777216 := by norm_num [roundF32, Nat.log2]
  have r5 : roundF32 (-2) = -2 := by norm_num [roundF32]
  have hc : (ofList [1, 1, 1] rfl : Matrix 3 1 CInt).cross (ofList [16777218, 0, 16777217] rfl)
      = some (ofList [16777217, 1, -16777218] rfl) := by decide
  have hd : (ofList [16777217, 1, -16777218] rfl : Matrix 3 1 CInt).dot f32CInt
      (ofList [1, 1, 1] rfl) = some (-2) := by
    have e1 : ((16777217 : CInt) * 1).val = 16777217 := by decide
    have e2 : ((1 : CInt) * 1).val = 1 := by decide
    have e3 : ((-16777218 : CInt) * 1).val = -16777218 := by decide
    simp only [dot, forLoop, get, ofList, f32CInt]
    simp [e1, e2, e3, r1, r2, r3, r4, r5]
  have hci : (ofList [1, 1, 1] rfl : Matrix 3 1 Int).cross (ofList [16777218, 0, 16777217] rfl)
      = some (ofList [16777217, 1, -16777218] rfl) := by decide
  refine ⟨hc, hd, ?_, ?_⟩
  · rw [hc, Option.some_bind, hd]
    decide
  · rw [hci, Option.some_bind]
    simp only [dot, forLoop, get, ofList, f32Int]
    simp [r1, r2, r3, r4, r5]

/-- C18 (amended): for all 3-element `int` vectors `u` and `v` whose components
have magnitude at most 203, `u.cross(v)` is returned, its components are
`u1*v2 - u2*v1`, `u2*v0 - u0*v2`, `u0*v1 - u1*v0`, and `u.cross(v).dot(u)` and
`u.cross(v).dot(v)` are both `0`. -/
theorem cross_dot_orthogonal (u v : Matrix 3 1 CInt)
    (hu : ∀ x ∈ u.data, -203 ≤ x.val ∧ x.val ≤ 203)
    (hv : ∀ x ∈ v.data, -203 ≤ x.val ∧ x.val ≤ 203) :
    ∃ c : Matrix 3 1 CInt, u.cross v = some c ∧
      c.data.map CInt.val =
        [(u.elem 1).val * (v.elem 2).val - (u.elem 2).val * (v.elem 1).val,
         (u.elem 2).val * (v.elem 0).val - (u.elem 0).val * (v.elem 2).val,
         (u.elem 0).val * (v.elem 1).val - (u.elem 1).val * (v.elem 0).val] ∧
      c.dot f32CInt u = some 0 ∧ c.dot f32CInt v = some 0 := by
  have hun : ∀ k, k < 3 → -203 ≤ (u.nth k).val ∧ (u.nth k).val ≤ 203 :=
    fun k hk => hu _ (nth_mem u (by omega))
  have hvn : ∀ k, k < 3 → -203 ≤ (v.nth k).val ∧ (v.nth k).val ≤ 203 :=
    fun k hk => hv _ (nth_mem v (by omega))
  have g0 := get_lt u (k := 0) (by decide)
  have g1 := get_lt u (k := 1) (by decide)
  have g2 := get_lt u (k := 2) (by decide)
  have k0 := get_lt v (k := 0) (by decide)
  have k1 := get_lt v (k := 1) (by decide)
  have k2 := get_lt v (k := 2) (by decide)
  have t0 := CInt.cross_term_val (u.nth 1) (v.nth 2) (u.nth 2) (v.nth 1)
    (hun 1 (by decide)) (hvn 2 (by decide)) (hun 2 (by decide)) (hvn 1 (by decide))
  have t1 := CInt.cross_term_val (u.nth 2) (v.nth 0) (u.nth 0) (v.nth 2)
    (hun 2 (by decide)) (hvn 0 (by decide)) (hun 0 (by decide)) (hvn 2 (by decide))
  have t2 := CInt.cross_term_val (u.nth 0) (v.nth 1) (u.nth 1) (v.nth 0)
    (hun 0 (by decide)) (hvn 1 (by decide)) (hun 1 (by decide)) (hvn 0 (by decide))
  have hcross : u.cross v = some (ofList [u.nth 1 * v.nth 2 - u.nth 2 * v.nth 1,
      u.nth 2 * v.nth 0 - u.nth 0 * v.nth 2, u.nth 0 * v.nth 1 - u.nth 1 * v.nth 0] rfl) := by
    simp only [cross, g0, g1, g2, k0, k1, k2, Option.bind_eq_bind, Option.some_bind]
  have c0 : (ofList [u.nth 1 * v.nth 2 - u.nth 2 * v.nth 1,
      u.nth 2 * v.nth 0 - u.nth 0 * v.nth 2, u.nth 0 * v.nth 1 - u.nth 1 * v.nth 0] rfl :
      Matrix 3 1 CInt).nth 0 = u.nth 1 * v.nth 2 - u.nth 2 * v.nth 1 := rfl
  have c1 : (ofList [u.nth 1 * v.nth 2 - u.nth 2 * v.nth 1,
      u.nth 2 * v.nth 0 - u.nth 0 * v.nth 2, u.nth 0 * v.nth 1 - u.nth 1 * v.nth 0] rfl :
      Matrix 3 1 CInt).nth 1 = u.nth 2 * v.nth 0 - u.nth 0 * v.nth 2 := rfl
  have c2 : (ofList [u.nth 1 * v.nth 2 - u.nth 2 * v.nth 1,
      u.nth 2 * v.nth 0 - u.nth 0 * v.nth 2, u.nth 0 * v.nth 1 - u.nth 1 * v.nth 0] rfl :
      Matrix 3 1 CInt).nth 2 = u.nth 0 * v.nth 1 - u.nth 1 * v.nth 0 := rfl
  have hcb : ∀ k, k < 3 → -82418 ≤ ((ofList [u.nth 1 * v.nth 2 - u.nth 2 * v.nth 1,
      u.nth 2 * v.nth 0 - u.nth 0 * v.nth 2, u.nth 0 * v.nth 1 - u.nth 1 * v.nth 0] rfl :
      Matrix 3 1 CInt).nth k).val ∧ ((ofList [u.nth 1 * v.nth 2 - u.nth 2 * v.nth 1,
      u.nth 2 * v.nth 0 - u.nth 0 * v.nth 2, u.nth 0 * v.nth 1 - u.nth 1 * v.nth 0] rfl :
      Matrix 3 1 CInt).nth k).val ≤ 82418 := by
    intro k hk
    have : k = 0 ∨ k = 1 ∨ k = 2 := by omega
    rcases this with rfl | rfl | rfl
    · rw [c0]; exact t0.2
    · rw [c1]; exact t1.2
    · rw [c2]; exact t2.2
  refine ⟨_, hcross, ?_, ?_, ?_⟩
  · simp only [ofList, List.map, elem_eq_nth, t0.1, t1.1, t2.1]
    rfl
  · apply dot3_zero _ u hcb hun
    rw [c0, c1, c2, t0.1, t1.1, t2.1]
    ring
  · apply dot3_zero _ v hcb hvn
    rw [c0, c1, c2, t0.1, t1.1, t2.1]
    ring

/-- The amended C18 at `u = (3, -5, 7)` and `v = (200, 11, -13)`. -/
theorem cross_dot_orthogonal_witness :
    ∃ c : Matrix 3 1 CInt,
      (ofList [3, -5, 7] rfl : Matrix 3 1 CInt).cross (ofList [200, 11, -13] rfl) = some c ∧
      c.data.map CInt.val =
        [((ofList [3, -5, 7] rfl : Matrix 3 1 CInt).elem 1).val
            * ((ofList [200, 11, -13] rfl : Matrix 3 1 CInt).elem 2).val
          - ((ofList [3, -5, 7] rfl : Matrix 3 1 CInt).elem 2).val
            * ((ofList [200, 11, -13] rfl : Matrix 3 1 CInt).elem 1).val,
         ((ofList [3, -5, 7] rfl : Matrix 3 1 CInt).elem 2).val
            * ((ofList [200, 11, -13] rfl : Matrix 3 1 CInt).elem 0).val
          - ((ofList [3, -5, 7] rfl : Matrix 3 1 CInt).elem 0).val
            * ((ofList [200, 11, -13] rfl : Matrix 3 1 CInt).elem 2).val,
         ((ofList [3, -5, 7] rfl : Matrix 3 1 CInt).elem 0).val
            * ((ofList [200, 11, -13] rfl : Matrix 3 1 CInt).elem 1).val
          - ((ofList [3, -5, 7] rfl : Matrix 3 1 CInt).elem 1).val
            * ((ofList [200, 11, -13] rfl : Matrix 3 1 CInt).elem 0).val] ∧
      c.dot f32CInt (ofList [3, -5, 7] rfl) = some 0 ∧
      c.dot f32CInt (ofList [200, 11, -13] rfl) = some 0 :=
  cross_dot_orthogonal _ _ (by decide) (by decide)

/-- C21: for `row < M`, `col < N` and a value `v`, `set(row, col, v)` succeeds, after
it `get(row, col)` and `get(row * N + col)` both return `v`, and `get(k)` is
unchanged at every other linear index `k < M * N`. -/
theorem set_then_get (m : Matrix M N T) (row col : Nat) (v : T) (hr : row < M) (hc : col < N) :
    ∃ r : Matrix M N T, m.set2 row col v = some r ∧
      r.get2 row col = some v ∧ r.get (row * N + col) = some v ∧
      ∀ k, k < M * N → k ≠ row * N + col → r.get k = m.get k := by
  obtain ⟨r, hr1, hr2⟩ := set_lt m (index_lt hr hc) v
  refine ⟨r, hr1, ?_, ?_, ?_⟩
  · show r.get (row * N + col) = some v
    rw [hr2]; simp
  · rw [hr2]; simp
  · intro k _ hk
    rw [hr2, if_neg hk]

/-- C21 at the 2x3 integer matrix `(1,2,3,4,5,6)`, the position `(1, 2)` and the value 9. -/
theorem set_then_get_witness :
    ∃ r : Matrix 2 3 Int, (ofList [1, 2, 3, 4, 5, 6] rfl : Matrix 2 3 Int).set2 1 2 9 = some r ∧
      r.get2 1 2 = some 9 ∧ r.get (1 * 3 + 2) = some 9 ∧
      ∀ k, k < 2 * 3 → k ≠ 1 * 3 + 2 →
        r.get k = (ofList [1, 2, 3, 4, 5, 6] rfl : Matrix 2 3 Int).get k :=
  set_then_get _ 1 2 9 (by decide) (by decide)

/-- The loop of `operator==` returns a value, and it is `true` exactly when the elements
at the indices it visits are equal. -/
theorem eqLoop_spec [Zero T] [DecidableEq T] (a b : Matrix M N T) :
    ∀ (n i : Nat), i + n ≤ M * N →
      ∃ r, eqLoop a b i n = some r ∧
        (r = true ↔ ∀ k, i ≤ k → k < i + n → a.get k = b.get k) := by
  intro n
  induction n with
  | zero =>
    intro i _
    exact ⟨true, rfl, by simp; intro k h1 h2; omega⟩
  | succ n ih =>
    intro i hi
    have hlt : i < M * N := by omega
    obtain ⟨r, hr, hiff⟩ := ih (i + 1) (by omega)
    by_cases hne : a.nth i = b.nth i
    · refine ⟨r, ?_, ?_⟩
      · simp [eqLoop, get_lt a hlt, get_lt b hlt, hne, hr]
      · rw [hiff]
        constructor
        · intro h k h1 h2
          by_cases hk : k = i
          · subst hk; rw [get_lt a hlt, get_lt b hlt, hne]
          · exact h k (by omega) (by omega)
        · intro h k h1 h2
          exact h k (by omega) (by omega)
    · refine ⟨false, ?_, ?_⟩
      · simp [eqLoop, get_lt a hlt, get_lt b hlt, hne]
      · constructor
        · intro h; cases h
        · intro h
          have := h i (Nat.le_refl _) (by omega)
          rw [get_lt a hlt, get_lt b hlt] at this
          exact absurd (Option.some.inj this) hne

theorem eq_true_iff [Zero T] [DecidableEq T] (a b : Matrix M N T) :
    a.eq b = some true ↔ a = b := by
  obtain ⟨r, hr, hiff⟩ := eqLoop_spec a b (M * N) 0 (by omega)
  unfold eq
  rw [hr]
  constructor
  · intro h
    have hr' : r = true := Option.some.inj h
    apply ext_get
    intro k hk
    exact (hiff.mp hr') k (Nat.zero_le _) (by omega)
  · intro h
    subst h
    have : r = true := hiff.mpr (fun _ _ _ => rfl)
    rw [this]

/-- C22: for `int` matrices `a` and `b` of one shape, if `a == b` returns `true` then the
hash is returned for both and is the same value; `==` returns `true` exactly when the
element sequences are equal, so the hash depends on the element sequence only. -/
theorem hash_respects_eq (a b : Matrix M N CInt) (h : a.eq b = some true) :
    a.data = b.data ∧ ∃ v, a.hash = some v ∧ b.hash = some v := by
  have hab : a = b := (eq_true_iff a b).mp h
  subst hab
  refine ⟨rfl, ?_⟩
  obtain ⟨v, hv, _⟩ := forLoop_inv (fun i hash => do
      let x ← a.get i
      let part_hash :=
        ((x.val % 18446744073709551616).toNat <<< (8 * (i % 4))) % 18446744073709551616
          % 4294967296
      if i % 8 < 4 then some (hash ^^^ part_hash)
      else some (hash ^^^ byteswap64 hash)) (fun _ _ => True) (M * N) 0 0 trivial
    (fun i s _ hi _ => by
      have hi' : i < M * N := by omega
      by_cases h4 : i % 8 < 4
      · exact ⟨s ^^^ ((a.nth i).val % 18446744073709551616).toNat <<< (8 * (i % 4))
            % 18446744073709551616 % 4294967296, by simp [get_lt a hi', h4], trivial⟩
      · exact ⟨s ^^^ byteswap64 s, by simp [get_lt a hi', h4], trivial⟩)
  exact ⟨v, hv, hv⟩

/-- C22 at the 2x3 `int` matrix `(1,2,3,4,5,6)` compared with an equal matrix. -/
theorem hash_respects_eq_witness :
    (ofList [1, 2, 3, 4, 5, 6] rfl : Matrix 2 3 CInt).data
      = (ofList [1, 2, 3, 4, 5, 6] rfl : Matrix 2 3 CInt).data ∧
    ∃ v, (ofList [1, 2, 3, 4, 5, 6] rfl : Matrix 2 3 CInt).hash = some v ∧
      (ofList [1, 2, 3, 4, 5, 6] rfl : Matrix 2 3 CInt).hash = some v :=
  hash_respects_eq _ _ (by decide)

/-- C23: the hash of a 5x1 `int` vector does not depend on the element at position 4:
for `i % 8 >= 4` the loop computes `part_hash` and then executes
`hash ^= std::byteswap(hash)`, which does not use it.  So `(0,0,0,0,0)` and
`(0,0,0,0,1)`, and any two vectors that differ only at position 4, have the same
hash.  In a 6x1 vector the iterations 4 and 5 cancel the running hash, and position 0
is lost too: `(1,0,0,0,0,0)` and `(2,0,0,0,0,0)` both hash to 0. -/
theorem hash_ignores_position_four :
    (∀ x0 x1 x2 x3 y z : CInt,
      (ofList [x0, x1, x2, x3, y] rfl : Matrix 5 1 CInt).hash
        = (ofList [x0, x1, x2, x3, z] rfl : Matrix 5 1 CInt).hash) ∧
    (ofList [0, 0, 0, 0, 0] rfl : Matrix 5 1 CInt).hash = some 0 ∧
    (ofList [0, 0, 0, 0, 1] rfl : Matrix 5 1 CInt).hash = some 0 ∧
    (ofList [1, 0, 0, 0, 0, 0] rfl : Matrix 6 1 CInt).hash = some 0 ∧
    (ofList [2, 0, 0, 0, 0, 0] rfl : Matrix 6 1 CInt).hash = some 0 ∧
    (ofList [1, 0, 0, 0] rfl : Matrix 4 1 CInt).hash = some 1 ∧
    (ofList [2, 0, 0, 0] rfl : Matrix 4 1 CInt).hash = some 2 := by
  refine ⟨fun x0 x1 x2 x3 y z => ?_, by decide, by decide, by decide, by decide, by decide,
    by decide⟩
  simp [hash, forLoop, get, ofList]

theorem cdiv_rat (a : ℚ) {b : ℚ} (h : b ≠ 0) : CppDiv.cdiv a b = some (a / b) := by
  show (if b = 0 then none else some (a / b)) = some (a / b)
  rw [if_neg h]

theorem identity_four_rat : (identity : Option (Matrix 4 4 ℚ))
    = some (ofList [1, 0, 0, 0, 0, 1, 0, 0, 0, 0, 1, 0, 0, 0, 0, 1] rfl) := rfl

theorem ortho_eq (left right bottom top : ℚ) (h1 : right - left ≠ 0) (h2 : top - bottom ≠ 0) :
    ortho left right bottom top = some (ofList
      [2 / (right - left), 0, 0, -(right + left) / (right - left),
       0, 2 / (top - bottom), 0, -(top + bottom) / (top - bottom),
       0, 0, -1, 0,
       0, 0, 0, 1] rfl) := by
  simp only [ortho, identity_four_rat, cdiv_rat _ h1, cdiv_rat _ h2, Option.bind_eq_bind,
    Option.some_bind]
  rfl

theorem ortho6_eq (left right bottom top zNear zFar : ℚ) (h1 : right - left ≠ 0)
    (h2 : top - bottom ≠ 0) (h3 : zFar - zNear ≠ 0) :
    ortho6 left right bottom top zNear zFar = some (ofList
      [2 * zNear / (right - left), 0, 0, 0,
       0, 2 * zNear / (top - bottom), 0, 0,
       (right + left) / (right - left), (top + bottom) / (top - bottom),
         -(zFar + zNear) / (zFar - zNear), -1,
       0, 0, -(2 * zFar * zNear) / (zFar - zNear), 1] rfl) := by
  simp only [ortho6, identity_four_rat, cdiv_rat _ h1, cdiv_rat _ h2, cdiv_rat _ h3,
    Option.bind_eq_bind, Option.some_bind]
  rfl

theorem perspective_eq (epsilon : ℚ) (tan : ℚ → ℚ) (fovy aspect zNear zFar : ℚ)
    (h0 : aspect ≠ epsilon) (h1 : aspect * tan (fovy / 2) ≠ 0) (h2 : tan (fovy / 2) ≠ 0)
    (h3 : zFar - zNear ≠ 0) :
    perspective epsilon tan fovy aspect zNear zFar = some (ofList
      [1 / (aspect * tan (fovy / 2)), 0, 0, 0,
       0, 1 / tan (fovy / 2), 0, 0,
       0, 0, -(zFar + zNear) / (zFar - zNear), -1,
       0, 0, -(2 * zNear * zFar) / (zFar - zNear), 0] rfl) := by
  have hpos : |aspect - epsilon| > 0 := abs_pos.mpr (sub_ne_zero.mpr h0)
  have h22 : (2 : ℚ) ≠ 0 := by norm_num
  simp only [perspective, if_pos hpos, cdiv_rat _ h22, cdiv_rat _ h1, cdiv_rat _ h2,
    cdiv_rat _ h3, Option.bind_eq_bind, Option.some_bind]
  rfl

/-! ## Transform builders -/

/-- C24: `ortho(0, 10, 0, 10)` is the matrix with the scale `1/5` at `(0,0)` and `(1,1)`
and the offsets `-1` at `(0,3)` and `(1,3)`, the last column.  With the row-vector
convention the row `(x, y, 0, 1)` times this matrix is `(0, 0, 0, 1)` for the point
`(0, 0)` and `(2, 2, 0, -19)` for `(10, 10)`, not `(-1, -1, ..)` and `(1, 1, ..)`; the
corners are reached only with the matrix times the column `(x, y, 0, 1)`. -/
theorem ortho_offsets_in_last_column :
    ortho 0 10 0 10
      = some (ofList [1 / 5, 0, 0, -1, 0, 1 / 5, 0, -1, 0, 0, -1, 0, 0, 0, 0, 1] rfl) ∧
    (ofList [0, 0, 0, 1] rfl : Matrix 1 4 ℚ).mul
      (ofList [1 / 5, 0, 0, -1, 0, 1 / 5, 0, -1, 0, 0, -1, 0, 0, 0, 0, 1] rfl : Matrix 4 4 ℚ)
      = some (ofList [0, 0, 0, 1] rfl) ∧
    (ofList [10, 10, 0, 1] rfl : Matrix 1 4 ℚ).mul
      (ofList [1 / 5, 0, 0, -1, 0, 1 / 5, 0, -1, 0, 0, -1, 0, 0, 0, 0, 1] rfl : Matrix 4 4 ℚ)
      = some (ofList [2, 2, 0, -19] rfl) ∧
    (ofList [1 / 5, 0, 0, -1, 0, 1 / 5, 0, -1, 0, 0, -1, 0, 0, 0, 0, 1] rfl : Matrix 4 4 ℚ).mul
      (ofList [0, 0, 0, 1] rfl : Matrix 4 1 ℚ) = some (ofList [-1, -1, 0, 1] rfl) ∧
    (ofList [1 / 5, 0, 0, -1, 0, 1 / 5, 0, -1, 0, 0, -1, 0, 0, 0, 0, 1] rfl : Matrix 4 4 ℚ).mul
      (ofList [10, 10, 0, 1] rfl : Matrix 4 1 ℚ) = some (ofList [1, 1, 0, 1] rfl) := by
  refine ⟨?_, ?_, ?_, ?_, ?_⟩
  · rw [ortho_eq 0 10 0 10 (by norm_num) (by norm_num)]
    simp only [ofList, Option.some.injEq, Matrix.mk.injEq]
    norm_num
  · simp [mul, forLoop, get2, set2, set, ofList, zero]
  · simp [mul, forLoop, get2, set2, set, ofList, zero]
    norm_num
  · simp [mul, forLoop, get2, set2, set, ofList, zero]
  · simp [mul, forLoop, get2, set2, set, ofList, zero]
    norm_num

/-- C25: the six-argument `ortho` returns, for `left != right`, `bottom != top` and
`zNear != zFar`, the matrix with `(0,0) = 2*zNear/(right-left)`,
`(1,1) = 2*zNear/(top-bottom)`, `(2,0) = (right+left)/(right-left)`,
`(2,1) = (top+bottom)/(top-bottom)`, `(2,2) = -(zFar+zNear)/(zFar-zNear)`, `(2,3) = -1`,
`(3,2) = -2*zFar*zNear/(zFar-zNear)` and `(3,3) = 1`: the entries of a perspective
frustum.  For `ortho(0, 10, 0, 10, 2, 4)` the scale `(0,0)` is `2/5` (not `2/10`), `(2,2)`
is `-3` (not `-2/2`) and the perspective-divide term `(2,3)` is `-1` (not `0`). -/
theorem ortho6_is_a_frustum :
    ortho6 0 10 0 10 2 4
      = some (ofList [2 / 5, 0, 0, 0, 0, 2 / 5, 0, 0, 1, 1, -3, -1, 0, 0, -8, 1] rfl) ∧
    (∀ left right bottom top zNear zFar : ℚ, left ≠ right → bottom ≠ top → zNear ≠ zFar →
      ortho6 left right bottom top zNear zFar = some (ofList
        [2 * zNear / (right - left), 0, 0, 0,
         0, 2 * zNear / (top - bottom), 0, 0,
         (right + left) / (right - left), (top + bottom) / (top - bottom),
           -(zFar + zNear) / (zFar - zNear), -1,
         0, 0, -(2 * zFar * zNear) / (zFar - zNear), 1] rfl)) := by
  refine ⟨?_, ?_⟩
  · rw [ortho6_eq 0 10 0 10 2 4 (by norm_num) (by norm_num) (by norm_num)]
    simp only [ofList, Option.some.injEq, Matrix.mk.injEq]
    norm_num
  · intro left right bottom top zNear zFar h1 h2 h3
    exact ortho6_eq _ _ _ _ _ _ (sub_ne_zero.mpr (Ne.symm h1)) (sub_ne_zero.mpr (Ne.symm h2))
      (sub_ne_zero.mpr (Ne.symm h3))

/-- C26 (as stated) fails: the claim holds for every `aspect`, but the function starts
with `assert(std::abs(aspect - epsilon) > 0)`, so for `aspect` equal to the epsilon of
the element type the call ends without a matrix; and for `aspect = 0` the quotient
`1 / (aspect * t)` is not defined in exact arithmetic. -/
theorem perspective_guards_aspect :
    perspective (1 / 8388608) (fun _ => 1) 90 (1 / 8388608) (1 / 10) 100 = none ∧
    perspective 0 (fun _ => 1) 90 0 (1 / 10) 100 = none ∧
    perspective (1 / 8388608) (fun _ => 1) 90 0 (1 / 10) 100 = none := by
  refine ⟨?_, ?_, ?_⟩
  · simp [perspective]
  · simp [perspective]
  · have hpos : |(0 : ℚ) - 1 / 8388608| > 0 := by norm_num
    have h22 : (2 : ℚ) ≠ 0 := by norm_num
    simp only [perspective, if_pos hpos, cdiv_rat _ h22, Option.bind_eq_bind, Option.some_bind]
    show (CppDiv.cdiv (1 : ℚ) (0 * 1)).bind _ = none
    have : CppDiv.cdiv (1 : ℚ) (0 * 1) = none := by
      show (if (0 : ℚ) * 1 = 0 then none else some ((1 : ℚ) / (0 * 1))) = none
      simp
    rw [this]
    rfl

/-- C26 (amended): in exact arithmetic, with `t = tan(fovy / 2)`, for `aspect` different
from the epsilon of the element type and from 0, `t != 0` and `zNear != zFar`,
`perspective` returns the matrix with `(0,0) = 1/(aspect*t)`, `(1,1) = 1/t`,
`(2,2) = -(zFar+zNear)/(zFar-zNear)`, `(2,3) = -1`, `(3,2) = -2*zNear*zFar/(zFar-zNear)`
and 0 everywhere else, `(3,3)` included. -/
theorem perspective_matrix (epsilon : ℚ) (tan : ℚ → ℚ) (fovy aspect zNear zFar : ℚ)
    (ha : aspect ≠ epsilon) (ha0 : aspect ≠ 0) (ht : tan (fovy / 2) ≠ 0) (hz : zNear ≠ zFar) :
    perspective epsilon tan fovy aspect zNear zFar = some (ofList
      [1 / (aspect * tan (fovy / 2)), 0, 0, 0,
       0, 1 / tan (fovy / 2), 0, 0,
       0, 0, -(zFar + zNear) / (zFar - zNear), -1,
       0, 0, -(2 * zNear * zFar) / (zFar - zNear), 0] rfl) :=
  perspective_eq epsilon tan fovy aspect zNear zFar ha (mul_ne_zero ha0 ht) ht
    (sub_ne_zero.mpr (Ne.symm hz))

/-- The amended C26 at `t = 1`, `aspect = 1`, `zNear = 0.1`, `zFar = 100`: the entries are
`1`, `1`, `-100.1/99.9`, `-1` and `-20/99.9`. -/
theorem perspective_matrix_witness :
    perspective (1 / 8388608) (fun _ => 1) 90 1 (1 / 10) 100 = some (ofList
      [1, 0, 0, 0,
       0, 1, 0, 0,
       0, 0, -(1001 / 10) / (999 / 10), -1,
       0, 0, -20 / (999 / 10), 0] rfl) := by
  rw [perspective_matrix (1 / 8388608) (fun _ => 1) 90 1 (1 / 10) 100 (by norm_num)
    (by norm_num) (by norm_num) (by norm_num)]
  simp only [ofList, Option.some.injEq, Matrix.mk.injEq]
  norm_num

/-! ## Matrices of 32-bit `int`: the determinant and the product modulo `2^32` -/

theorem CInt.wrap_val (x : CInt) : CInt.wrap x.val = x :=
  CInt.ext_val (wrap32_of_fits x.lo x.hi)

/-- The canonical map of the integers to the ring of the wrap-around `int`. -/
theorem CInt.castHom_apply (z : Int) :
    @Int.castRingHom CInt CInt.commRing.toNonAssocRing z = CInt.wrap z := rfl

theorem toMath_eq_mapMatrix (a : Matrix M N CInt) :
    a.toMath = a.intValues.map (@Int.castRingHom CInt CInt.commRing.toNonAssocRing) := by
  funext r c
  show a.entry r c = CInt.wrap (a.entry r c).val
  rw [CInt.wrap_val]

/-- The determinant in the ring of the wrap-around `int` is the determinant of the
integer values, wrapped. -/
theorem mathDet_cint {n : Nat} (a : Matrix n n CInt) :
    @mathDet _ CInt CInt.commRing a.toMath = CInt.wrap (mathDet a.intValues) := by
  have h := @RingHom.map_det (Fin n) _ _ Int _ CInt CInt.commRing
    (@Int.castRingHom CInt CInt.commRing.toNonAssocRing) a.intValues
  rw [toMath_eq_mapMatrix]
  exact h.symm

/-- A sum of products in the ring of the wrap-around `int` is the sum of the products of
the integer values, wrapped. -/
theorem sum_mul_cint {ι : Type} (s : Finset ι) (f g : ι → CInt) :
    @Finset.sum _ _ (@NonUnitalNonAssocSemiring.toAddCommMonoid CInt
        (@NonUnitalNonAssocCommSemiring.toNonUnitalNonAssocSemiring CInt
        (@NonUnitalNonAssocCommRing.toNonUnitalNonAssocCommSemiring CInt
        (@NonUnitalCommRing.toNonUnitalNonAssocCommRing CInt
        (@CommRing.toNonUnitalCommRing CInt CInt.commRing))))) s (fun k => f k * g k)
      = CInt.wrap (∑ k in s, (f k).val * (g k).val) := by
  letI := CInt.commRing
  have h := map_sum (@Int.castRingHom CInt CInt.commRing.toNonAssocRing)
    (fun k => (f k).val * (g k).val) s
  rw [← CInt.castHom_apply]
  refine Eq.trans ?_ h.symm
  apply Finset.sum_congr rfl
  intro k _
  show f k * g k = CInt.wrap ((f k).val * (g k).val)
  apply CInt.ext_val
  rfl

/-- C1 (as stated) fails for matrices of the 32-bit `int`: `det()` of the 2x2 matrix
`(65536, 0, 0, 65536)` is 0, because the product `65536 * 65536` is computed in `int`
and wraps around, while the mathematical determinant of the matrix is `2^32`. -/
theorem det_int_wraps :
    det 2 (ofList [65536, 0, 0, 65536] rfl : Matrix 2 2 CInt) = some 0 ∧
    mathDet (ofList [65536, 0, 0, 65536] rfl : Matrix 2 2 CInt).intValues = 4294967296 := by
  refine ⟨by decide, ?_⟩
  simp only [mathDet, Matrix.det_fin_two, intValues]
  decide

/-- C1 (amended): for a square matrix `a` of size 1, 2, 3 or 4 (indeed of every size
`n + 1`) with elements of the 32-bit `int` whose mathematical determinant is
representable as an `int`, `det()` returns the mathematical determinant of `a`; for
every such matrix `det()` returns the mathematical determinant reduced modulo `2^32`
to the range of `int`, and over the unbounded integers `det()` returns the mathematical
determinant.  For size 4 the value is the expansion along row 0, the sum over the
columns `i` of `(-1)^i * a(0,i) * det(cutRow(0).cutCol(i))`, and for size 3 it is the
six-term closed form, both reduced modulo `2^32` in the same way. -/
theorem det_int_is_determinant (n : Nat) (a : Matrix (n + 1) (n + 1) CInt)
    (hfit : -2147483648 ≤ mathDet a.intValues ∧ mathDet a.intValues ≤ 2147483647) :
    (∃ d : CInt, det (n + 1) a = some d ∧ d.val = mathDet a.intValues) ∧
    (∀ b : Matrix (n + 1) (n + 1) CInt,
      ∃ d : CInt, det (n + 1) b = some d ∧ d.val = wrap32 (mathDet b.intValues)) ∧
    (∀ b : Matrix (n + 1) (n + 1) Int, det (n + 1) b = some (mathDet b.toMath)) ∧
    (∀ b : Matrix 4 4 CInt,
      ∃ (cut : Matrix 3 4 CInt) (c : Fin 4 → Matrix 3 3 CInt) (d : Fin 4 → CInt) (r : CInt),
        b.cutRow 0 = some cut ∧
        (∀ i : Fin 4, cut.cutCol i = some (c i) ∧ det 3 (c i) = some (d i)) ∧
        det 4 b = some r ∧
        r.val = wrap32 (∑ i : Fin 4, (-1) ^ (i : Nat) * (b.entry 0 i).val * (d i).val)) ∧
    (∀ b : Matrix 3 3 CInt, ∃ r : CInt, det 3 b = some r ∧ r.val = wrap32
      ((b.entry 0 0).val * (b.entry 1 1).val * (b.entry 2 2).val
        + (b.entry 0 1).val * (b.entry 1 2).val * (b.entry 2 0).val
        + (b.entry 0 2).val * (b.entry 1 0).val * (b.entry 2 1).val
        - ((b.entry 0 2).val * (b.entry 1 1).val * (b.entry 2 0).val
          + (b.entry 0 1).val * (b.entry 1 0).val * (b.entry 2 2).val
          + (b.entry 0 0).val * (b.entry 1 2).val * (b.entry 2 1).val))) := by
  have hmod : ∀ (k : Nat) (b : Matrix (k + 1) (k + 1) CInt),
      det (k + 1) b = some (CInt.wrap (mathDet b.intValues)) := by
    intro k b
    have h : det (k + 1) b = some (@mathDet _ CInt CInt.commRing b.toMath) :=
      @det_eq_mathDet CInt CInt.commRing k b
    rw [h, mathDet_cint]
  refine ⟨⟨_, hmod n a, wrap32_of_fits hfit.1 hfit.2⟩, fun b => ⟨_, hmod n b, rfl⟩,
    fun b => det_eq_mathDet n b, ?_, ?_⟩
  · intro b
    obtain ⟨cut, c, d, hcut, hc, hdet⟩ := (@det_commRing CInt CInt.commRing).2.1 b
    refine ⟨cut, c, d, _, hcut, hc, hdet, ?_⟩
    letI := CInt.commRing
    have hsum : (∑ i : Fin 4, (-1) ^ (i : Nat) * b.entry 0 i * d i)
        = CInt.wrap (∑ i : Fin 4, (-1) ^ (i : Nat) * (b.entry 0 i).val * (d i).val) := by
      have h := map_sum (@Int.castRingHom CInt CInt.commRing.toNonAssocRing)
        (fun i : Fin 4 => (-1) ^ (i : Nat) * (b.entry 0 i).val * (d i).val) Finset.univ
      rw [← CInt.castHom_apply]
      refine Eq.trans ?_ h.symm
      apply Finset.sum_congr rfl
      intro i _
      rw [map_mul, map_mul, map_pow, map_neg, map_one, CInt.castHom_apply, CInt.castHom_apply,
        CInt.wrap_val, CInt.wrap_val]
    rw [hsum]
    rfl
  · intro b
    have h := (@det_commRing CInt CInt.commRing).2.2 b
    refine ⟨_, h, ?_⟩
    have key : ∀ (x : CInt) (z : Int), x = CInt.wrap z → x.val = wrap32 z :=
      fun x z hx => by rw [hx]; rfl
    apply key
    letI := CInt.commRing
    rw [← CInt.castHom_apply]
    simp only [map_sub, map_add, map_mul, CInt.castHom_apply, CInt.wrap_val]

/-- The amended C1 at the 2x2 `int` matrix `(1, 2, 3, 4)`: the determinant `-2` is
representable and `det()` returns it. -/
theorem det_int_is_determinant_witness :
    ∃ d : CInt, det 2 (ofList [1, 2, 3, 4] rfl : Matrix 2 2 CInt) = some d ∧
      d.val = mathDet (ofList [1, 2, 3, 4] rfl : Matrix 2 2 CInt).intValues :=
  (det_int_is_determinant 1 (ofList [1, 2, 3, 4] rfl : Matrix 2 2 CInt) (by
    simp only [mathDet, Matrix.det_fin_two, intValues]
    decide)).1

/-- C3 (as stated) fails for matrices of the 32-bit `int`: the product of the row
`(65536, 65536)` and the column `(65536, 65536)` is `(0)`, because the products and the
sum are computed in `int` and wrap around, while the sum of the products is `2^33`. -/
theorem mul_int_wraps :
    (ofList [65536, 65536] rfl : Matrix 1 2 CInt).mul
        (ofList [65536, 65536] rfl : Matrix 2 1 CInt) = some (ofList [0] rfl) ∧
    ∑ k : Fin 2, ((ofList [65536, 65536] rfl : Matrix 1 2 CInt).entry 0 k).val
        * ((ofList [65536, 65536] rfl : Matrix 2 1 CInt).entry k 0).val = 8589934592 := by
  refine ⟨by decide, ?_⟩
  rw [Fin.sum_univ_two]
  decide

/-- C3 (amended): for an `M x N` matrix `a` and an `N x L` matrix `b` with elements of
the 32-bit `int` such that every sum over `k < N` of `a(i,k) * b(k,j)` is representable
as an `int`, the product is returned, it is an `M x L` matrix, and its element `(i, j)`
is that sum; for all `int` matrices the element `(i, j)` of the product is that sum
reduced modulo `2^32` to the range of `int`, and over the unbounded integers it is
that sum. -/
theorem mul_int_is_dot_products (a : Matrix M N CInt) (b : Matrix N L CInt)
    (hfit : ∀ (i : Fin M) (j : Fin L),
      -2147483648 ≤ ∑ k : Fin N, (a.entry i k).val * (b.entry k j).val ∧
      ∑ k : Fin N, (a.entry i k).val * (b.entry k j).val ≤ 2147483647) :
    (∃ r : Matrix M L CInt, a.mul b = some r ∧ ∀ (i : Fin M) (j : Fin L),
      ∃ x : CInt, r.get2 i j = some x ∧
        x.val = ∑ k : Fin N, (a.entry i k).val * (b.entry k j).val) ∧
    (∀ (a1 : Matrix M N CInt) (b1 : Matrix N L CInt),
      ∃ r : Matrix M L CInt, a1.mul b1 = some r ∧ ∀ (i : Fin M) (j : Fin L),
        ∃ x : CInt, r.get2 i j = some x ∧
          x.val = wrap32 (∑ k : Fin N, (a1.entry i k).val * (b1.entry k j).val)) ∧
    (∀ (a2 : Matrix M N Int) (b2 : Matrix N L Int),
      ∃ r : Matrix M L Int, a2.mul b2 = some r ∧ ∀ (i : Fin M) (j : Fin L),
        r.get2 i j = some (∑ k : Fin N, a2.entry i k * b2.entry k j)) := by
  have hmod : ∀ (a1 : Matrix M N CInt) (b1 : Matrix N L CInt),
      ∃ r : Matrix M L CInt, a1.mul b1 = some r ∧ ∀ (i : Fin M) (j : Fin L),
        r.get2 i j = some (CInt.wrap (∑ k : Fin N, (a1.entry i k).val * (b1.entry k j).val)) := by
    intro a1 b1
    obtain ⟨r, hr, hget⟩ := @mul_spec M N L CInt CInt.commRing a1 b1
    refine ⟨r, hr, fun i j => ?_⟩
    have h := hget i j i.isLt j.isLt
    rw [sum_mul_cint] at h
    rw [h, Finset.sum_range]
    simp only [entry_eq_nth]
  refine ⟨?_, fun a1 b1 => ?_, fun a2 b2 => mul_commRing a2 b2⟩
  · obtain ⟨r, hr, hget⟩ := hmod a b
    exact ⟨r, hr, fun i j => ⟨_, hget i j, wrap32_of_fits (hfit i j).1 (hfit i j).2⟩⟩
  · obtain ⟨r, hr, hget⟩ := hmod a1 b1
    exact ⟨r, hr, fun i j => ⟨_, hget i j, rfl⟩⟩

/-- The amended C3 at the `int` row `(1, 2)` and the column `(3, 4)`: the sum of the
products, 11, is representable, and the product is `(11)`. -/
theorem mul_int_is_dot_products_witness :
    ∃ r : Matrix 1 1 CInt, (ofList [1, 2] rfl : Matrix 1 2 CInt).mul
        (ofList [3, 4] rfl : Matrix 2 1 CInt) = some r ∧ ∀ (i : Fin 1) (j : Fin 1),
      ∃ x : CInt, r.get2 i j = some x ∧
        x.val = ∑ k : Fin 2, ((ofList [1, 2] rfl : Matrix 1 2 CInt).entry i k).val
          * ((ofList [3, 4] rfl : Matrix 2 1 CInt).entry k j).val :=
  (mul_int_is_dot_products (ofList [1, 2] rfl : Matrix 1 2 CInt)
    (ofList [3, 4] rfl : Matrix 2 1 CInt) (by
      intro i j
      rw [Fin.sum_univ_two]
      fin_cases i
      fin_cases j
      decide)).1

end Matrix

/-! ## Strings: padding and searching -/

theorem find_zero (s pat : Str) : find s pat 0 = findFrom pat s 0 := by
  simp [find]

theorem find_append (pre t pat : Str) :
    find (pre ++ t) pat pre.length = findFrom pat t pre.length := by
  simp [find]

theorem findFrom_some {pat : Str} : ∀ {t : Str} {i r : Nat}, findFrom pat t i = some r →
    ∃ a b : Str, t = a ++ pat ++ b ∧ r = i + a.length ∧
      ∀ a1 b1 : Str, t = a1 ++ pat ++ b1 → a.length ≤ a1.length := by
  intro t
  induction t with
  | nil =>
    intro i r h
    by_cases hp : pat = []
    · subst hp
      simp only [findFrom, if_true, Option.some.injEq] at h
      exact ⟨[], [], by simp, by simp [h], by simp⟩
    · simp [findFrom, hp] at h
  | cons c cs ih =>
    intro i r h
    by_cases hpre : pat.isPrefixOf (c :: cs) = true
    · simp only [findFrom, hpre, if_true, Option.some.injEq] at h
      obtain ⟨b, hb⟩ := List.isPrefixOf_iff_prefix.mp hpre
      exact ⟨[], b, by simp [hb], by simp [h], by simp⟩
    · simp only [findFrom, hpre] at h
      obtain ⟨a, b, hab, hr, hmin⟩ := ih h
      refine ⟨c :: a, b, by simp [hab], by simp [hr]; omega, ?_⟩
      intro a1 b1 h1
      cases a1 with
      | nil =>
        exfalso
        apply hpre
        apply List.isPrefixOf_iff_prefix.mpr
        exact ⟨b1, by simpa using h1.symm⟩
      | cons x a2 =>
        simp only [List.cons_append, List.cons.injEq] at h1
        have := hmin a2 b1 h1.2
        simp
        omega

theorem findFrom_none {pat : Str} : ∀ {t : Str} {i : Nat}, findFrom pat t i = none →
    ∀ a b : Str, t ≠ a ++ pat ++ b := by
  intro t
  induction t with
  | nil =>
    intro i h a b hab
    by_cases hp : pat = []
    · simp [findFrom, hp] at h
    · apply hp
      have := congrArg List.length hab
      simp at this
      exact List.length_eq_zero.mp (by omega)
  | cons c cs ih =>
    intro i h a b hab
    by_cases hpre : pat.isPrefixOf (c :: cs) = true
    · simp [findFrom, hpre] at h
    · simp only [findFrom, hpre] at h
      cases a with
      | nil =>
        apply hpre
        apply List.isPrefixOf_iff_prefix.mpr
        exact ⟨b, by simpa using hab.symm⟩
      | cons x a2 =>
        simp only [List.cons_append, List.cons.injEq] at hab
        exact ih h a2 b hab.2

/-- C28: when `delim` occurs in `s`, `split_once(s, delim)` returns a pair `(a, b)` with
`a + delim + b == s`, and no occurrence of `delim` in `s` starts before position
`a.size()`; when `delim` does not occur in `s`, the call returns no pair.  For example
`split_once("a=b=c", "=")` is `("a", "b=c")`. -/
theorem split_once_first_occurrence (s delim : Str) :
    ((∃ k, OccursAt delim s k) → ∃ a b : Str, split_once s delim = some (a, b) ∧
      a ++ delim ++ b = s ∧ ∀ j, OccursAt delim s j → a.length ≤ j) ∧
    ((¬ ∃ k, OccursAt delim s k) → split_once s delim = none) ∧
    split_once "a=b=c".toList "=".toList = some ("a".toList, "b=c".toList) := by
  refine ⟨?_, ?_, by decide⟩
  · rintro ⟨k, a0, b0, h0, -⟩
    cases hf : findFrom delim s 0 with
    | none => exact absurd h0 (findFrom_none hf a0 b0)
    | some idx =>
      obtain ⟨a, b, hab, hr, hmin⟩ := findFrom_some hf
      refine ⟨a, b, ?_, hab.symm, ?_⟩
      · have hidx : idx = a.length := by omega
        simp only [split_once, find_zero, hf]
        subst hidx
        subst hab
        simp [substr, substrFrom]
      · rintro j ⟨a1, b1, h1, rfl⟩
        exact hmin a1 b1 h1
  · intro hno
    cases hf : findFrom delim s 0 with
    | none => simp [split_once, find_zero, hf]
    | some idx =>
      obtain ⟨a, b, hab, -, -⟩ := findFrom_some hf
      exact absurd ⟨a.length, a, b, hab, rfl⟩ hno

/-- C29: `pad_left("abc", 2, ' ')` does not return the string unchanged: the count
`len - s.length()` is computed in the unsigned 64-bit type, `std::max(.., 0ull)` leaves
it as it is, and `std::string(2^64 - 1, filler)` throws.  The same holds for every
`len >= 0` smaller than the length of `s`; for `len` at least the length of `s` the call
returns `s` preceded by `len - length(s)` fillers. -/
theorem pad_left_shorter_target_fails :
    pad_left "abc".toList 2 ' ' = none ∧
    (∀ (s : Str) (len : Int) (c : Char), s.length ≤ stringMaxSize → 0 ≤ len →
      len < s.length → pad_left s len c = none) ∧
    (∀ (s : Str) (len : Int) (c : Char), (s.length : Int) ≤ len → len ≤ 2147483647 →
      pad_left s len c = some (List.replicate (len.toNat - s.length) c ++ s)) := by
  have key : ∀ (s : Str) (len : Int) (c : Char), s.length ≤ stringMaxSize →
      0 ≤ len → len < s.length → pad_left s len c = none := by
    intro s len c hs hlo hlt
    have hd : ¬ ((len % 18446744073709551616 - (s.length : Int) % 18446744073709551616)
        % 18446744073709551616).toNat ≤ stringMaxSize := by
      have hx : (9223372036854775808 : Int) ≤ (len % 18446744073709551616
          - (s.length : Int) % 18446744073709551616) % 18446744073709551616 := by
        simp only [stringMaxSize] at hs
        omega
      simp only [stringMaxSize]
      intro hle
      have := Int.toNat_le.mp hle
      omega
    simp [pad_left, stringFill, hd]
  refine ⟨key _ _ _ (by decide) (by decide) (by decide), key, ?_⟩
  intro s len c hle hhi
  have hd : ((len % 18446744073709551616 - (s.length : Int) % 18446744073709551616)
      % 18446744073709551616).toNat = len.toNat - s.length := by
    have hx : (len % 18446744073709551616 - (s.length : Int) % 18446744073709551616)
        % 18446744073709551616 = len - s.length := by omega
    rw [hx]
    omega
  have h1 : len.toNat - s.length ≤ stringMaxSize := by
    simp only [stringMaxSize]
    omega
  have h2 : len.toNat - s.length + s.length ≤ stringMaxSize := by
    simp only [stringMaxSize]
    omega
  simp [pad_left, stringFill, stringAppend, hd, h1, h2]

/-- C30: `find_nth("XaXbX", "X", 1)` is 4, not 2: the first search is
`str.find(pattern, n)`, which starts at position `n` instead of 0, so the occurrences
are counted from position `n`.  In the same way `find_nth("XaXbX", "X", 2)` and
`find_nth("XXXXXX", "X", 3)` are `npos` although the strings have 3 and 6 occurrences. -/
theorem find_nth_starts_at_n :
    find_nth "XaXbX".toList "X".toList 1 = some (some 4) ∧
    find_nth "XaXbX".toList "X".toList 2 = some none ∧
    find_nth "XXXXXX".toList "X".toList 3 = some none ∧
    find_nth "XaXbX".toList "X".toList 0 = some (some 0) := by
  decide

/-! ## Strings: splitting -/

theorem findFrom_single_none (d : Char) : ∀ (q : Str) (i : Nat), d ∉ q →
    findFrom [d] q i = none := by
  intro q
  induction q with
  | nil => intro i _; simp [findFrom]
  | cons c cs ih =>
    intro i h
    have hc : d ≠ c := fun e => h (by simp [e])
    have hcs : d ∉ cs := fun e => h (by simp [e])
    simp [findFrom, List.isPrefixOf, hc, ih _ hcs]

theorem findFrom_single (d : Char) (rest : Str) : ∀ (q : Str) (i : Nat), d ∉ q →
    findFrom [d] (q ++ d :: rest) i = some (i + q.length) := by
  intro q
  induction q with
  | nil => intro i _; simp [findFrom, List.isPrefixOf]
  | cons c cs ih =>
    intro i h
    have hc : d ≠ c := fun e => h (by simp [e])
    have hcs : d ∉ cs := fun e => h (by simp [e])
    simp [findFrom, List.isPrefixOf, hc, ih _ hcs]
    omega

theorem trim_of_trimmed {p : Str} (h : Trimmed p) : trim p = p := by
  have h1 : p.dropWhile isspace = p := by
    cases p with
    | nil => rfl
    | cons c cs =>
      have := h.1 c rfl
      simp [List.dropWhile, this]
  have h2 : List.rdropWhile isspace p = p := by
    rw [List.rdropWhile_eq_self_iff]
    intro hl
    have := h.2 _ (List.getLast?_eq_getLast p hl)
    simp [this]
  show ((p.dropWhile isspace).reverse.dropWhile isspace).reverse = p
  rw [h1]
  exact h2

theorem trim_of_blank {s : Str} (h : Blank s) : trim s = [] := by
  have h1 : s.dropWhile isspace = [] := List.dropWhile_eq_nil_iff.mpr h
  show ((s.dropWhile isspace).reverse.dropWhile isspace).reverse = []
  rw [h1]
  rfl

theorem trim_ne_nil {s : Str} (h : ¬ Blank s) : trim s ≠ [] := by
  intro ht
  apply h
  have h1 : ((s.dropWhile isspace).reverse.dropWhile isspace).reverse = [] := ht
  have h2 : (s.dropWhile isspace).reverse.dropWhile isspace = [] := by
    simpa using h1
  have h3 : ∀ x ∈ s.dropWhile isspace, isspace x = true := by
    intro x hx
    exact List.dropWhile_eq_nil_iff.mp h2 x (List.mem_reverse.mpr hx)
  have h4 : s.dropWhile isspace = [] := by
    by_contra hne
    have hn := List.head_dropWhile_not isspace s hne
    have hy := h3 _ (List.head_mem hne)
    rw [hn] at hy
    exact Bool.noConfusion hy
  exact List.dropWhile_eq_nil_iff.mp h4

theorem intercalate_cons_cons (d : Char) (p q : Str) (rest : List Str) :
    List.intercalate [d] (p :: q :: rest) = p ++ d :: List.intercalate [d] (q :: rest) := by
  simp [List.intercalate, List.intersperse]

theorem intercalate_singleton (d : Char) (p : Str) : List.intercalate [d] [p] = p := by
  simp [List.intercalate, List.intersperse]

/-- The loop of `split` and the code after it, on the rest `q, rest..` of the joined
parts that starts at position `pre.size()`. -/
theorem splitLoop_join (d : Char) : ∀ (rest : List Str) (q pre : Str) (acc : List Str)
    (fuel : Nat), (∀ p ∈ q :: rest, Trimmed p ∧ d ∉ p) → rest.length ≤ fuel →
    (splitLoop (pre ++ List.intercalate [d] (q :: rest)) [d] fuel pre.length
        (find (pre ++ List.intercalate [d] (q :: rest)) [d] pre.length) acc).bind
      (fun r => (substrFrom (pre ++ List.intercalate [d] (q :: rest)) r.1).bind
        (fun lastPart => some (r.2 ++ [trim lastPart])))
      = some (acc ++ q :: rest) := by
  intro rest
  induction rest with
  | nil =>
    intro q pre acc fuel hp _
    have hq := hp q (by simp)
    rw [intercalate_singleton, find_append, findFrom_single_none d q _ hq.2]
    cases fuel <;>
      simp [splitLoop, substrFrom, trim_of_trimmed hq.1]
  | cons q1 rest ih =>
    intro q pre acc fuel hp hfuel
    have hq := hp q (by simp)
    obtain ⟨fuel, rfl⟩ : ∃ f, fuel = f + 1 := ⟨fuel - 1, by simp at hfuel; omega⟩
    have hs : pre ++ List.intercalate [d] (q :: q1 :: rest)
        = (pre ++ q ++ [d]) ++ List.intercalate [d] (q1 :: rest) := by
      rw [intercalate_cons_cons]
      simp
    have hfind : find (pre ++ List.intercalate [d] (q :: q1 :: rest)) [d] pre.length
        = some (pre.length + q.length) := by
      rw [intercalate_cons_cons, find_append, findFrom_single d _ q _ hq.2]
    have hsub : substr (pre ++ List.intercalate [d] (q :: q1 :: rest)) pre.length
        (pre.length + q.length - pre.length) = some q := by
      rw [intercalate_cons_cons]
      simp [substr]
    have hlen : pre.length + q.length + [d].length = (pre ++ q ++ [d]).length := by
      simp only [List.length_append, List.length_cons, List.length_nil]
    rw [hfind]
    simp only [splitLoop, hsub, Option.bind_eq_bind, Option.some_bind, trim_of_trimmed hq.1]
    rw [hlen, hs]
    have := ih q1 (pre ++ q ++ [d]) (acc ++ [q]) fuel
      (fun p hp1 => hp p (List.mem_cons_of_mem _ hp1)) (by simp at hfuel; omega)
    rw [this]
    simp

theorem intercalate_length_ge (d : Char) : ∀ (rest : List Str) (q : Str),
    rest.length ≤ (List.intercalate [d] (q :: rest)).length := by
  intro rest
  induction rest with
  | nil => intro q; simp
  | cons q1 rest ih =>
    intro q
    rw [intercalate_cons_cons]
    have := ih q1
    simp only [List.length_append, List.length_cons]
    omega

/-- C27: for a character `d` and a non-empty list `parts` of strings without leading or
trailing whitespace that do not contain `d`, whose join with `d` is not whitespace-only,
`split(join(parts, d), d)` returns exactly `parts`; and for an input that is empty or
whitespace-only `split` returns the empty list (with any non-empty delimiter). -/
theorem split_join (d : Char) (parts : List Str) (hne : parts ≠ [])
    (hp : ∀ p ∈ parts, Trimmed p ∧ d ∉ p) (hw : ¬ Blank (List.intercalate [d] parts)) :
    split (List.intercalate [d] parts) [d] = some parts ∧
    ∀ s delim : Str, delim ≠ [] → Blank s → split s delim = some [] := by
  refine ⟨?_, ?_⟩
  · obtain ⟨q, rest, rfl⟩ : ∃ q rest, parts = q :: rest := by
      cases parts with
      | nil => exact absurd rfl hne
      | cons q rest => exact ⟨q, rest, rfl⟩
    have hmain := splitLoop_join d rest q [] [] ((List.intercalate [d] (q :: rest)).length + 1)
      hp (Nat.le_succ_of_le (intercalate_length_ge d rest q))
    simp only [List.nil_append, List.length_nil] at hmain
    have ht := trim_ne_nil hw
    simp only [split, if_neg ht, List.cons_ne_nil, if_false]
    exact hmain
  · intro s delim hd hs
    simp [split, hd, trim_of_blank hs]

/-- C27 at `d = ','` and the parts `"a"`, `""`, `"b c"`: `split("a,,b c", ",")` returns
the three parts. -/
theorem split_join_witness :
    split "a,,b c".toList [','] = some ["a".toList, [], "b c".toList] :=
  (split_join ',' ["a".toList, [], "b c".toList] (by simp)
    (by simp [Trimmed, isspace]) (by simp [Blank, isspace, List.intercalate])).1

/-! ## Centred padding, differences and the mathematical remainder -/

theorem pad_left_none (s : Str) (len : Int) (c : Char) (hs : s.length ≤ stringMaxSize)
    (hlo : -2147483648 ≤ len) (hlt : len < s.length) : pad_left s len c = none := by
  have hx : (len % 18446744073709551616 - (s.length : Int) % 18446744073709551616)
      % 18446744073709551616 = len - s.length + 18446744073709551616 := by
    simp only [stringMaxSize] at hs
    omega
  have hd : ((len % 18446744073709551616 - (s.length : Int) % 18446744073709551616)
      % 18446744073709551616).toNat + s.length > stringMaxSize := by
    rw [hx]
    simp only [stringMaxSize] at hs ⊢
    omega
  simp only [pad_left, stringFill, Nat.max_eq_left (Nat.zero_le _)]
  split
  · simp only [Option.bind_eq_bind, Option.some_bind, stringAppend, List.length_replicate]
    rw [if_neg (by omega)]
  · rfl

/-- C31: `pad_center("ab", 6, '*')` returns no string: `pad_center` calls
`pad_left(s, s.length() / 2, filler)`, whose target length is smaller than the length of
a non-empty `s`, so the unsigned count wraps around and the string constructor throws.
This holds for every non-empty `s` and every `len`.  For the empty string the result has
all `len` fillers on the right: `pad_center("", 4, '*')` is `"****"`. -/
theorem pad_center_nonempty_fails :
    pad_center "ab".toList 6 '*' = none ∧
    (∀ (s : Str) (len : Int) (c : Char), s ≠ [] → s.length ≤ stringMaxSize →
      pad_center s len c = none) ∧
    pad_center [] 4 '*' = some "****".toList := by
  have key : ∀ (s : Str) (len : Int) (c : Char), s ≠ [] → s.length ≤ stringMaxSize →
      pad_center s len c = none := by
    intro s len c hne hs
    have hpos : 0 < s.length := List.length_pos.mpr hne
    have h := pad_left_none s (wrap32 ((s.length / 2 : Nat) : Int)) c hs
      (by simp only [wrap32]; omega) (by simp only [wrap32]; omega)
    simp only [pad_center, h, Option.bind_eq_bind, Option.none_bind]
  refine ⟨key _ _ _ (by simp) (by decide), key, by decide⟩

/-- C33: `diffs` of the empty vector reads outside the vector: the bound
`vec.size() - 1` is `2^64 - 1` in the unsigned type, so the loop body runs with `i = 0`
and reads `vec[1]` and `vec[0]`.  For a non-empty vector (of at most `2^31` elements)
`diffs` reads inside the vector only and returns `length(v) - 1` elements with
`result[i] = v[i+1] - v[i]`. -/
theorem diffs_empty_reads_out_of_range :
    diffs [] = none ∧
    (([] : List CInt)[0 + 1]? = none ∧
      (((([] : List CInt).length : Int) - 1) % 18446744073709551616).toNat
        = 18446744073709551615) ∧
    (∀ v : List CInt, v ≠ [] → v.length ≤ 2147483648 →
      ∃ r, diffs v = some r ∧ r.length = v.length - 1 ∧
        ∀ i a b, v[i]? = some b → v[i + 1]? = some a → r[i]? = some (a - b)) := by
  refine ⟨?_, ⟨rfl, by decide⟩, ?_⟩
  · have hc : (((([] : List CInt).length : Int) - 1) % 18446744073709551616).toNat
        = 18446744073709551614 + 1 := by decide
    unfold diffs
    rw [hc]
    rfl
  · intro v hne hlen
    have hpos : 0 < v.length := List.length_pos.mpr hne
    have hc : (((v.length : Int) - 1) % 18446744073709551616).toNat = v.length - 1 := by
      omega
    obtain ⟨r, hr, hlenr, hval⟩ := Matrix.forLoop_inv (fun i res => do
        let a ← v[i + 1]?
        let b ← v[i]?
        let res := res ++ [a - b]
        if i + 1 ≤ 2147483647 then some res else none)
      (fun i res => res.length = i ∧
        ∀ k a b, k < i → v[k]? = some b → v[k + 1]? = some a → res[k]? = some (a - b))
      (v.length - 1) 0 [] ⟨rfl, fun k a b hk => absurd hk (Nat.not_lt_zero k)⟩
      (fun i res _ hi hP => by
        have h1 : i + 1 < v.length := by omega
        have h0 : i < v.length := by omega
        have hi31 : i + 1 ≤ 2147483647 := by omega
        refine ⟨res ++ [v[i + 1] - v[i]], ?_, ?_, ?_⟩
        · simp [List.getElem?_eq_getElem h1, List.getElem?_eq_getElem h0, hi31]
        · simp [hP.1]
        · intro k a b hk hb ha
          by_cases hki : k < i
          · rw [List.getElem?_append_left (by omega)]
            exact hP.2 k a b hki hb ha
          · have hk' : k = i := by omega
            subst hk'
            rw [List.getElem?_eq_getElem h1] at ha
            rw [List.getElem?_eq_getElem h0] at hb
            simp only [Option.some.injEq] at ha hb
            rw [List.getElem?_append_right (by omega)]
            simp [hP.1, ha, hb])
    refine ⟨r, ?_, ?_, ?_⟩
    · unfold diffs
      rw [hc]
      exact hr
    · omega
    · intro i a b hb ha
      have h1 : i + 1 < v.length := by
        by_contra hcon
        rw [List.getElem?_eq_none (by omega)] at ha
        exact Option.noConfusion ha
      exact hval i a b (by omega) hb ha

theorem tmod_gt_neg (a : Int) {b : Int} (hb : 0 < b) : -b < Int.tmod a b := by
  by_cases ha : 0 ≤ a
  · have := Int.tmod_nonneg b ha
    omega
  · have h1 : Int.tmod (-a) b < b := Int.tmod_lt_of_pos _ hb
    have h2 : Int.tmod (-a) b = -Int.tmod a b := by
      rw [Int.tmod_def, Int.tmod_def, Int.neg_tdiv]
      ring
    omega

/-- C35: for integers `a` and `b` with `b > 0`, `mod_math(a, b)` returns a value `r`
with `0 <= r < b` that is congruent to `a` modulo `b` (`b` divides `r - a`); it is the
remainder of the Euclidean division of `a` by `b`. -/
theorem mod_math_range (a b : Int) (hb : 0 < b) :
    ∃ r, mod_math a b = some r ∧ 0 ≤ r ∧ r < b ∧ b ∣ r - a ∧ r = a % b := by
  have hb0 : b ≠ 0 := by omega
  have h1 : -b < Int.tmod a b := tmod_gt_neg a hb
  have h2 : Int.tmod (Int.tmod a b + b) b = (Int.tmod a b + b) % b :=
    Int.tmod_eq_emod (by omega) (by omega)
  have h3 : (Int.tmod a b + b) % b = a % b := by
    rw [Int.add_emod_self, Int.tmod_def]
    have : a - b * a.tdiv b = a + b * (-(a.tdiv b)) := by ring
    rw [this, Int.add_mul_emod_self_left]
  refine ⟨a % b, ?_, Int.emod_nonneg a hb0, Int.emod_lt_of_pos a hb, ?_, rfl⟩
  · simp [mod_math, cppMod, hb0, h2, h3]
  · rw [Int.emod_def]
    exact ⟨-(a / b), by ring⟩

/-- C35 at `a = -7`, `b = 3`: `mod_math(-7, 3)` is 2. -/
theorem mod_math_range_witness :
    ∃ r, mod_math (-7) 3 = some r ∧ 0 ≤ r ∧ r < 3 ∧ (3 : Int) ∣ r - -7 ∧ r = -7 % 3 :=
  mod_math_range (-7) 3 (by decide)

/-! ## Line-ending normalisation -/

theorem occurs_cons (pat : Str) (c : Char) (s : Str) :
    (∃ k, OccursAt pat (c :: s) k) ↔ (∃ b, c :: s = pat ++ b) ∨ ∃ k, OccursAt pat s k := by
  constructor
  · rintro ⟨k, a, b, h, -⟩
    cases a with
    | nil => exact Or.inl ⟨b, by simpa using h⟩
    | cons x a1 =>
      simp only [List.cons_append, List.cons.injEq] at h
      exact Or.inr ⟨a1.length, a1, b, h.2, rfl⟩
  · rintro (⟨b, h⟩ | ⟨k, a, b, h, -⟩)
    · exact ⟨0, [], b, by simpa using h, rfl⟩
    · exact ⟨(c :: a).length, c :: a, b, by simp [h], rfl⟩

theorem crlf_isPrefixOf (c : Char) (t : Str) :
    ([CR, LF].isPrefixOf (c :: t) = true) ↔ (c = CR ∧ t.head? = some LF) := by
  cases t with
  | nil => simp [List.isPrefixOf]
  | cons d u =>
    simp only [List.isPrefixOf, Bool.and_true, Bool.and_eq_true, beq_iff_eq, List.head?_cons,
      Option.some.injEq]
    constructor
    · rintro ⟨h1, h2⟩
      exact ⟨h1.symm, h2.symm⟩
    · rintro ⟨h1, h2⟩
      exact ⟨h1.symm, h2.symm⟩

theorem dropCR_length (t : Str) : (dropCR t).length ≤ t.length := by
  induction t with
  | nil => simp [dropCR]
  | cons c t ih =>
    by_cases h : c = CR ∧ t.head? = some LF
    · simp only [dropCR, if_pos h, List.length_cons]
      omega
    · simp only [dropCR, if_neg h, List.length_cons]
      omega

/-- The loop of `replace_all(s, "\r\n", "\n")` started at position `pre.size()` of
`pre ++ t` returns `pre` followed by `t` without every `\r` that is followed by `\n`. -/
theorem replace_allLoop_crlf : ∀ (n : Nat) (t pre : Str) (fuel : Nat), t.length ≤ n →
    t.length ≤ fuel → (pre ++ t).length ≤ stringMaxSize →
    replace_allLoop [CR, LF] [LF] fuel (find (pre ++ t) [CR, LF] pre.length) (pre ++ t)
      = some (pre ++ dropCR t) := by
  intro n
  induction n with
  | zero =>
    intro t pre fuel hn _ _
    have ht : t = [] := List.length_eq_zero.mp (by omega)
    subst ht
    rw [find_append]
    have : findFrom [CR, LF] [] pre.length = none := by simp [findFrom]
    rw [this]
    cases fuel <;> simp [replace_allLoop, dropCR]
  | succ n ih =>
    intro t pre fuel hn hfuel hmax
    cases t with
    | nil =>
      rw [find_append]
      have : findFrom [CR, LF] [] pre.length = none := by simp [findFrom]
      rw [this]
      cases fuel <;> simp [replace_allLoop, dropCR]
    | cons c t1 =>
      by_cases h : c = CR ∧ t1.head? = some LF
      · obtain ⟨hc, hh⟩ := h
        obtain ⟨u, rfl⟩ : ∃ u, t1 = LF :: u := by
          cases t1 with
          | nil => simp at hh
          | cons d u => exact ⟨u, by simp at hh; rw [hh]⟩
        subst hc
        obtain ⟨fuel, rfl⟩ : ∃ f, fuel = f + 1 := ⟨fuel - 1, by simp at hfuel; omega⟩
        have hfind : find (pre ++ CR :: LF :: u) [CR, LF] pre.length = some pre.length := by
          rw [find_append]
          simp [findFrom, List.isPrefixOf]
        have hrep : stringReplace (pre ++ CR :: LF :: u) pre.length [CR, LF].length [LF]
            = some ((pre ++ [LF]) ++ u) := by
          have e1 : (pre ++ CR :: LF :: u).take pre.length = pre := by simp
          have e2 : (pre ++ CR :: LF :: u).drop (pre.length + [CR, LF].length) = u := by
            have : pre.length + [CR, LF].length = (pre ++ [CR, LF]).length := by simp
            rw [this]
            have : pre ++ CR :: LF :: u = (pre ++ [CR, LF]) ++ u := by simp
            rw [this, List.drop_left]
          have hl : (pre ++ [LF] ++ u).length ≤ stringMaxSize := by
            simp only [List.length_append, List.length_cons, List.length_nil] at hmax ⊢
            omega
          have hp : pre.length ≤ (pre ++ CR :: LF :: u).length := by simp
          simp only [stringReplace, if_pos hp, e1, e2, if_pos hl]
        have hlen : pre.length + [LF].length = (pre ++ [LF]).length := by simp
        rw [hfind]
        simp only [replace_allLoop, hrep, Option.bind_eq_bind, Option.some_bind]
        rw [hlen, ih u (pre ++ [LF]) fuel (by simp at hn; omega) (by simp at hfuel; omega)
          (by simp only [List.length_append, List.length_cons, List.length_nil] at hmax ⊢
              omega)]
        have hd : dropCR (CR :: LF :: u) = LF :: dropCR u := by
          have h1 : (CR = CR ∧ (LF :: u).head? = some LF) := ⟨rfl, rfl⟩
          have h2 : ¬ (LF = CR ∧ u.head? = some LF) := fun h => absurd h.1 (by decide)
          show (if CR = CR ∧ (LF :: u).head? = some LF then dropCR (LF :: u)
            else CR :: dropCR (LF :: u)) = LF :: dropCR u
          rw [if_pos h1]
          show (if LF = CR ∧ u.head? = some LF then dropCR u else LF :: dropCR u)
            = LF :: dropCR u
          rw [if_neg h2]
        rw [hd]
        simp
      · have hpre : ¬ ([CR, LF].isPrefixOf (c :: t1) = true) := fun hp =>
          h ((crlf_isPrefixOf c t1).mp hp)
        have hfind : find (pre ++ c :: t1) [CR, LF] pre.length
            = find ((pre ++ [c]) ++ t1) [CR, LF] (pre ++ [c]).length := by
          rw [find_append, find_append]
          simp only [findFrom, hpre, List.length_append, List.length_cons, List.length_nil]
          rfl
        have hs : pre ++ c :: t1 = (pre ++ [c]) ++ t1 := by simp
        rw [hfind, hs, ih t1 (pre ++ [c]) fuel (by simp at hn; omega)
          (by simp at hfuel; omega) (by rw [← hs]; exact hmax)]
        simp only [dropCR, if_neg h]
        simp

theorem replace_all_crlf_eq (s : Str) (hlen : s.length ≤ stringMaxSize) :
    replace_all s [CR, LF] [LF] = some (dropCR s) := by
  have := replace_allLoop_crlf s.length s [] (s.length + 1) (Nat.le_refl _)
    (Nat.le_succ _) (by simpa using hlen)
  simpa [replace_all] using this

theorem dropCR_head {t : Str} (h : (dropCR t).head? = some LF) :
    t.head? = some LF ∨ ∃ u, t = CR :: LF :: u := by
  cases t with
  | nil => simp [dropCR] at h
  | cons d u =>
    by_cases hd : d = CR ∧ u.head? = some LF
    · right
      cases u with
      | nil => simp at hd
      | cons e w =>
        simp only [List.head?_cons, Option.some.injEq] at hd
        exact ⟨w, by rw [hd.1, hd.2]⟩
    · left
      simp only [dropCR, if_neg hd, List.head?_cons] at h
      simpa using h

theorem dropCR_no_crlf : ∀ t : Str, (¬ ∃ k, OccursAt [CR, CR, LF] t k) →
    ¬ ∃ k, OccursAt [CR, LF] (dropCR t) k := by
  intro t
  induction t with
  | nil =>
    rintro _ ⟨k, a, b, h, -⟩
    have := congrArg List.length h
    simp [dropCR] at this
    omega
  | cons c t ih =>
    intro hno
    rw [occurs_cons] at hno
    have hno1 : ¬ ∃ b, c :: t = [CR, CR, LF] ++ b := fun h => hno (Or.inl h)
    have hno2 : ¬ ∃ k, OccursAt [CR, CR, LF] t k := fun h => hno (Or.inr h)
    by_cases hd : c = CR ∧ t.head? = some LF
    · simp only [dropCR, if_pos hd]
      exact ih hno2
    · simp only [dropCR, if_neg hd]
      rw [occurs_cons]
      rintro (⟨b, hb⟩ | hocc)
      · simp only [List.cons_append, List.nil_append, List.cons.injEq] at hb
        have hhead : (dropCR t).head? = some LF := by rw [hb.2]; rfl
        rcases dropCR_head hhead with h1 | ⟨u, hu⟩
        · exact hd ⟨hb.1, h1⟩
        · exact hno1 ⟨u, by rw [hb.1, hu]; rfl⟩
      · exact ih hno2 hocc

/-- C32 (as stated) fails: `replace_all("\r\r\n", "\r\n", "\n")` is `"\r\n"`.  The
occurrence at position 1 is replaced and the search goes on behind the inserted `"\n"`,
so the `\r` left at position 0 and the new `\n` form an occurrence that is never seen. -/
theorem replace_all_leaves_crlf :
    replace_all [CR, CR, LF] [CR, LF] [LF] = some [CR, LF] ∧ OccursAt [CR, LF] [CR, LF] 0 :=
  ⟨by decide, [], [], rfl, rfl⟩

/-- C32 (amended): for every string `s` (of at most `max_size()` characters) that contains
no occurrence of `"\r\r\n"`, `replace_all(s, "\r\n", "\n")` returns a string that contains
no occurrence of `"\r\n"`; the result is `s` without every `\r` that is immediately
followed by `\n`. -/
theorem replace_all_crlf (s : Str) (hlen : s.length ≤ stringMaxSize)
    (h : ¬ ∃ k, OccursAt [CR, CR, LF] s k) :
    ∃ r, replace_all s [CR, LF] [LF] = some r ∧ (¬ ∃ k, OccursAt [CR, LF] r k) ∧
      r = dropCR s :=
  ⟨dropCR s, replace_all_crlf_eq s hlen, dropCR_no_crlf s h, rfl⟩

/-- The amended C32 at `"a\r\nb\r\n\r\n"`: the result is `"a\nb\n\n"`. -/
theorem replace_all_crlf_witness :
    ∃ r, replace_all ['a', CR, LF, 'b', CR, LF, CR, LF] [CR, LF] [LF] = some r ∧
      (¬ ∃ k, OccursAt [CR, LF] r k) ∧ r = ['a', LF, 'b', LF, LF] :=
  replace_all_crlf ['a', CR, LF, 'b', CR, LF, CR, LF] (by decide)
    (fun ⟨_, a, b, hab, _⟩ => findFrom_none
      (by decide : findFrom [CR, CR, LF] ['a', CR, LF, 'b', CR, LF, CR, LF] 0 = none) a b hab)

/-! ## Rotating a square table -/

theorem table_length {T : Type} (n : Nat) (f : Nat → Nat → T) : (table n f).length = n := by
  simp [table]

theorem table_getElem? {T : Type} (n : Nat) (f : Nat → Nat → T) {i : Nat} (hi : i < n) :
    (table n f)[i]? = some ((List.range n).map (f i)) := by
  simp [table, List.getElem?_range hi]

theorem table_entry {T : Type} (n : Nat) (f : Nat → Nat → T) {i j : Nat} (hi : i < n)
    (hj : j < n) : ((table n f)[i]?).bind (fun row => row[j]?) = some (f i j) := by
  simp [table_getElem? n f hi, List.getElem?_range hj]

theorem table_square {T : Type} (n : Nat) (f : Nat → Nat → T) :
    ∀ row ∈ table n f, row.length = (table n f).length := by
  intro row hrow
  rw [table_length]
  simp only [table, List.mem_map] at hrow
  obtain ⟨i, -, rfl⟩ := hrow
  simp

theorem table_congr {T : Type} (n : Nat) (f g : Nat → Nat → T)
    (h : ∀ i j, i < n → j < n → f i j = g i j) : table n f = table n g := by
  simp only [table]
  apply List.map_congr_left
  intro i hi
  apply List.map_congr_left
  intro j hj
  exact h i j (List.mem_range.mp hi) (List.mem_range.mp hj)

/-- A square table is the table of its elements. -/
theorem table_of_square {T : Type} (m : List (List T)) (f : Nat → Nat → T)
    (hf : ∀ i j, i < m.length → j < m.length →
      (m[i]?).bind (fun row => row[j]?) = some (f i j))
    (hsq : ∀ row ∈ m, row.length = m.length) : table m.length f = m := by
  apply List.ext_getElem?
  intro i
  by_cases hi : i < m.length
  · rw [table_getElem? _ _ hi, List.getElem?_eq_getElem hi]
    congr 1
    apply List.ext_getElem?
    intro j
    have hrow : m[i].length = m.length := hsq _ (List.getElem_mem hi)
    by_cases hj : j < m.length
    · have := hf i j hi hj
      rw [List.getElem?_eq_getElem hi] at this
      simp only [Option.some_bind] at this
      rw [this]
      simp [List.getElem?_range hj]
    · rw [List.getElem?_eq_none (by simp; omega), List.getElem?_eq_none (by omega)]
  · rw [List.getElem?_eq_none (by rw [table_length]; omega),
      List.getElem?_eq_none (by omega)]

/-- The two loop nests of `rotate90c` and `rotate90cc`: when the body appends `f i j` to
row `i`, the loops return the table of `f`. -/
theorem fill_rows {T : Type} (n : Nat)
    (body : Nat → Nat → List (List T) → Option (List (List T))) (f : Nat → Nat → T)
    (hbody : ∀ i j res ri, i < n → j < n → res[i]? = some ri →
      body i j res = some (res.set i (ri ++ [f i j]))) :
    (forLoop (fun _ res => some (res ++ [[]])) 0 n ([] : List (List T))).bind (fun res =>
      forLoop (fun i res => forLoop (fun j res => body i j res) 0 n res) 0 n res)
      = some (table n f) := by
  obtain ⟨r0, hr0, hP0⟩ := Matrix.forLoop_inv (fun _ (res : List (List T)) => some (res ++ [[]]))
    (fun i res => res = List.replicate i []) n 0 [] rfl
    (fun i res _ _ hP => ⟨res ++ [[]], rfl, by
      have hP1 : res = List.replicate i [] := hP
      show res ++ [[]] = List.replicate (i + 1) []
      rw [hP1, List.replicate_succ']⟩)
  have hinner : ∀ (i : Nat) (res : List (List T)), i < n → res.length = n →
      res[i]? = some [] →
      ∃ r, forLoop (fun j res => body i j res) 0 n res = some r ∧ r.length = n ∧
        (∀ k, k ≠ i → r[k]? = res[k]?) ∧ r[i]? = some ((List.range n).map (f i)) := by
    intro i res hi hlen hrow
    obtain ⟨r, hr, h1, h2, h3⟩ := Matrix.forLoop_inv (fun j res => body i j res)
      (fun j r => r.length = n ∧ (∀ k, k ≠ i → r[k]? = res[k]?) ∧
        r[i]? = some ((List.range j).map (f i))) n 0 res ⟨hlen, fun _ _ => rfl, by simpa using hrow⟩
      (fun j r _ hj hP => by
        obtain ⟨h1, h2, h3⟩ := hP
        refine ⟨_, hbody i j r _ hi (by omega) h3, by simp [h1], ?_, ?_⟩
        · intro k hk
          rw [List.getElem?_set_ne (Ne.symm hk)]
          exact h2 k hk
        · rw [List.getElem?_set_self (by omega)]
          simp [List.range_succ])
    exact ⟨r, hr, h1, h2, by simpa using h3⟩
  obtain ⟨r, hr, h1, h2, -⟩ := Matrix.forLoop_inv
    (fun i res => forLoop (fun j res => body i j res) 0 n res)
    (fun i r => r.length = n ∧ (∀ k, k < i → r[k]? = some ((List.range n).map (f k))) ∧
      (∀ k, i ≤ k → k < n → r[k]? = some [])) n 0 r0
    ⟨by rw [hP0]; simp, fun k hk => absurd hk (Nat.not_lt_zero k), fun k _ hk => by
      rw [hP0]; simp [hk, List.getElem?_replicate]⟩
    (fun i r _ hi hP => by
      obtain ⟨h1, h2, h3⟩ := hP
      have hi' : i < n := by omega
      obtain ⟨r1, hr1, g1, g2, g3⟩ := hinner i r hi' h1 (h3 i (Nat.le_refl _) hi')
      refine ⟨r1, hr1, g1, ?_, ?_⟩
      · intro k hk
        by_cases hki : k = i
        · rw [hki]; exact g3
        · rw [g2 k hki]
          exact h2 k (by omega)
      · intro k hk1 hk2
        rw [g2 k (by omega)]
        exact h3 k (by omega) hk2)
  rw [hr0]
  simp only [Option.some_bind]
  rw [hr]
  congr 1
  apply List.ext_getElem?
  intro k
  by_cases hk : k < n
  · rw [table_getElem? _ _ hk]
    exact h2 k (by omega)
  · rw [List.getElem?_eq_none (by omega), List.getElem?_eq_none (by rw [table_length]; omega)]

/-- `rotate90c` on a square table whose element at row `a`, column `b` is `e a b`. -/
theorem rotate90c_table {T : Type} (m : List (List T)) (e : Nat → Nat → T)
    (he : ∀ a b, a < m.length → b < m.length →
      (m[a]?).bind (fun row => row[b]?) = some (e a b)) :
    rotate90c m = some (table m.length (fun i j => e (m.length - j - 1) i)) := by
  apply fill_rows m.length _ (fun i j => e (m.length - j - 1) i)
  intro i j res ri hi hj hri
  have h := he (m.length - j - 1) i (by omega) hi
  have ha : m.length - j - 1 < m.length := by omega
  rw [List.getElem?_eq_getElem ha] at h ⊢
  simp only [Option.some_bind] at h
  simp [h, hri]

/-- `rotate90cc` on a square table whose element at row `a`, column `b` is `e a b`. -/
theorem rotate90cc_table {T : Type} (m : List (List T)) (e : Nat → Nat → T)
    (he : ∀ a b, a < m.length → b < m.length →
      (m[a]?).bind (fun row => row[b]?) = some (e a b)) :
    rotate90cc m = some (table m.length (fun i j => e j (m.length - i - 1))) := by
  apply fill_rows m.length _ (fun i j => e j (m.length - i - 1))
  intro i j res ri hi hj hri
  have h := he j (m.length - i - 1) hj (by omega)
  rw [List.getElem?_eq_getElem hj] at h ⊢
  simp only [Option.some_bind] at h
  simp [h, hri]

/-- The elements of a square table, as a function of the row and the column. -/
theorem square_entries {T : Type} (m : List (List T)) (hne : m ≠ [])
    (hsq : ∀ row ∈ m, row.length = m.length) :
    ∃ e : Nat → Nat → T, ∀ a b, a < m.length → b < m.length →
      (m[a]?).bind (fun row => row[b]?) = some (e a b) := by
  cases m with
  | nil => exact absurd rfl hne
  | cons row0 rest =>
    have h0 : row0.length = (row0 :: rest).length := hsq row0 (by simp)
    cases row0 with
    | nil => simp at h0
    | cons d tl =>
      refine ⟨fun a b => ((((d :: tl) :: rest)[a]?).bind (fun row => row[b]?)).getD d, ?_⟩
      intro a b ha hb
      have hrow : (((d :: tl) :: rest)[a]).length = ((d :: tl) :: rest).length :=
        hsq _ (List.getElem_mem ha)
      have hb1 : b < (((d :: tl) :: rest)[a]).length := by omega
      simp only [List.getElem?_eq_getElem ha, Option.some_bind, List.getElem?_eq_getElem hb1,
        Option.getD_some]

/-- C34: for every square table `m` (`n` rows, each of length `n`),
`rotate90cc(rotate90c(m)) == m` and `rotate90c(rotate90cc(m)) == m`, and
`rotate90c(m)` has `n` rows with `rotate90c(m)[i][j] = m[n-1-j][i]` for `i, j < n`. -/
theorem rotate90_inverse {T : Type} (m : List (List T))
    (hsq : ∀ row ∈ m, row.length = m.length) :
    (rotate90c m).bind rotate90cc = some m ∧ (rotate90cc m).bind rotate90c = some m ∧
    ∃ r, rotate90c m = some r ∧ r.length = m.length ∧
      ∀ i j, i < m.length → j < m.length →
        ∃ x, (r[i]?).bind (fun row => row[j]?) = some x ∧
          (m[m.length - 1 - j]?).bind (fun row => row[i]?) = some x := by
  by_cases hne : m = []
  · subst hne
    exact ⟨rfl, rfl, [], rfl, rfl, fun i j hi => absurd hi (Nat.not_lt_zero i)⟩
  obtain ⟨e, he⟩ := square_entries m hne hsq
  have hc := rotate90c_table m e he
  have hcc := rotate90cc_table m e he
  refine ⟨?_, ?_, ?_⟩
  · rw [hc]
    simp only [Option.some_bind]
    have h2 := rotate90cc_table (table m.length (fun i j => e (m.length - j - 1) i))
      (fun i j => e (m.length - j - 1) i)
      (fun a b ha hb => by
        rw [table_length] at ha hb
        exact table_entry _ _ ha hb)
    rw [h2, table_length]
    congr 1
    rw [table_congr m.length _ e (fun i j hi hj => by
      have : m.length - (m.length - i - 1) - 1 = i := by omega
      show e (m.length - (m.length - i - 1) - 1) j = e i j
      rw [this])]
    exact table_of_square m e he hsq
  · rw [hcc]
    simp only [Option.some_bind]
    have h2 := rotate90c_table (table m.length (fun i j => e j (m.length - i - 1)))
      (fun i j => e j (m.length - i - 1))
      (fun a b ha hb => by
        rw [table_length] at ha hb
        exact table_entry _ _ ha hb)
    rw [h2, table_length]
    congr 1
    rw [table_congr m.length _ e (fun i j hi hj => by
      have : m.length - (m.length - j - 1) - 1 = j := by omega
      show e i (m.length - (m.length - j - 1) - 1) = e i j
      rw [this])]
    exact table_of_square m e he hsq
  · refine ⟨_, hc, table_length _ _, ?_⟩
    intro i j hi hj
    refine ⟨e (m.length - j - 1) i, table_entry _ _ hi hj, ?_⟩
    have : m.length - 1 - j = m.length - j - 1 := by omega
    rw [this]
    exact he _ _ (by omega) hi

/-- C34 at the 3x3 table `((1,2,3),(4,5,6),(7,8,9))`. -/
theorem rotate90_inverse_witness :
    (rotate90c [[1, 2, 3], [4, 5, 6], [7, 8, 9]]).bind rotate90cc
      = some [[1, 2, 3], [4, 5, 6], [7, 8, 9]] ∧
    (rotate90cc [[1, 2, 3], [4, 5, 6], [7, 8, 9]]).bind rotate90c
      = some [[1, 2, 3], [4, 5, 6], [7, 8, 9]] ∧
    rotate90c [[1, 2, 3], [4, 5, 6], [7, 8, 9]] = some [[7, 4, 1], [8, 5, 2], [9, 6, 3]] :=
  ⟨(rotate90_inverse ([[1, 2, 3], [4, 5, 6], [7, 8, 9]] : List (List Nat)) (by decide)).1,
   (rotate90_inverse ([[1, 2, 3], [4, 5, 6], [7, 8, 9]] : List (List Nat)) (by decide)).2.1,
   by decide⟩

end Aoc
